import Mathlib

/-!
# template_regex: rules (`rules.hpp`) and the pattern parser (`regex.hpp`)

A shallow embedding of the matcher rules and of the template-level pattern
parser, followed by the properties checked against them.

Conventions of the embedding.

* Values are code units seen through `static_cast<int>`, hence `Int`.
* The input is a `std::string` (what the tests and the drivers pass): a list of
  values `s`, with `end` the index `s.length`.  The cursor is an index.  Reading
  the position `s.length` yields the terminator `0` that `std::string` keeps
  there; the embedding reads `0` at every position from `s.length` on.
* Output arguments are handles (indices) into the caller's list of sinks; the
  sinks themselves form the memory threaded through a match.
* `capture` wraps the iterator in a `capture_iterator`; the sinks of the
  enclosing captures are carried as `caps`, innermost first, and every
  increment copies the current value into each of them.
* Loops and the recursion over rules are driven by a fuel argument; `none`
  means the budget ran out.  A match that returns does so for every larger
  budget, and a match that never returns yields `none` for every budget.
-/

namespace template_regex

/-! ## string.hpp -/

/-- Code unit of a character. -/
def ch (c : Char) : Int := (c.toNat : Int)

/-- Code units of a string literal. -/
def chars (str : String) : List Int := str.toList.map ch

/-- Failed static assertions and ill-formed instantiations of the parser. -/
inductive CompileError where
  /-- Message "String cannot be empty". -/
  | string_cannot_be_empty
  /-- Message "Missing '[' character". -/
  | missing_open_square
  /-- Message "Missing ']' character". -/
  | missing_close_square
  /-- Message "Group must begins with '('". -/
  | group_must_begin
  /-- Message "Group must ends with ')'". -/
  | group_must_end
  /-- Message "No more characters" of `basic_string_builder_rest`. -/
  | no_more_characters
  /-- A rule was required where the parser produced `void`, or no
  specialization of `sequence_merge` applies. -/
  | incomplete_type
  /-- The recursion budget of the embedding ran out. -/
  | depth_exceeded
  deriving DecidableEq, Repr

/-- The value `character_at_str<I, Str>::value`: the character at position `i`, zero
beyond the string. -/
def character_at_str (i : Nat) (str : List Int) : Int :=
  match str, i with
  | [], _ => 0
  | value :: _, 0 => value
  | _ :: values, n + 1 => character_at_str n values

/-- The type `basic_string_builder_rest_str<N, ..., Str>::type`: the string without its
first `n` characters. -/
def basic_string_builder_rest_str (n : Nat) (str : List Int) :
    Except CompileError (List Int) :=
  match str with
  | [] => .ok []
  | charx :: chars =>
    if chars.length + 1 ≥ n then
      if n > 0 then basic_string_builder_rest_str (n - 1) chars
      else .ok (charx :: chars)
    else .error .no_more_characters

/-! ## rules.hpp -/

/-- The rule types of `rules.hpp`.  A rule list `Rule, Rules...` is a head and
a tail, as in the templates. -/
inductive Rule where
  | val (value : Int)
  | val_not (value : Int)
  | range (low high : Int)
  | null_rule
  | any
  | alternative (rule : Rule) (rules : List Rule)
  | alternative_not (rule : Rule) (rules : List Rule)
  | repeat_optional (rule : Rule)
  | repeat_ (rule : Rule)
  | optional (rule : Rule)
  | sequence (rule : Rule) (rules : List Rule)
  | capture (rule : Rule)
  | store (rule : Rule) (value : Int)
  | begin (rule : Rule)
  | end_ (rule : Rule)
  | begin_end (rule : Rule)
  deriving Repr, Inhabited

mutual
/-- The static member `output_count` of a rule. -/
def Rule.output_count : Rule → Nat
  | .val _ => 0
  | .val_not _ => 0
  | .range _ _ => 0
  | .null_rule => 0
  | .any => 0
  | .alternative rule _ => rule.output_count
  | .alternative_not rule _ => rule.output_count
  | .repeat_optional rule => rule.output_count
  | .repeat_ rule => rule.output_count
  | .optional rule => rule.output_count
  | .sequence rule rules => rule.output_count + output_counter rules
  | .capture rule => rule.output_count + 1
  | .store rule _ => rule.output_count + 1
  | .begin rule => rule.output_count
  | .end_ rule => rule.output_count
  | .begin_end rule => rule.output_count
/-- The value `output_counter<Rules...>::value`. -/
def output_counter : List Rule → Nat
  | [] => 0
  | rule :: rules => rule.output_count + output_counter rules
end

/-- What an output argument refers to in the caller. -/
inductive Sink where
  /-- A container written through `std::back_inserter`. -/
  | container (content : List Int)
  /-- A variable passed as `std::reference_wrapper`. -/
  | variable (value : Int)
  /-- The type `null_variable`. -/
  | null_variable
  deriving DecidableEq, Repr, Inhabited

/-- Dereference `*it` on a `std::string` iterator. -/
def deref (s : List Int) (it : Nat) : Int := s.getD it 0

/-- Statement `*out_ = value; ++out_` on a `std::back_inserter`. -/
def Sink.push (value : Int) : Sink → Sink
  | .container content => .container (content ++ [value])
  | sink => sink

/-- Function `store_helper<Output, Value>::set`. -/
def store_helper (value : Int) : Sink → Sink
  | .variable _ => .variable value
  | sink => sink

/-- Increment `++it`: through every enclosing `capture_iterator` the current value is
copied to its output, then the underlying iterator moves on. -/
def increment (s : List Int) (caps : List Nat) (it : Nat) (mem : List Sink) :
    Nat × List Sink :=
  (it + 1, caps.foldl (fun m out => m.modify (Sink.push (deref s it)) out) mem)

/-- Function `value_matcher<Parent>::match_impl`, with `is` the predicate `Parent::is`. -/
def value_matcher (is : Int → Bool) (s : List Int) (caps : List Nat) (it : Nat)
    (mem : List Sink) : Bool × Nat × List Sink :=
  if is (deref s it) then (true, increment s caps it mem) else (false, it, mem)

/-- Predicate `val<Value>::is`. -/
def val_is (value x : Int) : Bool := x == value

/-- Predicate `val_not<Value>::is`. -/
def val_not_is (value x : Int) : Bool := x != value

/-- Predicate `range<Low, High>::is`. -/
def range_is (low high x : Int) : Bool := decide (x ≥ low) && decide (x ≤ high)

/-- Predicate `any::is`. -/
def any_is (_ : Int) : Bool := true

mutual
/-- Function `Rule::match_impl(it, end, outs...)`.  The result is the returned flag, the
iterator `it` afterwards and the sinks afterwards.  `match_ref` is `match_impl`
behind a static assertion, so the rules that call `match_ref` on their inner
rule appear here with `match_impl`. -/
def match_impl : Nat → Rule → List Int → List Nat → List Nat → Nat → List Sink →
    Option (Bool × Nat × List Sink)
  | 0, _, _, _, _, _, _ => none
  | fuel + 1, rule, s, caps, outs, it, mem =>
    match rule with
    | .val value => some (value_matcher (val_is value) s caps it mem)
    | .val_not value => some (value_matcher (val_not_is value) s caps it mem)
    | .range low high => some (value_matcher (range_is low high) s caps it mem)
    | .any => some (value_matcher any_is s caps it mem)
    | .null_rule => some (true, it, mem)
    | .alternative rule [] => match_impl fuel rule s caps outs it mem
    | .alternative rule (rule2 :: rules) =>
      match match_impl fuel rule s caps outs it mem with
      | none => none
      | some (true, it1, mem1) => some (true, it1, mem1)
      | some (false, it1, mem1) =>
        match_impl fuel (.alternative rule2 rules) s caps outs it1 mem1
    | .alternative_not rule [] =>
      -- Iterator tmp = it;
      match match_impl fuel rule s caps outs it mem with
      | none => none
      | some (true, _, mem1) => some (false, it, mem1)
      | some (false, _, mem1) => some (true, increment s caps it mem1)
    | .alternative_not rule (rule2 :: rules) =>
      -- Iterator tmp = it;
      match match_impl fuel rule s caps outs it mem with
      | none => none
      | some (true, _, mem1) => some (false, it, mem1)
      | some (false, _, mem1) =>
        match_impl fuel (.alternative_not rule2 rules) s caps outs it mem1
    | .repeat_optional rule => repeat_optional_loop fuel rule s caps outs it mem
    | .repeat_ rule => repeat_loop fuel rule s caps outs 0 it mem
    | .optional rule =>
      match match_impl fuel rule s caps outs it mem with
      | none => none
      | some (_, it1, mem1) => some (true, it1, mem1)
    | .sequence rule [] => match_impl fuel rule s caps outs it mem
    | .sequence rule (rule2 :: rules) =>
      match match_impl fuel rule s caps (outs.take rule.output_count) it mem with
      | none => none
      | some (false, it1, mem1) => some (false, it1, mem1)
      | some (true, it1, mem1) =>
        match_impl fuel (.sequence rule2 rules) s caps
          (outs.drop rule.output_count) it1 mem1
    | .capture rule =>
      match outs with
      | [] => match_impl fuel rule s caps [] it mem
      | out_it :: out => match_impl fuel rule s (out_it :: caps) out it mem
    | .store rule value =>
      match outs with
      | [] => match_impl fuel rule s caps [] it mem
      | out :: outs1 =>
        match_impl fuel rule s caps outs1 it (mem.modify (store_helper value) out)
    | .begin rule => match_impl fuel rule s caps [] it mem
    | .end_ rule =>
      match match_impl fuel rule s caps [] it mem with
      | none => none
      | some (matched, it1, mem1) => some (matched && decide (it1 = s.length), it1, mem1)
    | .begin_end rule =>
      match match_impl fuel rule s caps [] it mem with
      | none => none
      | some (matched, it1, mem1) => some (matched && decide (it1 = s.length), it1, mem1)
termination_by structural fuel => fuel
/-- The loop of `repeat_optional::match_impl`:
`while (Rule::match_ref(it, end, out...)) continue; return true;`. -/
def repeat_optional_loop : Nat → Rule → List Int → List Nat → List Nat → Nat →
    List Sink → Option (Bool × Nat × List Sink)
  | 0, _, _, _, _, _, _ => none
  | fuel + 1, rule, s, caps, outs, it, mem =>
    match match_impl fuel rule s caps outs it mem with
    | none => none
    | some (true, it1, mem1) => repeat_optional_loop fuel rule s caps outs it1 mem1
    | some (false, it1, mem1) => some (true, it1, mem1)
termination_by structural fuel => fuel
/-- The loop of `repeat::match_impl`, `count` being the `unsigned int` counter:
`while ((it != end) && Rule::match_impl(it, end, out...)) ++count;`
`return (count != 0);`. -/
def repeat_loop : Nat → Rule → List Int → List Nat → List Nat → Nat → Nat →
    List Sink → Option (Bool × Nat × List Sink)
  | 0, _, _, _, _, _, _, _ => none
  | fuel + 1, rule, s, caps, outs, count, it, mem =>
    if it ≠ s.length then
      match match_impl fuel rule s caps outs it mem with
      | none => none
      | some (true, it1, mem1) =>
        repeat_loop fuel rule s caps outs ((count + 1) % 2 ^ 32) it1 mem1
      | some (false, it1, mem1) => some (decide (count ≠ 0), it1, mem1)
    else some (decide (count ≠ 0), it, mem)
termination_by structural fuel => fuel
end

/-- The member function `matcher<Rule>::match_ref`: the iterator is passed by
reference, so the caller sees where it ends up. -/
def match_ref (fuel : Nat) (rule : Rule) (s : List Int) (outs : List Nat) (it : Nat)
    (mem : List Sink) : Option (Bool × Nat × List Sink) :=
  match_impl fuel rule s [] outs it mem

/-- The member function `matcher<Rule>::match_all_ref`:
`Rule::match_impl(it, end, outs...) && (it == end)`. -/
def match_all_ref (fuel : Nat) (rule : Rule) (s : List Int) (outs : List Nat) (it : Nat)
    (mem : List Sink) : Option (Bool × Nat × List Sink) :=
  match match_impl fuel rule s [] outs it mem with
  | none => none
  | some (matched, it1, mem1) => some (matched && decide (it1 = s.length), it1, mem1)

/-! ## regex.hpp -/

/-- Members `rule` and `rest` of a parser structure; `rule` is `none` where the
source has `void`. -/
structure Parsed where
  rule : Option Rule
  rest : List Int

/-- Use of a parser's `rule` member where a rule type is needed. -/
def Parsed.need (p : Parsed) : Except CompileError Rule :=
  match p.rule with
  | some rule => .ok rule
  | none => .error .incomplete_type

/-- The structure `regex_parser_next_if<Str, CharT, CharValue>`: members `match`
and `rest`. -/
def regex_parser_next_if (str : List Int) (char_value : Int) :
    Except CompileError (Bool × List Int) := do
  let matched := character_at_str 0 str == char_value
  let rest ← basic_string_builder_rest_str (if matched then 1 else 0) str
  pure (matched, rest)

/-- The structure `regex_parser_char<Str>`: members `value` and `rest`; the
member `rule` is `val<value>`. -/
def regex_parser_char (str : List Int) : Except CompileError (Int × List Int) := do
  let escaped := character_at_str 0 str == ch '\\'
  let value := character_at_str (if escaped then 1 else 0) str
  let rest ← basic_string_builder_rest_str (if escaped then 2 else 1) str
  pure (value, rest)

/-- The structure `regex_parser_set_item<Str>`: members `rule` and `rest`. -/
def regex_parser_set_item (str : List Int) : Except CompileError (Rule × List Int) := do
  let char1 ← regex_parser_char str
  let dash ← regex_parser_next_if char1.2 (ch '-')
  let char2 ← regex_parser_char dash.2
  let is_range := dash.1
  pure (if is_range then Rule.range char1.1 char2.1 else Rule.val char1.1,
        if is_range then char2.2 else char1.2)

/-- The template `sequence_merge<A, B>::type`, `none` standing for `void`. -/
def sequence_merge : Option Rule → Option Rule → Except CompileError Rule
  | some (.sequence r1 seq1), some (.sequence r2 seq2) =>
    .ok (.sequence r1 (seq1 ++ r2 :: seq2))
  | none, some (.sequence r1 seq1) => .ok (.sequence r1 seq1)
  | some (.sequence r1 seq1), none => .ok (.sequence r1 seq1)
  | some rule, some (.sequence r1 seq1) => .ok (.sequence rule (r1 :: seq1))
  | some (.sequence r1 seq1), some rule => .ok (.sequence r1 (seq1 ++ [rule]))
  | _, _ => .error .incomplete_type

/-- The template `sequence_remove<Seq>::type`. -/
def sequence_remove : Rule → Rule
  | .sequence rule [] => rule
  | .alternative (.sequence rule rules) [] => .alternative rule rules
  | .alternative_not (.sequence rule rules) [] => .alternative_not rule rules
  | seq => seq

/-- The structure `regex_parser_set_items<Str, end>`. -/
def regex_parser_set_items : Nat → List Int → Bool → Except CompileError Parsed
  | 0, _, _ => .error .depth_exceeded
  | fuel + 1, str, end_ =>
    if end_ then .ok ⟨none, str⟩
    else do
      let item ← regex_parser_set_item str
      let next ← regex_parser_set_items fuel item.2
        (character_at_str 0 item.2 == ch ']' || character_at_str 0 item.2 == 0)
      let merged ← sequence_merge (some (.sequence item.1 [])) next.rule
      pure ⟨some (sequence_remove merged), next.rest⟩

/-- The structure `regex_parser_set<Str>`. -/
def regex_parser_set (fuel : Nat) (str : List Int) : Except CompileError Parsed := do
  if character_at_str 0 str != ch '[' then throw .missing_open_square
  let open_ ← regex_parser_next_if str (ch '[')
  let neg ← regex_parser_next_if open_.2 (ch '^')
  let items ← regex_parser_set_items fuel neg.2 false
  let close ← regex_parser_next_if items.rest (ch ']')
  if !close.1 then throw .missing_close_square
  let rule ← items.need
  pure ⟨some (if neg.1 then sequence_remove (.alternative_not rule [])
              else sequence_remove (.alternative rule [])), close.2⟩

mutual
/-- The structure `regex_parser_group<Str>`. -/
def regex_parser_group : Nat → List Int → Except CompileError Parsed
  | 0, _ => .error .depth_exceeded
  | fuel + 1, str => do
    let open_ ← regex_parser_next_if str (ch '(')
    let inner ← regex_parser_inner_re fuel open_.2 false
    let close ← regex_parser_next_if inner.rest (ch ')')
    if !open_.1 then throw .group_must_begin
    if !close.1 then throw .group_must_end
    pure ⟨inner.rule, close.2⟩
/-- The structure `regex_parser_elementary_re<Str>`. -/
def regex_parser_elementary_re : Nat → List Int → Except CompileError Parsed
  | 0, _ => .error .depth_exceeded
  | fuel + 1, str => do
    let is_any ← regex_parser_next_if str (ch '.')
    let is_group ← regex_parser_next_if str (ch '(')
    let is_set ← regex_parser_next_if str (ch '[')
    let selected ←
      if is_group.1 then regex_parser_group fuel str
      else if is_set.1 then regex_parser_set fuel str
      else do
        let c ← regex_parser_char str
        pure ⟨some (.val c.1), c.2⟩
    pure ⟨if is_any.1 then some Rule.any else selected.rule,
          if is_any.1 then is_any.2 else selected.rest⟩
/-- The structure `regex_parser_basic_re<Str>`. -/
def regex_parser_basic_re : Nat → List Int → Except CompileError Parsed
  | 0, _ => .error .depth_exceeded
  | fuel + 1, str => do
    let elementary ← regex_parser_elementary_re fuel str
    let star ← regex_parser_next_if elementary.rest (ch '*')
    let plus ← regex_parser_next_if elementary.rest (ch '+')
    let question ← regex_parser_next_if elementary.rest (ch '?')
    let rule ← elementary.need
    pure ⟨some (if star.1 then .repeat_optional rule
                else if plus.1 then .repeat_ rule
                else if question.1 then .optional rule
                else rule),
          if star.1 then star.2
          else if plus.1 then plus.2
          else if question.1 then question.2
          else elementary.rest⟩
/-- The structure `regex_parser_simple_re<Str, end>`. -/
def regex_parser_simple_re : Nat → List Int → Bool → Except CompileError Parsed
  | 0, _, _ => .error .depth_exceeded
  | fuel + 1, str, end_ =>
    if end_ then .ok ⟨none, str⟩
    else do
      let item ← regex_parser_basic_re fuel str
      let next ← regex_parser_simple_re fuel item.rest
        (character_at_str 0 item.rest == ch '|' ||
         character_at_str 0 item.rest == ch '$' ||
         character_at_str 0 item.rest == ch ')' ||
         character_at_str 0 item.rest == 0)
      let rule ← item.need
      let merged ← sequence_merge (some (.sequence rule [])) next.rule
      pure ⟨some (sequence_remove merged), next.rest⟩
/-- The structure `regex_parser_inner_re<Str, end>`. -/
def regex_parser_inner_re : Nat → List Int → Bool → Except CompileError Parsed
  | 0, _, _ => .error .depth_exceeded
  | fuel + 1, str, end_ =>
    if end_ then .ok ⟨none, str⟩
    else do
      let item ← regex_parser_simple_re fuel str false
      let next ← regex_parser_inner_re fuel item.rest
        (character_at_str 0 item.rest != ch '|')
      let rule ← item.need
      let merged ← sequence_merge (some (.sequence rule [])) next.rule
      pure ⟨some (sequence_remove merged), next.rest⟩
end

/-- The structure `regex_parser_re<Str>`: member `rule`. -/
def regex_parser_re (fuel : Nat) (str : List Int) : Except CompileError Rule := do
  if character_at_str 0 str == 0 then throw .string_cannot_be_empty
  let begin_ ← regex_parser_next_if str (ch '^')
  let inner ← regex_parser_inner_re fuel begin_.2 false
  let end_ ← regex_parser_next_if inner.rest (ch '$')
  let rule ← inner.need
  pure (if begin_.1 then (if end_.1 then .begin_end rule else .begin rule)
        else (if end_.1 then .end_ rule else rule))

/-- The member `basic_regex<CharT, Chars...>::rule`: the rule type compiled from
a pattern.  The parser recursion goes at most five levels down per pattern
character. -/
def basic_regex (str : List Int) : Except CompileError Rule :=
  regex_parser_re (5 * str.length + 8) str

/-- The function `regex_match(regex, source)`, `regex` holding the compiled `rule`:
`rules::match<typename Regex::rule>(first, last)`. -/
def regex_match (fuel : Nat) (rule : Rule) (source : List Int) : Option Bool :=
  (match_impl fuel rule source [] [] 0 []).map (fun r => r.1)

/-! ## Definitions used in the statements -/

/-- Flag and iterator of a result. -/
def proj (x : Bool × Nat × List Sink) : Bool × Nat := (x.1, x.2.1)

/-- Flag and iterator of a match that uses no outputs. -/
def run (fuel : Nat) (rule : Rule) (s : List Int) (it : Nat) : Option (Bool × Nat) :=
  (match_impl fuel rule s [] [] it []).map proj

/-- The call `rule::match_impl(it, end, outs...)` on the input `s` returns `flag`
and leaves the iterator at `q`, whatever outputs it is given. -/
def Returns (rule : Rule) (s : List Int) (it : Nat) (flag : Bool) (q : Nat) : Prop :=
  ∀ caps outs mem, ∃ fuel mem1,
    match_impl fuel rule s caps outs it mem = some (flag, q, mem1)

/-- The rules of the list match one after the other, each from where the one
before stopped, taking the iterator from `p` to `q`. -/
def steps (s : List Int) : List Rule → Nat → Nat → Prop
  | [], p, q => p = q
  | rule :: rules, p, q => ∃ m, Returns rule s p true m ∧ steps s rules m q

/-- The rules of the list fail one after the other, each from where the one
before stopped, taking the iterator from `p` to `q`. -/
def fail_steps (s : List Int) : List Rule → Nat → Nat → Prop
  | [], p, q => p = q
  | rule :: rules, p, q => ∃ m, Returns rule s p false m ∧ fail_steps s rules m q

/-- The test rule of `TEST(rules, sequence)`. -/
def sequence_a_to_f : Rule :=
  .sequence (.val (ch 'a')) [.val (ch 'b'), .val (ch 'c'), .val (ch 'd'), .val (ch 'e'),
    .val (ch 'f')]

/-- The test rule of `TEST(rules, alternatives)`. -/
def alternative_abc : Rule :=
  .alternative (.val (ch 'a')) [.val (ch 'b'), .val (ch 'c')]

/-- The test rule of `TEST(rules, alternatives_not)`. -/
def alternative_not_abc : Rule :=
  .alternative_not (.val (ch 'a')) [.val (ch 'b'), .val (ch 'c')]

/-- The rule `sequence<val<'a'>, val<'b'>>`. -/
def sequence_ab : Rule := .sequence (.val (ch 'a')) [.val (ch 'b')]

/-- The rule `sequence<val<'a'>, val<'c'>>`. -/
def sequence_ac : Rule := .sequence (.val (ch 'a')) [.val (ch 'c')]

/-- The rule `repeat_optional<optional<val<'a'>>>`, which the pattern "(a?)*"
compiles to. -/
def repeat_optional_of_optional_a : Rule := .repeat_optional (.optional (.val (ch 'a')))

/-- The rule `sequence<val<'a'>, val<'|'>, val<'b'>>`. -/
def sequence_a_bar_b : Rule := .sequence (.val (ch 'a')) [.val (ch '|'), .val (ch 'b')]

/-- The values the parser gives a meaning to: the terminator `0` that ends a
pattern and the characters `. ( ) [ \ * + ? | $ ^`. -/
def metacharacter (c : Int) : Bool :=
  c == 0 || c == ch '.' || c == ch '(' || c == ch ')' || c == ch '[' || c == ch '\\' ||
    c == ch '*' || c == ch '+' || c == ch '?' || c == ch '|' || c == ch '$' || c == ch '^'

/-- The rule a pattern of plain characters `c cs` stands for: `val<c>` for a single
character, `sequence<val<c>, val<cs>...>` otherwise. -/
def literal_rule (c : Int) (cs : List Int) : Rule :=
  match cs with
  | [] => .val c
  | _ :: _ => .sequence (.val c) (cs.map Rule.val)

/-- The values `cs` stand in `t` from position `it` on. -/
def occurs_at (t : List Int) : List Int → Nat → Bool
  | [], _ => true
  | c :: cs, it => deref t it == c && occurs_at t cs (it + 1)

/-- The rule of `TEST(rules, store)`:
`sequence<val<'['>, store<null_rule, 5>, repeat<range<'a', 'z'>>, val<']'>>`. -/
def store_test_rule : Rule :=
  .sequence (.val (ch '[')) [.store .null_rule 5, .repeat_ (.range (ch 'a') (ch 'z')),
    .val (ch ']')]

/-- The children `rule, rules...` run in order on the same outputs, each from the
iterator and the sinks the failed child before it left, up to and including
the first one that returns true; no child after that one is run. -/
def run_until_success (fuel : Nat) (s : List Int) (caps outs : List Nat) :
    Rule → List Rule → Nat → List Sink → Option (Bool × Nat × List Sink)
  | rule, [], it, mem => match_impl fuel rule s caps outs it mem
  | rule, rule2 :: rules, it, mem =>
    match match_impl fuel rule s caps outs it mem with
    | none => none
    | some (true, it1, mem1) => some (true, it1, mem1)
    | some (false, it1, mem1) => run_until_success fuel s caps outs rule2 rules it1 mem1

/-- The rule `alternative<store<val<'a'>, 1>, store<val<'b'>, 2>>`. -/
def alternative_of_stores : Rule :=
  .alternative (.store (.val (ch 'a')) 1) [.store (.val (ch 'b')) 2]

/-- The children run in order, the child that stands after children of total
output count `offset` on the slice of `outs` that starts at `offset` and has the
length of its own `output_count`, each from the iterator and the sinks the
child before it left, up to the first one that returns false. -/
def run_sliced (fuel : Nat) (s : List Int) (caps outs : List Nat) :
    Nat → List Rule → Nat → List Sink → Option (Bool × Nat × List Sink)
  | _, [], it, mem => some (true, it, mem)
  | offset, rule :: rules, it, mem =>
    match match_impl fuel rule s caps ((outs.drop offset).take rule.output_count) it mem with
    | none => none
    | some (false, it1, mem1) => some (false, it1, mem1)
    | some (true, it1, mem1) =>
      run_sliced fuel s caps outs (offset + rule.output_count) rules it1 mem1

/-- A sequence of two captures around a plain value:
`sequence<capture<val<'a'>>, val<'-'>, capture<val<'b'>>>`. -/
def sequence_of_captures : Rule :=
  .sequence (.capture (.val (ch 'a'))) [.val (ch '-'), .capture (.val (ch 'b'))]

/-- The rule of `TEST(rules, capture)`:
`sequence<val<'['>, capture<repeat<range<'a', 'z'>>>, val<']'>>`. -/
def capture_test_rule : Rule :=
  .sequence (.val (ch '[')) [.capture (.repeat_ (.range (ch 'a') (ch 'z'))), .val (ch ']')]

/-- The rule `rule2` of the disabled part of `TEST(rules, capture)`:
`sequence<val<'['>, capture<repeat<alternative_not<val<']'>>>>, val<']'>>`. -/
def capture_test_rule2 : Rule :=
  .sequence (.val (ch '[')) [.capture (.repeat_ (.alternative_not (.val (ch ']')) [])),
    .val (ch ']')]

/-- The rule `store<val<'a'>, 5>`. -/
def store_val_a : Rule := .store (.val (ch 'a')) 5

/-- The rule `rule` tests the value at the iterator with `is` and nothing else: it
returns true and moves one further when `is` holds of that value, and returns
false in place otherwise. -/
def IsClass (rule : Rule) (is : Int → Bool) : Prop :=
  ∀ s it, Returns rule s it (is (deref s it)) (if is (deref s it) = true then it + 1 else it)

/-- An ASCII letter, by the words of the documentation. -/
def ascii_letter (x : Int) : Prop :=
  (ch 'a' ≤ x ∧ x ≤ ch 'z') ∨ (ch 'A' ≤ x ∧ x ≤ ch 'Z')

/-- A decimal digit, by the words of the documentation. -/
def ascii_digit (x : Int) : Prop := ch '0' ≤ x ∧ x ≤ ch '9'

/-- The inputs the documentation calls identifiers: not empty, the first element
a letter or '_', every later element a letter, a digit or '_'. -/
def is_identifier (t : List Int) : Prop :=
  ∃ c cs, t = c :: cs ∧ (ascii_letter c ∨ c = ch '_') ∧
    ∀ x ∈ cs, ascii_letter x ∨ ascii_digit x ∨ x = ch '_'

/-- The inputs the documentation calls dates: one or two digits, '/', one or two
digits, '/', four digits, and nothing else. -/
def is_date (t : List Int) : Prop :=
  ∃ d m y : List Int, t = d ++ ch '/' :: (m ++ ch '/' :: y) ∧
    (d.length = 1 ∨ d.length = 2) ∧ (m.length = 1 ∨ m.length = 2) ∧ y.length = 4 ∧
    (∀ x ∈ d, ascii_digit x) ∧ (∀ x ∈ m, ascii_digit x) ∧ (∀ x ∈ y, ascii_digit x)

/-- The rule of the pattern `^[a-zA-Z_][a-zA-Z0-9_]*$` of `test_identifiers`. -/
def identifier_rule : Rule :=
  .begin_end (.sequence
    (.alternative (.range (ch 'a') (ch 'z')) [.range (ch 'A') (ch 'Z'), .val (ch '_')])
    [.repeat_optional (.alternative (.range (ch 'a') (ch 'z'))
      [.range (ch 'A') (ch 'Z'), .range (ch '0') (ch '9'), .val (ch '_')])])

/-- The rule `alternative<range<'0', '9'>>` of the set `[0-9]`. -/
def digit_rule : Rule := .alternative (.range (ch '0') (ch '9')) []

/-- The rule of the pattern `^[0-9][0-9]?/[0-9][0-9]?/[0-9][0-9][0-9][0-9]$` of
`test_date`; the test `regex, rules` gives it without the anchors. -/
def date_rule : Rule :=
  .begin_end (.sequence digit_rule
    [.optional digit_rule, .val (ch '/'), digit_rule, .optional digit_rule, .val (ch '/'),
     digit_rule, digit_rule, digit_rule, digit_rule])

/-- The rule of the pattern `^[-+]?[0-9]*\.?[0-9]+([eE][-+]?[0-9]+)?$` of
`test_float`. -/
def float_rule : Rule :=
  .begin_end (.sequence
    (.optional (.alternative (.val (ch '-')) [.val (ch '+')]))
    [.repeat_optional digit_rule,
     .optional (.val (ch '.')),
     .repeat_ digit_rule,
     .optional (.sequence (.alternative (.val (ch 'e')) [.val (ch 'E')])
       [.optional (.alternative (.val (ch '-')) [.val (ch '+')]), .repeat_ digit_rule])])

/-- One place of a sequence of tests on single values: the test `is`, the rule
`rule` that performs it, and whether the rule is wrapped in `optional`. -/
structure Token where
  is_optional : Bool
  is : Int → Bool
  rule : Rule

/-- The rule standing at the place of a token. -/
def Token.to_rule (t : Token) : Rule :=
  if t.is_optional then .optional t.rule else t.rule

/-- What a sequence of tokens leaves of the values `s`, read from the left without
going back: a token takes the first value when its test holds of it, an
optional token is skipped otherwise, and any other token stops the reading. -/
def consume : List Token → List Int → Option (List Int)
  | [], s => some s
  | t :: ts, [] => if t.is_optional then consume ts [] else none
  | t :: ts, x :: rest =>
    if t.is x then consume ts rest
    else if t.is_optional then consume ts (x :: rest) else none

/-- The tokens of `date_rule`. -/
def date_tokens : List Token :=
  [⟨false, range_is (ch '0') (ch '9'), digit_rule⟩,
   ⟨true, range_is (ch '0') (ch '9'), digit_rule⟩,
   ⟨false, val_is (ch '/'), .val (ch '/')⟩,
   ⟨false, range_is (ch '0') (ch '9'), digit_rule⟩,
   ⟨true, range_is (ch '0') (ch '9'), digit_rule⟩,
   ⟨false, val_is (ch '/'), .val (ch '/')⟩,
   ⟨false, range_is (ch '0') (ch '9'), digit_rule⟩,
   ⟨false, range_is (ch '0') (ch '9'), digit_rule⟩,
   ⟨false, range_is (ch '0') (ch '9'), digit_rule⟩,
   ⟨false, range_is (ch '0') (ch '9'), digit_rule⟩]

/-- The template argument `end` that `regex_parser_simple_re` passes on: the next
character of the pattern closes the simple-RE. -/
def simple_re_stops (str : List Int) : Bool :=
  character_at_str 0 str == ch '|' ||
  character_at_str 0 str == ch '$' ||
  character_at_str 0 str == ch ')' ||
  character_at_str 0 str == 0

/-- By the grammar `simple-RE = basic-RE { basic-RE }`: the pattern `str` begins
with a simple-RE made of basic-REs whose rules are `rules`, in this order, and
`rest` is what follows it. -/
def basic_re_chain : List Rule → List Int → List Int → Prop
  | [], _, _ => False
  | [r], str, rest =>
    (∃ n, regex_parser_basic_re n str = .ok ⟨some r, rest⟩) ∧ simple_re_stops rest = true
  | r :: r2 :: rs, str, rest =>
    ∃ mid, (∃ n, regex_parser_basic_re n str = .ok ⟨some r, mid⟩) ∧
      simple_re_stops mid = false ∧ basic_re_chain (r2 :: rs) mid rest

/-- The children that a rule adds when `sequence_merge` puts it behind a sequence:
the children of a `sequence`, and any other rule itself. -/
def merged_children : Rule → List Rule
  | .sequence rule rules => rule :: rules
  | rule => [rule]

/-- The rules of a list with the last one replaced by its `merged_children`. -/
def spliced : List Rule → List Rule
  | [] => []
  | [r] => merged_children r
  | r :: r2 :: rs => r :: spliced (r2 :: rs)

/-- The rule of a simple-RE made of basic-REs with the rules `r :: rs`: `r` itself
when there is no other, else one `sequence` of the rules, the last one
spliced. -/
def simple_re_rule : Rule → List Rule → Rule
  | r, [] => r
  | r, r2 :: rs => .sequence r (spliced (r2 :: rs))

/-- A character of a set as it is written in the pattern: bare, or behind a
backslash. -/
structure SetChar where
  escaped : Bool
  value : Int

/-- The pattern text of a character of a set. -/
def SetChar.text (c : SetChar) : List Int :=
  if c.escaped then [ch '\\', c.value] else [c.value]

/-- A bare backslash is not a character: it escapes the next one. -/
def SetChar.well_formed (c : SetChar) : Bool := c.escaped || c.value != ch '\\'

/-- A bare ']' and the terminator do not open an item: they close the items. -/
def SetChar.opens (c : SetChar) : Bool :=
  c.escaped || (c.value != ch ']' && c.value != 0)

/-- An item of a set by the grammar `set-item = char [ "-" char ]`. -/
inductive SetItem where
  | single (c : SetChar)
  | range (low high : SetChar)

/-- The first character of an item. -/
def SetItem.first : SetItem → SetChar
  | .single c => c
  | .range low _ => low

/-- The pattern text of an item. -/
def SetItem.text : SetItem → List Int
  | .single c => c.text
  | .range low high => low.text ++ ch '-' :: high.text

/-- The rule the documentation gives for an item: `Range(x, y)` for `x-y` with the
two values as written, the literal for a single character. -/
def SetItem.rule : SetItem → Rule
  | .single c => .val c.value
  | .range low high => .range low.value high.value

/-- The characters of an item are well formed and the first one opens an item. -/
def SetItem.well_formed : SetItem → Bool
  | .single c => c.well_formed && c.opens
  | .range low high => low.well_formed && low.opens && high.well_formed

/-- The items are well formed, and no single character is followed by an item that
begins with a bare '-', which would make the two read as a range. -/
def items_well_formed : List SetItem → Bool
  | [] => true
  | [i] => i.well_formed
  | i :: j :: rest =>
    i.well_formed &&
    (match i with
     | .single _ => j.first.escaped || j.first.value != ch '-'
     | .range _ _ => true) &&
    items_well_formed (j :: rest)

/-- The pattern text of the items of a set. -/
def items_text : List SetItem → List Int
  | [] => []
  | i :: rest => i.text ++ items_text rest

/-- The member `rule` of `regex_parser_set_items` on the items `i :: is`: the rule
of a lone item, else the `sequence` of the rules of the items. -/
def items_rule : SetItem → List SetItem → Rule
  | i, [] => i.rule
  | i, j :: js => .sequence i.rule ((j :: js).map SetItem.rule)

/-- The predefined type `newline_multiplatform` of rules.hpp:
`alternative<val<'\n'>, sequence<val<'\r'>, optional<val<'\n'>>>>`. -/
def newline_multiplatform : Rule :=
  .alternative (.val (ch '\n')) [.sequence (.val (ch '\r')) [.optional (.val (ch '\n'))]]

/-- The result `x` of a parser is a value for which `P` holds, or an error for which
`E` holds. -/
def Sat {α : Type} (P : α → Prop) (E : CompileError → Prop) (x : Except CompileError α) :
    Prop :=
  match x with
  | .ok a => P a
  | .error e => E e

/-- The text left by a parser satisfies `Q`, and its rule, when it has one,
satisfies `R`. -/
def Parsed.good (Q : List Int → Prop) (R : Rule → Prop) (p : Parsed) : Prop :=
  Q p.rest ∧ ∀ r, p.rule = some r → R r

mutual
/-- The rule is built only from `val`, `range`, `any`, `sequence`, `alternative`,
`alternative_not`, `repeat`, `repeat_optional` and `optional`. -/
def Rule.is_plain : Rule → Bool
  | .val _ => true
  | .range _ _ => true
  | .any => true
  | .sequence rule rules => rule.is_plain && all_plain rules
  | .alternative rule rules => rule.is_plain && all_plain rules
  | .alternative_not rule rules => rule.is_plain && all_plain rules
  | .repeat_ rule => rule.is_plain
  | .repeat_optional rule => rule.is_plain
  | .optional rule => rule.is_plain
  | .val_not _ => false
  | .null_rule => false
  | .capture _ => false
  | .store _ _ => false
  | .begin _ => false
  | .end_ _ => false
  | .begin_end _ => false
/-- Every rule of the pack is plain. -/
def all_plain : List Rule → Bool
  | [] => true
  | rule :: rules => rule.is_plain && all_plain rules
end

/-- A call of one of the parsers of regex.hpp on a text (`simple` and `inner` with
`end = false`). -/
inductive ParserCall where
  | set (str : List Int)
  | group (str : List Int)
  | elementary (str : List Int)
  | basic (str : List Int)
  | simple (str : List Int)
  | inner (str : List Int)

/-- The result of a parser call with the recursion budget `n`. -/
def ParserCall.run : ParserCall → Nat → Except CompileError Parsed
  | .set str, n => regex_parser_set n str
  | .group str, n => regex_parser_group n str
  | .elementary str, n => regex_parser_elementary_re n str
  | .basic str, n => regex_parser_basic_re n str
  | .simple str, n => regex_parser_simple_re n str false
  | .inner str, n => regex_parser_inner_re n str false

/-- The parser call on the left instantiates the parser call on the right, the
parsers it instantiates before that one having given their results. -/
inductive calls : ParserCall → ParserCall → Prop where
  | group (s : List Int) : calls (.group (ch '(' :: s)) (.inner s)
  | elementary_group (s : List Int) :
    character_at_str 0 s = ch '(' → calls (.elementary s) (.group s)
  | elementary_set (s : List Int) :
    character_at_str 0 s = ch '[' → calls (.elementary s) (.set s)
  | basic (s : List Int) : calls (.basic s) (.elementary s)
  | simple_first (s : List Int) : calls (.simple s) (.basic s)
  | simple_next (s : List Int) (r : Rule) (mid : List Int) :
    (∃ n, regex_parser_basic_re n s = .ok ⟨some r, mid⟩) → simple_re_stops mid = false →
    calls (.simple s) (.simple mid)
  | inner_first (s : List Int) : calls (.inner s) (.simple s)
  | inner_next (s : List Int) (r : Rule) (mid : List Int) :
    (∃ n, regex_parser_simple_re n s false = .ok ⟨some r, mid⟩) →
    character_at_str 0 mid = ch '|' → calls (.inner s) (.inner mid)

/-- The text that `regex_parser_re` hands to the inner-RE parser: the pattern
without a '^' at its beginning. -/
def after_begin (str : List Int) : List Int :=
  if character_at_str 0 str == ch '^' then str.tail else str

/-- The parsing of the pattern `str` comes to the parser call `call`. -/
def reaches (str : List Int) (call : ParserCall) : Prop :=
  Relation.ReflTransGen calls (.inner (after_begin str)) call

/-- The rule of the pattern `^a?[a-z]+T?$` of the test `regex, regex6`. -/
def regex6_rule : Rule :=
  .begin_end (.sequence (.optional (.val (ch 'a')))
    [.repeat_ (.alternative (.range (ch 'a') (ch 'z')) []), .optional (.val (ch 'T'))])

/-! ## Fuel and sinks -/

/-- A result obtained with some budget is obtained with one more unit of it. -/
theorem fuel_step (n : Nat) :
    (∀ r s caps outs it mem x, match_impl n r s caps outs it mem = some x →
      match_impl (n + 1) r s caps outs it mem = some x) ∧
    (∀ r s caps outs it mem x, repeat_optional_loop n r s caps outs it mem = some x →
      repeat_optional_loop (n + 1) r s caps outs it mem = some x) ∧
    (∀ r s caps outs c it mem x, repeat_loop n r s caps outs c it mem = some x →
      repeat_loop (n + 1) r s caps outs c it mem = some x) := by
  induction n with
  | zero => simp [match_impl, repeat_optional_loop, repeat_loop]
  | succ n ih =>
    obtain ⟨ih1, ih2, ih3⟩ := ih
    refine ⟨?_, ?_, ?_⟩
    · intro r s caps outs it mem x h
      cases r with
      | val v => simpa [match_impl] using h
      | val_not v => simpa [match_impl] using h
      | range lo hi => simpa [match_impl] using h
      | null_rule => simpa [match_impl] using h
      | any => simpa [match_impl] using h
      | alternative r rs =>
        cases rs with
        | nil =>
          simp only [match_impl] at h ⊢
          exact ih1 _ _ _ _ _ _ _ h
        | cons r2 rs =>
          rw [match_impl] at h ⊢
          cases hc : match_impl n r s caps outs it mem with
          | none => simp [hc] at h
          | some y =>
            obtain ⟨b, it1, mem1⟩ := y
            have hc1 := ih1 _ _ _ _ _ _ _ hc
            cases b <;> simp only [hc, hc1] at h ⊢
            · exact ih1 _ _ _ _ _ _ _ h
            · exact h
      | alternative_not r rs =>
        cases rs with
        | nil =>
          rw [match_impl] at h ⊢
          cases hc : match_impl n r s caps outs it mem with
          | none => simp [hc] at h
          | some y =>
            obtain ⟨b, it1, mem1⟩ := y
            have hc1 := ih1 _ _ _ _ _ _ _ hc
            cases b <;> simp only [hc, hc1] at h ⊢ <;> exact h
        | cons r2 rs =>
          rw [match_impl] at h ⊢
          cases hc : match_impl n r s caps outs it mem with
          | none => simp [hc] at h
          | some y =>
            obtain ⟨b, it1, mem1⟩ := y
            have hc1 := ih1 _ _ _ _ _ _ _ hc
            cases b <;> simp only [hc, hc1] at h ⊢
            · exact ih1 _ _ _ _ _ _ _ h
            · exact h
      | repeat_optional r =>
        simp only [match_impl] at h ⊢
        exact ih2 _ _ _ _ _ _ _ h
      | repeat_ r =>
        simp only [match_impl] at h ⊢
        exact ih3 _ _ _ _ _ _ _ _ h
      | optional r =>
        rw [match_impl] at h ⊢
        cases hc : match_impl n r s caps outs it mem with
        | none => simp [hc] at h
        | some y =>
          obtain ⟨b, it1, mem1⟩ := y
          have hc1 := ih1 _ _ _ _ _ _ _ hc
          simp only [hc, hc1] at h ⊢
          exact h
      | sequence r rs =>
        cases rs with
        | nil =>
          simp only [match_impl] at h ⊢
          exact ih1 _ _ _ _ _ _ _ h
        | cons r2 rs =>
          rw [match_impl] at h ⊢
          cases hc : match_impl n r s caps (List.take r.output_count outs) it mem with
          | none => simp [hc] at h
          | some y =>
            obtain ⟨b, it1, mem1⟩ := y
            have hc1 := ih1 _ _ _ _ _ _ _ hc
            cases b <;> simp only [hc, hc1] at h ⊢
            · exact h
            · exact ih1 _ _ _ _ _ _ _ h
      | capture r =>
        cases outs with
        | nil =>
          simp only [match_impl] at h ⊢
          exact ih1 _ _ _ _ _ _ _ h
        | cons o os =>
          simp only [match_impl] at h ⊢
          exact ih1 _ _ _ _ _ _ _ h
      | store r v =>
        cases outs with
        | nil =>
          simp only [match_impl] at h ⊢
          exact ih1 _ _ _ _ _ _ _ h
        | cons o os =>
          simp only [match_impl] at h ⊢
          exact ih1 _ _ _ _ _ _ _ h
      | begin r =>
        simp only [match_impl] at h ⊢
        exact ih1 _ _ _ _ _ _ _ h
      | end_ r =>
        rw [match_impl] at h ⊢
        cases hc : match_impl n r s caps [] it mem with
        | none => simp [hc] at h
        | some y =>
          obtain ⟨b, it1, mem1⟩ := y
          have hc1 := ih1 _ _ _ _ _ _ _ hc
          simp only [hc, hc1] at h ⊢
          exact h
      | begin_end r =>
        rw [match_impl] at h ⊢
        cases hc : match_impl n r s caps [] it mem with
        | none => simp [hc] at h
        | some y =>
          obtain ⟨b, it1, mem1⟩ := y
          have hc1 := ih1 _ _ _ _ _ _ _ hc
          simp only [hc, hc1] at h ⊢
          exact h
    · intro r s caps outs it mem x h
      rw [repeat_optional_loop] at h ⊢
      cases hc : match_impl n r s caps outs it mem with
      | none => simp [hc] at h
      | some y =>
        obtain ⟨b, it1, mem1⟩ := y
        have hc1 := ih1 _ _ _ _ _ _ _ hc
        cases b <;> simp only [hc, hc1] at h ⊢
        · exact h
        · exact ih2 _ _ _ _ _ _ _ h
    · intro r s caps outs c it mem x h
      rw [repeat_loop] at h ⊢
      by_cases he : it = s.length
      · simpa [he] using h
      · simp only [ne_eq, he, not_false_eq_true, if_true] at h ⊢
        cases hc : match_impl n r s caps outs it mem with
        | none => simp [hc] at h
        | some y =>
          obtain ⟨b, it1, mem1⟩ := y
          have hc1 := ih1 _ _ _ _ _ _ _ hc
          cases b <;> simp only [hc, hc1] at h ⊢
          · exact h
          · exact ih3 _ _ _ _ _ _ _ _ h

/-- Two results with the same flag and iterator are both missing or both present. -/
theorem proj_cases {a b : Option (Bool × Nat × List Sink)}
    (e : a.map proj = b.map proj) :
    (a = none ∧ b = none) ∨
      ∃ f q m m', a = some (f, q, m) ∧ b = some (f, q, m') := by
  cases a with
  | none =>
    cases b with
    | none => exact Or.inl ⟨rfl, rfl⟩
    | some y => simp at e
  | some x =>
    cases b with
    | none => simp at e
    | some y =>
      obtain ⟨f, q, m⟩ := x
      obtain ⟨f', q', m'⟩ := y
      simp only [Option.map_some', proj, Option.some.injEq, Prod.mk.injEq] at e
      obtain ⟨rfl, rfl⟩ := e
      exact Or.inr ⟨f, q, m, m', rfl, rfl⟩

theorem value_matcher_proj (is : Int → Bool) (s : List Int) (caps caps' : List Nat) (it : Nat)
    (mem mem' : List Sink) :
    proj (value_matcher is s caps it mem) = proj (value_matcher is s caps' it mem') := by
  unfold value_matcher
  split <;> simp [proj, increment]

/-- The flag and the iterator of a match do not depend on the outputs it is given:
no rule reads a sink. -/
theorem sinks_irrelevant (n : Nat) :
    (∀ r s it caps outs mem caps' outs' mem',
      (match_impl n r s caps outs it mem).map proj =
        (match_impl n r s caps' outs' it mem').map proj) ∧
    (∀ r s it caps outs mem caps' outs' mem',
      (repeat_optional_loop n r s caps outs it mem).map proj =
        (repeat_optional_loop n r s caps' outs' it mem').map proj) ∧
    (∀ r s c it caps outs mem caps' outs' mem',
      (repeat_loop n r s caps outs c it mem).map proj =
        (repeat_loop n r s caps' outs' c it mem').map proj) := by
  induction n with
  | zero => simp [match_impl, repeat_optional_loop, repeat_loop]
  | succ n ih =>
    obtain ⟨ih1, ih2, ih3⟩ := ih
    refine ⟨?_, ?_, ?_⟩
    · intro r s it caps outs mem caps' outs' mem'
      cases r with
      | val v => simp [match_impl, value_matcher_proj _ s caps caps' it mem mem']
      | val_not v => simp [match_impl, value_matcher_proj _ s caps caps' it mem mem']
      | range lo hi => simp [match_impl, value_matcher_proj _ s caps caps' it mem mem']
      | null_rule => simp [match_impl, proj]
      | any => simp [match_impl, value_matcher_proj _ s caps caps' it mem mem']
      | alternative r rs =>
        cases rs with
        | nil => simp only [match_impl]; exact ih1 _ _ _ _ _ _ _ _ _
        | cons r2 rs =>
          rw [match_impl, match_impl]
          rcases proj_cases (ih1 r s it caps outs mem caps' outs' mem') with
            ⟨h1, h2⟩ | ⟨f, q, m, m', h1, h2⟩
          · simp [h1, h2]
          · cases f <;> simp only [h1, h2]
            · exact ih1 _ _ _ _ _ _ _ _ _
            · simp [proj]
      | alternative_not r rs =>
        cases rs with
        | nil =>
          rw [match_impl, match_impl]
          rcases proj_cases (ih1 r s it caps outs mem caps' outs' mem') with
            ⟨h1, h2⟩ | ⟨f, q, m, m', h1, h2⟩
          · simp [h1, h2]
          · cases f <;> simp [h1, h2, proj, increment]
        | cons r2 rs =>
          rw [match_impl, match_impl]
          rcases proj_cases (ih1 r s it caps outs mem caps' outs' mem') with
            ⟨h1, h2⟩ | ⟨f, q, m, m', h1, h2⟩
          · simp [h1, h2]
          · cases f <;> simp only [h1, h2]
            · exact ih1 _ _ _ _ _ _ _ _ _
            · simp [proj]
      | repeat_optional r => simp only [match_impl]; exact ih2 _ _ _ _ _ _ _ _ _
      | repeat_ r => simp only [match_impl]; exact ih3 _ _ _ _ _ _ _ _ _ _
      | optional r =>
        rw [match_impl, match_impl]
        rcases proj_cases (ih1 r s it caps outs mem caps' outs' mem') with
          ⟨h1, h2⟩ | ⟨f, q, m, m', h1, h2⟩
        · simp [h1, h2]
        · simp [h1, h2, proj]
      | sequence r rs =>
        cases rs with
        | nil => simp only [match_impl]; exact ih1 _ _ _ _ _ _ _ _ _
        | cons r2 rs =>
          rw [match_impl, match_impl]
          rcases proj_cases (ih1 r s it caps (outs.take r.output_count) mem caps'
            (outs'.take r.output_count) mem') with ⟨h1, h2⟩ | ⟨f, q, m, m', h1, h2⟩
          · simp [h1, h2]
          · cases f <;> simp only [h1, h2]
            · simp [proj]
            · exact ih1 _ _ _ _ _ _ _ _ _
      | capture r =>
        cases outs <;> cases outs' <;> simp only [match_impl] <;> exact ih1 _ _ _ _ _ _ _ _ _
      | store r v =>
        cases outs <;> cases outs' <;> simp only [match_impl] <;> exact ih1 _ _ _ _ _ _ _ _ _
      | begin r => simp only [match_impl]; exact ih1 _ _ _ _ _ _ _ _ _
      | end_ r =>
        rw [match_impl, match_impl]
        rcases proj_cases (ih1 r s it caps [] mem caps' [] mem') with
          ⟨h1, h2⟩ | ⟨f, q, m, m', h1, h2⟩
        · simp [h1, h2]
        · simp [h1, h2, proj]
      | begin_end r =>
        rw [match_impl, match_impl]
        rcases proj_cases (ih1 r s it caps [] mem caps' [] mem') with
          ⟨h1, h2⟩ | ⟨f, q, m, m', h1, h2⟩
        · simp [h1, h2]
        · simp [h1, h2, proj]
    · intro r s it caps outs mem caps' outs' mem'
      rw [repeat_optional_loop, repeat_optional_loop]
      rcases proj_cases (ih1 r s it caps outs mem caps' outs' mem') with
        ⟨h1, h2⟩ | ⟨f, q, m, m', h1, h2⟩
      · simp [h1, h2]
      · cases f <;> simp only [h1, h2]
        · simp [proj]
        · exact ih2 _ _ _ _ _ _ _ _ _
    · intro r s c it caps outs mem caps' outs' mem'
      rw [repeat_loop, repeat_loop]
      by_cases he : it = s.length
      · simp [he, proj]
      · simp only [ne_eq, he, not_false_eq_true, if_true]
        rcases proj_cases (ih1 r s it caps outs mem caps' outs' mem') with
          ⟨h1, h2⟩ | ⟨f, q, m, m', h1, h2⟩
        · simp [h1, h2]
        · cases f <;> simp only [h1, h2]
          · simp [proj]
          · exact ih3 _ _ _ _ _ _ _ _ _ _

/-- A result obtained with some budget is obtained with every larger one. -/
theorem match_impl_mono {n m : Nat} (h : n ≤ m) {r : Rule} {s : List Int} {caps outs : List Nat}
    {it : Nat} {mem : List Sink} {x : Bool × Nat × List Sink}
    (hx : match_impl n r s caps outs it mem = some x) :
    match_impl m r s caps outs it mem = some x := by
  induction h with
  | refl => exact hx
  | step _ ih => exact (fuel_step _).1 _ _ _ _ _ _ _ ih

theorem match_impl_proj (n : Nat) (r : Rule) (s : List Int) (caps outs : List Nat) (it : Nat)
    (mem : List Sink) : (match_impl n r s caps outs it mem).map proj = run n r s it :=
  (sinks_irrelevant n).1 r s it caps outs mem [] [] []

theorem run_eq_some {n : Nat} {r : Rule} {s : List Int} {it : Nat} {f : Bool} {q : Nat}
    (caps outs : List Nat) (mem : List Sink) :
    run n r s it = some (f, q) ↔
      ∃ mem1, match_impl n r s caps outs it mem = some (f, q, mem1) := by
  rw [← match_impl_proj n r s caps outs it mem]
  cases h : match_impl n r s caps outs it mem with
  | none => simp
  | some x =>
    obtain ⟨f', q', m'⟩ := x
    simp only [Option.map_some', proj, Option.some.injEq, Prod.mk.injEq]
    constructor
    · rintro ⟨rfl, rfl⟩; exact ⟨m', rfl, rfl, rfl⟩
    · rintro ⟨m1, rfl, rfl, _⟩; exact ⟨rfl, rfl⟩

theorem run_eq_none {n : Nat} {r : Rule} {s : List Int} {it : Nat}
    (caps outs : List Nat) (mem : List Sink) :
    run n r s it = none ↔ match_impl n r s caps outs it mem = none := by
  rw [← match_impl_proj n r s caps outs it mem]
  simp

theorem run_mono {n m : Nat} (h : n ≤ m) {r : Rule} {s : List Int} {it : Nat}
    {x : Bool × Nat} (hx : run n r s it = some x) : run m r s it = some x := by
  obtain ⟨f, q⟩ := x
  obtain ⟨mem1, h1⟩ := (run_eq_some [] [] []).1 hx
  exact (run_eq_some [] [] []).2 ⟨mem1, match_impl_mono h h1⟩

/-- Results obtained with two budgets agree. -/
theorem run_det {n m : Nat} {r : Rule} {s : List Int} {it : Nat} {x y : Bool × Nat}
    (hx : run n r s it = some x) (hy : run m r s it = some y) : x = y := by
  have h1 := run_mono (Nat.le_max_left n m) hx
  have h2 := run_mono (Nat.le_max_right n m) hy
  rw [h1] at h2
  exact Option.some.inj h2

/-- A match returns whatever its outputs exactly when it returns without outputs. -/
theorem returns_iff_run {r : Rule} {s : List Int} {it : Nat} {f : Bool} {q : Nat} :
    Returns r s it f q ↔ ∃ n, run n r s it = some (f, q) := by
  constructor
  · intro h
    obtain ⟨n, mem1, h1⟩ := h [] [] []
    exact ⟨n, (run_eq_some [] [] []).2 ⟨mem1, h1⟩⟩
  · rintro ⟨n, h⟩ caps outs mem
    obtain ⟨mem1, h1⟩ := (run_eq_some caps outs mem).1 h
    exact ⟨n, mem1, h1⟩

/-- A match has at most one result. -/
theorem returns_det {r : Rule} {s : List Int} {it : Nat} {f f' : Bool} {q q' : Nat}
    (h : Returns r s it f q) (h' : Returns r s it f' q') : f = f' ∧ q = q' := by
  obtain ⟨n, hn⟩ := returns_iff_run.1 h
  obtain ⟨m, hm⟩ := returns_iff_run.1 h'
  simpa using run_det hn hm

theorem run_zero (r : Rule) (s : List Int) (it : Nat) : run 0 r s it = none := by
  simp [run, match_impl]

theorem run_val (n : Nat) (v : Int) (s : List Int) (it : Nat) :
    run (n + 1) (.val v) s it =
      some (if deref s it = v then (true, it + 1) else (false, it)) := by
  simp only [run, match_impl, value_matcher, val_is, increment, Option.map_some', proj,
    beq_iff_eq]
  split <;> simp

theorem run_val_not (n : Nat) (v : Int) (s : List Int) (it : Nat) :
    run (n + 1) (.val_not v) s it =
      some (if deref s it ≠ v then (true, it + 1) else (false, it)) := by
  simp only [run, match_impl, value_matcher, val_not_is, increment, Option.map_some', proj,
    bne_iff_ne]
  split <;> simp

theorem run_range (n : Nat) (lo hi : Int) (s : List Int) (it : Nat) :
    run (n + 1) (.range lo hi) s it =
      some (if lo ≤ deref s it ∧ deref s it ≤ hi then (true, it + 1) else (false, it)) := by
  simp only [run, match_impl, value_matcher, range_is, increment, Option.map_some', proj,
    Bool.and_eq_true, decide_eq_true_eq, ge_iff_le]
  split <;> simp

theorem run_any (n : Nat) (s : List Int) (it : Nat) :
    run (n + 1) .any s it = some (true, it + 1) := by
  simp [run, match_impl, value_matcher, any_is, increment, proj]

theorem run_null_rule (n : Nat) (s : List Int) (it : Nat) :
    run (n + 1) .null_rule s it = some (true, it) := by
  simp [run, match_impl, proj]

theorem run_sequence_one (n : Nat) (r : Rule) (s : List Int) (it : Nat) :
    run (n + 1) (.sequence r []) s it = run n r s it := by
  simp [run, match_impl]

theorem run_sequence_cons (n : Nat) (r r2 : Rule) (rs : List Rule) (s : List Int) (it : Nat) :
    run (n + 1) (.sequence r (r2 :: rs)) s it =
      match run n r s it with
      | none => none
      | some (false, q) => some (false, q)
      | some (true, q) => run n (.sequence r2 rs) s q := by
  rw [run, match_impl]
  cases h : match_impl n r s [] (List.take r.output_count []) it [] with
  | none => simp [(run_eq_none _ _ _).2 h]
  | some x =>
    obtain ⟨f, q, m⟩ := x
    rw [(run_eq_some _ _ _).2 ⟨m, h⟩]
    cases f
    · simp [proj]
    · simp only []
      exact match_impl_proj _ _ _ _ _ _ _

theorem run_alternative_one (n : Nat) (r : Rule) (s : List Int) (it : Nat) :
    run (n + 1) (.alternative r []) s it = run n r s it := by
  simp [run, match_impl]

theorem run_alternative_cons (n : Nat) (r r2 : Rule) (rs : List Rule) (s : List Int)
    (it : Nat) :
    run (n + 1) (.alternative r (r2 :: rs)) s it =
      match run n r s it with
      | none => none
      | some (true, q) => some (true, q)
      | some (false, q) => run n (.alternative r2 rs) s q := by
  rw [run, match_impl]
  cases h : match_impl n r s [] [] it [] with
  | none => simp [(run_eq_none _ _ _).2 h]
  | some x =>
    obtain ⟨f, q, m⟩ := x
    rw [(run_eq_some _ _ _).2 ⟨m, h⟩]
    cases f
    · simp only []
      exact match_impl_proj _ _ _ _ _ _ _
    · simp [proj]

theorem run_alternative_not_one (n : Nat) (r : Rule) (s : List Int) (it : Nat) :
    run (n + 1) (.alternative_not r []) s it =
      match run n r s it with
      | none => none
      | some (true, _) => some (false, it)
      | some (false, _) => some (true, it + 1) := by
  rw [run, match_impl]
  cases h : match_impl n r s [] [] it [] with
  | none => simp [(run_eq_none _ _ _).2 h]
  | some x =>
    obtain ⟨f, q, m⟩ := x
    rw [(run_eq_some _ _ _).2 ⟨m, h⟩]
    cases f <;> simp [proj, increment]

theorem run_alternative_not_cons (n : Nat) (r r2 : Rule) (rs : List Rule) (s : List Int)
    (it : Nat) :
    run (n + 1) (.alternative_not r (r2 :: rs)) s it =
      match run n r s it with
      | none => none
      | some (true, _) => some (false, it)
      | some (false, _) => run n (.alternative_not r2 rs) s it := by
  rw [run, match_impl]
  cases h : match_impl n r s [] [] it [] with
  | none => simp [(run_eq_none _ _ _).2 h]
  | some x =>
    obtain ⟨f, q, m⟩ := x
    rw [(run_eq_some _ _ _).2 ⟨m, h⟩]
    cases f
    · simp only []
      exact match_impl_proj _ _ _ _ _ _ _
    · simp [proj]

theorem run_optional (n : Nat) (r : Rule) (s : List Int) (it : Nat) :
    run (n + 1) (.optional r) s it =
      match run n r s it with
      | none => none
      | some (_, q) => some (true, q) := by
  rw [run, match_impl]
  cases h : match_impl n r s [] [] it [] with
  | none => simp [(run_eq_none _ _ _).2 h]
  | some x =>
    obtain ⟨f, q, m⟩ := x
    rw [(run_eq_some _ _ _).2 ⟨m, h⟩]
    simp [proj]

/-! ## Composite rules in terms of their children -/

theorem returns_of_run (n : Nat) {r : Rule} {s : List Int} {it : Nat} {f : Bool} {q : Nat}
    (h : run n r s it = some (f, q)) : Returns r s it f q :=
  returns_iff_run.2 ⟨n, h⟩

theorem returns_sequence_one {r : Rule} {s : List Int} {it : Nat} {f : Bool} {q : Nat} :
    Returns (.sequence r []) s it f q ↔ Returns r s it f q := by
  simp only [returns_iff_run]
  constructor
  · rintro ⟨n, h⟩
    cases n with
    | zero => simp [run_zero] at h
    | succ n => exact ⟨n, by rwa [run_sequence_one] at h⟩
  · rintro ⟨n, h⟩
    exact ⟨n + 1, by rwa [run_sequence_one]⟩

theorem returns_sequence_cons {r r2 : Rule} {rs : List Rule} {s : List Int} {it : Nat}
    {f : Bool} {q : Nat} :
    Returns (.sequence r (r2 :: rs)) s it f q ↔
      (f = false ∧ Returns r s it false q) ∨
        ∃ m, Returns r s it true m ∧ Returns (.sequence r2 rs) s m f q := by
  constructor
  · intro h
    obtain ⟨n, h⟩ := returns_iff_run.1 h
    cases n with
    | zero => simp [run_zero] at h
    | succ n =>
      rw [run_sequence_cons] at h
      cases hc : run n r s it with
      | none => simp [hc] at h
      | some x =>
        obtain ⟨b, m⟩ := x
        cases b
        · simp only [hc, Option.some.injEq, Prod.mk.injEq] at h
          obtain ⟨rfl, rfl⟩ := h
          exact Or.inl ⟨rfl, returns_of_run _ hc⟩
        · simp only [hc] at h
          exact Or.inr ⟨m, returns_of_run _ hc, returns_of_run _ h⟩
  · rintro (⟨rfl, h⟩ | ⟨m, h1, h2⟩)
    · obtain ⟨n, h⟩ := returns_iff_run.1 h
      exact returns_of_run (n + 1) (by rw [run_sequence_cons, h])
    · obtain ⟨n1, h1⟩ := returns_iff_run.1 h1
      obtain ⟨n2, h2⟩ := returns_iff_run.1 h2
      refine returns_of_run (max n1 n2 + 1) ?_
      rw [run_sequence_cons, run_mono (Nat.le_max_left n1 n2) h1]
      exact run_mono (Nat.le_max_right n1 n2) h2

theorem returns_sequence_true {s : List Int} (rules : List Rule) :
    ∀ (rule : Rule) (it q : Nat),
      Returns (.sequence rule rules) s it true q ↔ steps s (rule :: rules) it q := by
  induction rules with
  | nil =>
    intro rule it q
    rw [returns_sequence_one]
    simp [steps]
  | cons r2 rs ih =>
    intro rule it q
    rw [returns_sequence_cons]
    simp only [Bool.true_eq_false, false_and, false_or, ih r2]
    rfl

theorem returns_sequence_false {s : List Int} (rules : List Rule) :
    ∀ (rule : Rule) (it q : Nat),
      Returns (.sequence rule rules) s it false q ↔
        ∃ pre c post m, rule :: rules = pre ++ c :: post ∧ steps s pre it m ∧
          Returns c s m false q := by
  induction rules with
  | nil =>
    intro rule it q
    rw [returns_sequence_one]
    constructor
    · intro h
      exact ⟨[], rule, [], it, rfl, rfl, h⟩
    · rintro ⟨pre, c, post, m, he, hs, hr⟩
      cases pre with
      | nil =>
        simp only [List.nil_append, List.cons.injEq] at he
        obtain ⟨rfl, _⟩ := he
        simp only [steps] at hs
        subst hs
        exact hr
      | cons p pre =>
        simp only [List.cons_append, List.cons.injEq] at he
        have := congrArg List.length he.2
        simp at this
        omega
  | cons r2 rs ih =>
    intro rule it q
    rw [returns_sequence_cons]
    constructor
    · rintro (⟨-, h⟩ | ⟨m, h1, h2⟩)
      · exact ⟨[], rule, r2 :: rs, it, rfl, rfl, h⟩
      · obtain ⟨pre, c, post, m', he, hs, hr⟩ := (ih r2 m q).1 h2
        exact ⟨rule :: pre, c, post, m', by rw [he]; rfl, ⟨m, h1, hs⟩, hr⟩
    · rintro ⟨pre, c, post, m, he, hs, hr⟩
      cases pre with
      | nil =>
        simp only [List.nil_append, List.cons.injEq] at he
        obtain ⟨rfl, _⟩ := he
        simp only [steps] at hs
        subst hs
        exact Or.inl ⟨rfl, hr⟩
      | cons p pre =>
        simp only [List.cons_append, List.cons.injEq] at he
        obtain ⟨rfl, he⟩ := he
        obtain ⟨m0, h1, hs⟩ := hs
        exact Or.inr ⟨m0, h1, (ih r2 m0 q).2 ⟨pre, c, post, m, he, hs, hr⟩⟩

/-- C9: a `sequence` returns true exactly when its children match one after the
other, each from where the one before stopped, and the iterator ends where the
last child left it; it returns false exactly when some child fails after all
earlier children matched, and then the iterator stays where that child left it
(the children after it play no part and nothing is rolled back).  On the rule
`a b c d e f`: "abc" fails at 3, "defghij" fails at 0, "abcdefghijk" matches
up to 6. -/
theorem sequence_runs_children_in_order :
    (∀ (rule : Rule) (rules : List Rule) (s : List Int) (it q : Nat),
      (Returns (.sequence rule rules) s it true q ↔ steps s (rule :: rules) it q) ∧
      (Returns (.sequence rule rules) s it false q ↔
        ∃ pre c post m, rule :: rules = pre ++ c :: post ∧ steps s pre it m ∧
          Returns c s m false q)) ∧
    Returns sequence_a_to_f (chars "abc") 0 false 3 ∧
    Returns sequence_a_to_f (chars "defghij") 0 false 0 ∧
    Returns sequence_a_to_f (chars "abcdefghijk") 0 true 6 := by
  refine ⟨fun rule rules s it q =>
    ⟨returns_sequence_true rules rule it q, returns_sequence_false rules rule it q⟩, ?_, ?_, ?_⟩
  · exact returns_of_run 10 (by decide)
  · exact returns_of_run 10 (by decide)
  · exact returns_of_run 10 (by decide)

theorem returns_alternative_one {r : Rule} {s : List Int} {it : Nat} {f : Bool} {q : Nat} :
    Returns (.alternative r []) s it f q ↔ Returns r s it f q := by
  simp only [returns_iff_run]
  constructor
  · rintro ⟨n, h⟩
    cases n with
    | zero => simp [run_zero] at h
    | succ n => exact ⟨n, by rwa [run_alternative_one] at h⟩
  · rintro ⟨n, h⟩
    exact ⟨n + 1, by rwa [run_alternative_one]⟩

theorem returns_alternative_cons {r r2 : Rule} {rs : List Rule} {s : List Int} {it : Nat}
    {f : Bool} {q : Nat} :
    Returns (.alternative r (r2 :: rs)) s it f q ↔
      (f = true ∧ Returns r s it true q) ∨
        ∃ m, Returns r s it false m ∧ Returns (.alternative r2 rs) s m f q := by
  constructor
  · intro h
    obtain ⟨n, h⟩ := returns_iff_run.1 h
    cases n with
    | zero => simp [run_zero] at h
    | succ n =>
      rw [run_alternative_cons] at h
      cases hc : run n r s it with
      | none => simp [hc] at h
      | some x =>
        obtain ⟨b, m⟩ := x
        cases b
        · simp only [hc] at h
          exact Or.inr ⟨m, returns_of_run _ hc, returns_of_run _ h⟩
        · simp only [hc, Option.some.injEq, Prod.mk.injEq] at h
          obtain ⟨rfl, rfl⟩ := h
          exact Or.inl ⟨rfl, returns_of_run _ hc⟩
  · rintro (⟨rfl, h⟩ | ⟨m, h1, h2⟩)
    · obtain ⟨n, h⟩ := returns_iff_run.1 h
      exact returns_of_run (n + 1) (by rw [run_alternative_cons, h])
    · obtain ⟨n1, h1⟩ := returns_iff_run.1 h1
      obtain ⟨n2, h2⟩ := returns_iff_run.1 h2
      refine returns_of_run (max n1 n2 + 1) ?_
      rw [run_alternative_cons, run_mono (Nat.le_max_left n1 n2) h1]
      exact run_mono (Nat.le_max_right n1 n2) h2

theorem returns_alternative_false {s : List Int} (rules : List Rule) :
    ∀ (rule : Rule) (it q : Nat),
      Returns (.alternative rule rules) s it false q ↔ fail_steps s (rule :: rules) it q := by
  induction rules with
  | nil =>
    intro rule it q
    rw [returns_alternative_one]
    simp [fail_steps]
  | cons r2 rs ih =>
    intro rule it q
    rw [returns_alternative_cons]
    simp only [Bool.false_eq_true, false_and, false_or, ih r2]
    rfl

theorem returns_alternative_true {s : List Int} (rules : List Rule) :
    ∀ (rule : Rule) (it q : Nat),
      Returns (.alternative rule rules) s it true q ↔
        ∃ pre c post m, rule :: rules = pre ++ c :: post ∧ fail_steps s pre it m ∧
          Returns c s m true q := by
  induction rules with
  | nil =>
    intro rule it q
    rw [returns_alternative_one]
    constructor
    · intro h
      exact ⟨[], rule, [], it, rfl, rfl, h⟩
    · rintro ⟨pre, c, post, m, he, hs, hr⟩
      cases pre with
      | nil =>
        simp only [List.nil_append, List.cons.injEq] at he
        obtain ⟨rfl, _⟩ := he
        simp only [fail_steps] at hs
        subst hs
        exact hr
      | cons p pre =>
        simp only [List.cons_append, List.cons.injEq] at he
        have := congrArg List.length he.2
        simp at this
        omega
  | cons r2 rs ih =>
    intro rule it q
    rw [returns_alternative_cons]
    constructor
    · rintro (⟨-, h⟩ | ⟨m, h1, h2⟩)
      · exact ⟨[], rule, r2 :: rs, it, rfl, rfl, h⟩
      · obtain ⟨pre, c, post, m', he, hs, hr⟩ := (ih r2 m q).1 h2
        exact ⟨rule :: pre, c, post, m', by rw [he]; rfl, ⟨m, h1, hs⟩, hr⟩
    · rintro ⟨pre, c, post, m, he, hs, hr⟩
      cases pre with
      | nil =>
        simp only [List.nil_append, List.cons.injEq] at he
        obtain ⟨rfl, _⟩ := he
        simp only [fail_steps] at hs
        subst hs
        exact Or.inl ⟨rfl, hr⟩
      | cons p pre =>
        simp only [List.cons_append, List.cons.injEq] at he
        obtain ⟨rfl, he⟩ := he
        obtain ⟨m0, h1, hs⟩ := hs
        exact Or.inr ⟨m0, h1, (ih r2 m0 q).2 ⟨pre, c, post, m, he, hs, hr⟩⟩

theorem fail_steps_of_all_fail_in_place {s : List Int} {it : Nat} (rules : List Rule)
    (h : ∀ c ∈ rules, Returns c s it false it) : fail_steps s rules it it := by
  induction rules with
  | nil => rfl
  | cons r rs ih =>
    exact ⟨it, h r (List.mem_cons_self r rs),
      ih (fun c hc => h c (List.mem_cons_of_mem r hc))⟩

theorem returns_optional {r : Rule} {s : List Int} {it : Nat} {f : Bool} {q : Nat} :
    Returns (.optional r) s it f q ↔ f = true ∧ ∃ b, Returns r s it b q := by
  constructor
  · intro h
    obtain ⟨n, h⟩ := returns_iff_run.1 h
    cases n with
    | zero => simp [run_zero] at h
    | succ n =>
      rw [run_optional] at h
      cases hc : run n r s it with
      | none => simp [hc] at h
      | some x =>
        obtain ⟨b, m⟩ := x
        simp only [hc, Option.some.injEq, Prod.mk.injEq] at h
        obtain ⟨rfl, rfl⟩ := h
        exact ⟨rfl, b, returns_of_run _ hc⟩
  · rintro ⟨rfl, b, h⟩
    obtain ⟨n, h⟩ := returns_iff_run.1 h
    exact returns_of_run (n + 1) (by rw [run_optional, h])

theorem returns_alternative_not_one {r : Rule} {s : List Int} {it : Nat} {f : Bool} {q : Nat} :
    Returns (.alternative_not r []) s it f q ↔
      (f = false ∧ q = it ∧ ∃ m, Returns r s it true m) ∨
        (f = true ∧ q = it + 1 ∧ ∃ m, Returns r s it false m) := by
  constructor
  · intro h
    obtain ⟨n, h⟩ := returns_iff_run.1 h
    cases n with
    | zero => simp [run_zero] at h
    | succ n =>
      rw [run_alternative_not_one] at h
      cases hc : run n r s it with
      | none => simp [hc] at h
      | some x =>
        obtain ⟨b, m⟩ := x
        cases b <;> simp only [hc, Option.some.injEq, Prod.mk.injEq] at h <;>
          obtain ⟨rfl, rfl⟩ := h
        · exact Or.inr ⟨rfl, rfl, m, returns_of_run _ hc⟩
        · exact Or.inl ⟨rfl, rfl, m, returns_of_run _ hc⟩
  · rintro (⟨rfl, rfl, m, h⟩ | ⟨rfl, rfl, m, h⟩) <;>
      obtain ⟨n, h⟩ := returns_iff_run.1 h <;>
      exact returns_of_run (n + 1) (by rw [run_alternative_not_one, h])

theorem returns_alternative_not_cons {r r2 : Rule} {rs : List Rule} {s : List Int} {it : Nat}
    {f : Bool} {q : Nat} :
    Returns (.alternative_not r (r2 :: rs)) s it f q ↔
      (f = false ∧ q = it ∧ ∃ m, Returns r s it true m) ∨
        ((∃ m, Returns r s it false m) ∧ Returns (.alternative_not r2 rs) s it f q) := by
  constructor
  · intro h
    obtain ⟨n, h⟩ := returns_iff_run.1 h
    cases n with
    | zero => simp [run_zero] at h
    | succ n =>
      rw [run_alternative_not_cons] at h
      cases hc : run n r s it with
      | none => simp [hc] at h
      | some x =>
        obtain ⟨b, m⟩ := x
        cases b
        · simp only [hc] at h
          exact Or.inr ⟨⟨m, returns_of_run _ hc⟩, returns_of_run _ h⟩
        · simp only [hc, Option.some.injEq, Prod.mk.injEq] at h
          obtain ⟨rfl, rfl⟩ := h
          exact Or.inl ⟨rfl, rfl, m, returns_of_run _ hc⟩
  · rintro (⟨rfl, rfl, m, h⟩ | ⟨⟨m, h1⟩, h2⟩)
    · obtain ⟨n, h⟩ := returns_iff_run.1 h
      exact returns_of_run (n + 1) (by rw [run_alternative_not_cons, h])
    · obtain ⟨n1, h1⟩ := returns_iff_run.1 h1
      obtain ⟨n2, h2⟩ := returns_iff_run.1 h2
      refine returns_of_run (max n1 n2 + 1) ?_
      rw [run_alternative_not_cons, run_mono (Nat.le_max_left n1 n2) h1]
      exact run_mono (Nat.le_max_right n1 n2) h2

theorem alternative_not_some_child_matches {s : List Int} {it : Nat} (rules : List Rule) :
    ∀ (rule : Rule), (∀ c ∈ rule :: rules, ∃ b q, Returns c s it b q) →
      (∃ c ∈ rule :: rules, ∃ q, Returns c s it true q) →
      Returns (.alternative_not rule rules) s it false it := by
  induction rules with
  | nil =>
    intro rule _ hm
    obtain ⟨c, hc, q, hq⟩ := hm
    simp only [List.mem_singleton] at hc
    subst hc
    exact returns_alternative_not_one.2 (Or.inl ⟨rfl, rfl, q, hq⟩)
  | cons r2 rs ih =>
    intro rule hret hm
    obtain ⟨b, q, hb⟩ := hret rule (List.mem_cons_self _ _)
    cases b
    · refine returns_alternative_not_cons.2 (Or.inr ⟨⟨q, hb⟩, ih r2 ?_ ?_⟩)
      · exact fun c hc => hret c (List.mem_cons_of_mem _ hc)
      · obtain ⟨c, hc, q', hq'⟩ := hm
        rcases List.mem_cons.1 hc with rfl | hc
        · exact absurd (returns_det hb hq').1 (by simp)
        · exact ⟨c, hc, q', hq'⟩
    · exact returns_alternative_not_cons.2 (Or.inl ⟨rfl, rfl, q, hb⟩)

theorem alternative_not_no_child_matches {s : List Int} {it : Nat} (rules : List Rule) :
    ∀ (rule : Rule), (∀ c ∈ rule :: rules, ∃ q, Returns c s it false q) →
      Returns (.alternative_not rule rules) s it true (it + 1) := by
  induction rules with
  | nil =>
    intro rule h
    obtain ⟨q, hq⟩ := h rule (List.mem_cons_self _ _)
    exact returns_alternative_not_one.2 (Or.inr ⟨rfl, rfl, q, hq⟩)
  | cons r2 rs ih =>
    intro rule h
    exact returns_alternative_not_cons.2
      (Or.inr ⟨h rule (List.mem_cons_self _ _), ih r2 (fun c hc => h c (List.mem_cons_of_mem _ hc))⟩)

/-! ## Alternative, optional, negated alternative -/

/-- C2 (amended): the children of an `alternative` are tried in order, each from
where the failed child before it left the iterator, and the first one that
matches decides; the rule returns false exactly when all children fail in that
way, with the iterator where the last child left it.  When every child fails
without moving the iterator, the rule fails with the iterator at its starting
position. -/
theorem alternative_tries_children_from_current_iterator
    (rule : Rule) (rules : List Rule) (s : List Int) (it q : Nat) :
    (Returns (.alternative rule rules) s it false q ↔ fail_steps s (rule :: rules) it q) ∧
    (Returns (.alternative rule rules) s it true q ↔
      ∃ pre c post m, rule :: rules = pre ++ c :: post ∧ fail_steps s pre it m ∧
        Returns c s m true q) ∧
    ((∀ c ∈ rule :: rules, Returns c s it false it) →
      Returns (.alternative rule rules) s it false it) :=
  ⟨returns_alternative_false rules rule it q, returns_alternative_true rules rule it q,
    fun h => (returns_alternative_false rules rule it it).2
      (fail_steps_of_all_fail_in_place _ h)⟩

/-- C2, witness: on "d" the three value rules of `alternative<a, b, c>` fail in
place and the rule fails with the iterator at the start. -/
theorem alternative_tries_children_from_current_iterator_witness :
    (∀ c ∈ [Rule.val (ch 'a'), Rule.val (ch 'b'), Rule.val (ch 'c')],
      Returns c (chars "d") 0 false 0) ∧
    Returns alternative_abc (chars "d") 0 false 0 :=
  have h : ∀ c ∈ [Rule.val (ch 'a'), Rule.val (ch 'b'), Rule.val (ch 'c')],
      Returns c (chars "d") 0 false 0 := by
    intro c hc
    simp only [List.mem_cons, List.mem_singleton, List.not_mem_nil, or_false] at hc
    rcases hc with rfl | rfl | rfl <;> exact returns_of_run 1 (by decide)
  ⟨h, (alternative_tries_children_from_current_iterator _ _ _ 0 0).2.2 h⟩

/-- C2, counterexample: on "ac" the rule `alternative<sequence<a, b>, sequence<a, c>>`
fails and leaves the iterator at 1, not at the starting position 0, although its
second child matches from the starting position: the first child consumed `a`
before failing and the second child was tried from there. -/
theorem alternative_second_child_starts_after_failed_first :
    Returns (.alternative sequence_ab [sequence_ac]) (chars "ac") 0 false 1 ∧
    ¬ Returns (.alternative sequence_ab [sequence_ac]) (chars "ac") 0 false 0 ∧
    Returns sequence_ab (chars "ac") 0 false 1 ∧
    Returns sequence_ac (chars "ac") 0 true 2 := by
  have h : Returns (.alternative sequence_ab [sequence_ac]) (chars "ac") 0 false 1 :=
    returns_of_run 5 (by decide)
  refine ⟨h, fun h0 => ?_, returns_of_run 5 (by decide), returns_of_run 5 (by decide)⟩
  exact absurd (returns_det h h0).2 (by decide)

/-- C4 (amended): `optional<Rule>` returns exactly when the inner rule returns, its
result is always true, and the iterator is left exactly where the inner rule
left it (so after a failed inner rule the iterator is back at its starting
position only if the inner rule did not move it). -/
theorem optional_keeps_iterator_of_inner_rule
    (rule : Rule) (s : List Int) (it : Nat) (flag : Bool) (q : Nat) :
    Returns (.optional rule) s it flag q ↔ flag = true ∧ ∃ b, Returns rule s it b q :=
  returns_optional

/-- C4, counterexample: on "ac" the inner rule `sequence<a, b>` fails after consuming
`a`, and `optional<sequence<a, b>>` returns with the iterator at 1, not at the
position 0 it had before the attempt. -/
theorem optional_of_failed_sequence_moves_iterator :
    Returns sequence_ab (chars "ac") 0 false 1 ∧
    Returns (.optional sequence_ab) (chars "ac") 0 true 1 ∧
    ¬ Returns (.optional sequence_ab) (chars "ac") 0 true 0 := by
  have h : Returns (.optional sequence_ab) (chars "ac") 0 true 1 :=
    returns_of_run 5 (by decide)
  exact ⟨returns_of_run 5 (by decide), h,
    fun h0 => absurd (returns_det h h0).2 (by decide)⟩

/-- C10: for `alternative_not<Rule, Rules...>` whose children all return at the
iterator: if some child matches there, the rule returns false and the iterator
is unchanged; if no child matches, the rule returns true and the iterator has
advanced by exactly one. -/
theorem alternative_not_fails_in_place_or_advances_by_one
    (rule : Rule) (rules : List Rule) (s : List Int) (it : Nat)
    (hret : ∀ c ∈ rule :: rules, ∃ b q, Returns c s it b q) :
    ((∃ c ∈ rule :: rules, ∃ q, Returns c s it true q) →
      Returns (.alternative_not rule rules) s it false it) ∧
    ((¬ ∃ c ∈ rule :: rules, ∃ q, Returns c s it true q) →
      Returns (.alternative_not rule rules) s it true (it + 1)) := by
  refine ⟨alternative_not_some_child_matches rules rule hret, fun hno => ?_⟩
  refine alternative_not_no_child_matches rules rule (fun c hc => ?_)
  obtain ⟨b, q, hb⟩ := hret c hc
  cases b
  · exact ⟨q, hb⟩
  · exact absurd ⟨c, hc, q, hb⟩ hno

/-- C10, witness: `alternative_not<a, b, c>` on "a" fails with the iterator at its
original position and on "d" matches with the iterator at the end. -/
theorem alternative_not_fails_in_place_or_advances_by_one_witness :
    Returns alternative_not_abc (chars "a") 0 false 0 ∧
    Returns alternative_not_abc (chars "d") 0 true (chars "d").length := by
  have ha : ∀ c ∈ [Rule.val (ch 'a'), Rule.val (ch 'b'), Rule.val (ch 'c')],
      ∃ b q, Returns c (chars "a") 0 b q := by
    intro c hc
    simp only [List.mem_cons, List.mem_singleton, List.not_mem_nil, or_false] at hc
    rcases hc with rfl | rfl | rfl
    · exact ⟨true, 1, returns_of_run 1 (by decide)⟩
    · exact ⟨false, 0, returns_of_run 1 (by decide)⟩
    · exact ⟨false, 0, returns_of_run 1 (by decide)⟩
  have hd : ∀ c ∈ [Rule.val (ch 'a'), Rule.val (ch 'b'), Rule.val (ch 'c')],
      Returns c (chars "d") 0 false 0 := by
    intro c hc
    simp only [List.mem_cons, List.mem_singleton, List.not_mem_nil, or_false] at hc
    rcases hc with rfl | rfl | rfl <;> exact returns_of_run 1 (by decide)
  refine ⟨(alternative_not_fails_in_place_or_advances_by_one _ _ _ _ ha).1
      ⟨_, List.mem_cons_self _ _, 1, returns_of_run 1 (by decide)⟩,
    (alternative_not_fails_in_place_or_advances_by_one _ _ _ _
      (fun c hc => ⟨false, 0, hd c hc⟩)).2 ?_⟩
  rintro ⟨c, hc, q, hq⟩
  exact absurd (returns_det (hd c hc) hq).1 (by decide)

/-! ## Value rules at the end of the input, loops that never stop -/

theorem optional_never_false {n : Nat} {r : Rule} {s : List Int} {caps outs : List Nat}
    {it : Nat} {mem : List Sink} {f : Bool} {q : Nat} {mem1 : List Sink}
    (h : match_impl n (.optional r) s caps outs it mem = some (f, q, mem1)) : f = true := by
  cases n with
  | zero => simp [match_impl] at h
  | succ n =>
    rw [match_impl] at h
    cases hc : match_impl n r s caps outs it mem with
    | none => simp [hc] at h
    | some x =>
      obtain ⟨b, it1, m1⟩ := x
      simp only [hc, Option.some.injEq, Prod.mk.injEq] at h
      exact h.1.symm

theorem repeat_optional_loop_of_optional (r : Rule) (n : Nat) :
    ∀ (s : List Int) (caps outs : List Nat) (it : Nat) (mem : List Sink),
      repeat_optional_loop n (.optional r) s caps outs it mem = none := by
  induction n with
  | zero => intro s caps outs it mem; simp [repeat_optional_loop]
  | succ n ih =>
    intro s caps outs it mem
    rw [repeat_optional_loop]
    cases hc : match_impl n (.optional r) s caps outs it mem with
    | none => rfl
    | some x =>
      obtain ⟨b, it1, m1⟩ := x
      obtain rfl := optional_never_false hc
      exact ih s caps outs it1 m1

/-- C5: the pattern "(a?)*" compiles to `repeat_optional<optional<val<'a'>>>`, and
the match of that rule returns on no input, whatever the budget: the inner
`optional` always returns true, so the `while` loop of `repeat_optional` never
ends. -/
theorem repeat_optional_of_optional_never_returns :
    basic_regex (chars "(a?)*") = .ok repeat_optional_of_optional_a ∧
    ∀ (fuel : Nat) (s : List Int) (caps outs : List Nat) (it : Nat) (mem : List Sink),
      match_impl fuel repeat_optional_of_optional_a s caps outs it mem = none := by
  refine ⟨rfl, fun fuel s caps outs it mem => ?_⟩
  cases fuel with
  | zero => simp [match_impl]
  | succ n =>
    rw [repeat_optional_of_optional_a, match_impl]
    exact repeat_optional_loop_of_optional _ n s caps outs it mem

/-- C6: `any` returns true and advances the iterator at every position, the end of
the input included: on the empty input it returns true and leaves the iterator
one past the end. -/
theorem any_matches_at_end :
    (∀ (s : List Int) (it : Nat), Returns .any s it true (it + 1)) ∧
    match_ref 1 .any [] [] 0 [] = some (true, 1, []) :=
  ⟨fun s it => returns_of_run 1 (run_any 0 s it), rfl⟩

/-- C7: `val<Value>` compares the value read at the iterator with `Value` without
testing for the end, where the read yields the terminator: `val<0>` on the empty
input returns true and leaves the iterator one past the end. -/
theorem val_zero_matches_at_end :
    (∀ (v : Int) (s : List Int) (it : Nat),
      Returns (.val v) s it (decide (deref s it = v)) (if deref s it = v then it + 1 else it)) ∧
    match_ref 1 (.val 0) [] [] 0 [] = some (true, 1, []) := by
  refine ⟨fun v s it => returns_of_run 1 ?_, rfl⟩
  rw [run_val]
  split <;> simp [*]

/-- C8: `range<Low, High>` compares the value read at the iterator with the bounds
without testing for the end, where the read yields the terminator: `range<0, 127>`
on the empty input returns true and leaves the iterator one past the end. -/
theorem range_containing_zero_matches_at_end :
    (∀ (lo hi : Int) (s : List Int) (it : Nat),
      Returns (.range lo hi) s it (decide (lo ≤ deref s it ∧ deref s it ≤ hi))
        (if lo ≤ deref s it ∧ deref s it ≤ hi then it + 1 else it)) ∧
    match_ref 1 (.range 0 127) [] [] 0 [] = some (true, 1, []) := by
  refine ⟨fun lo hi s it => returns_of_run 1 ?_, rfl⟩
  rw [run_range]
  split <;> simp [*]

/-- C3: the pattern "a|b" compiles to `sequence<val<'a'>, val<'|'>, val<'b'>>`, not to
an `alternative`: the parser of inner-RE never consumes the bar and merges with
`sequence`.  The compiled rule matches the text "a|b" and neither "a" nor "b". -/
theorem bar_compiles_to_sequence_with_literal_bar :
    basic_regex (chars "a|b") = .ok sequence_a_bar_b ∧
    Returns sequence_a_bar_b (chars "a|b") 0 true 3 ∧
    Returns sequence_a_bar_b (chars "a") 0 false 1 ∧
    Returns sequence_a_bar_b (chars "b") 0 false 0 :=
  ⟨rfl, returns_of_run 5 (by decide), returns_of_run 5 (by decide),
    returns_of_run 5 (by decide)⟩

/-! ## Patterns of plain characters -/

theorem rest_str_zero (str : List Int) : basic_string_builder_rest_str 0 str = .ok str := by
  cases str <;> simp [basic_string_builder_rest_str]

theorem rest_str_one (c : Int) (cs : List Int) :
    basic_string_builder_rest_str 1 (c :: cs) = .ok cs := by
  simp [basic_string_builder_rest_str, rest_str_zero]

theorem next_if_ne {str : List Int} {x : Int} (h : character_at_str 0 str ≠ x) :
    regex_parser_next_if str x = .ok (false, str) := by
  simp [regex_parser_next_if, h, rest_str_zero, bind, Except.bind, pure, Except.pure]

theorem character_at_str_zero_cons (c : Int) (cs : List Int) :
    character_at_str 0 (c :: cs) = c := by
  simp [character_at_str]

theorem character_at_str_nil (i : Nat) : character_at_str i [] = 0 := by
  simp [character_at_str]

theorem metacharacter_false {c : Int} (h : metacharacter c = false) :
    c ≠ 0 ∧ c ≠ ch '.' ∧ c ≠ ch '(' ∧ c ≠ ch ')' ∧ c ≠ ch '[' ∧ c ≠ ch '\\' ∧
      c ≠ ch '*' ∧ c ≠ ch '+' ∧ c ≠ ch '?' ∧ c ≠ ch '|' ∧ c ≠ ch '$' ∧ c ≠ ch '^' := by
  simpa [metacharacter, and_assoc] using h

theorem ch_ne_zero : (0 : Int) ≠ ch '*' ∧ (0 : Int) ≠ ch '+' ∧ (0 : Int) ≠ ch '?' ∧
    (0 : Int) ≠ ch '$' ∧ (0 : Int) ≠ ch '^' := by decide

theorem char_plain {c : Int} (cs : List Int) (h : metacharacter c = false) :
    regex_parser_char (c :: cs) = .ok (c, cs) := by
  obtain ⟨-, -, -, -, -, h6, -⟩ := metacharacter_false h
  simp [regex_parser_char, character_at_str_zero_cons, h6, rest_str_one, bind, Except.bind,
    pure, Except.pure]

theorem elementary_plain {c : Int} (cs : List Int) (h : metacharacter c = false) (n : Nat) :
    regex_parser_elementary_re (n + 1) (c :: cs) = .ok ⟨some (.val c), cs⟩ := by
  obtain ⟨-, h2, h3, -, h5, -⟩ := metacharacter_false h
  rw [regex_parser_elementary_re]
  rw [next_if_ne (by rwa [character_at_str_zero_cons]),
    next_if_ne (by rwa [character_at_str_zero_cons]),
    next_if_ne (by rwa [character_at_str_zero_cons])]
  simp [char_plain cs h, bind, Except.bind, pure, Except.pure]

/-- The first character of the rest of a plain pattern is no suffix operator. -/
theorem next_plain_or_end {cs : List Int} (h : ∀ x ∈ cs, metacharacter x = false) :
    character_at_str 0 cs ≠ ch '*' ∧ character_at_str 0 cs ≠ ch '+' ∧
      character_at_str 0 cs ≠ ch '?' := by
  cases cs with
  | nil =>
    rw [character_at_str_nil]
    exact ⟨ch_ne_zero.1, ch_ne_zero.2.1, ch_ne_zero.2.2.1⟩
  | cons d ds =>
    rw [character_at_str_zero_cons]
    obtain ⟨-, -, -, -, -, -, h7, h8, h9, -⟩ := metacharacter_false (h d (List.mem_cons_self _ _))
    exact ⟨h7, h8, h9⟩

theorem basic_plain {c : Int} {cs : List Int} (h : metacharacter c = false)
    (hcs : ∀ x ∈ cs, metacharacter x = false) (n : Nat) :
    regex_parser_basic_re (n + 2) (c :: cs) = .ok ⟨some (.val c), cs⟩ := by
  obtain ⟨h1, h2, h3⟩ := next_plain_or_end hcs
  rw [regex_parser_basic_re, elementary_plain cs h]
  simp [next_if_ne h1, next_if_ne h2, next_if_ne h3, Parsed.need, bind, Except.bind, pure,
    Except.pure]

theorem simple_re_end (n : Nat) (str : List Int) :
    regex_parser_simple_re (n + 1) str true = .ok ⟨none, str⟩ := by
  simp [regex_parser_simple_re]

theorem inner_re_end (n : Nat) (str : List Int) :
    regex_parser_inner_re (n + 1) str true = .ok ⟨none, str⟩ := by
  simp [regex_parser_inner_re]

/-- The parser of simple-RE on a pattern of plain characters. -/
theorem simple_plain (cs : List Int) :
    ∀ (c : Int) (n : Nat), metacharacter c = false → (∀ x ∈ cs, metacharacter x = false) →
      regex_parser_simple_re (n + cs.length + 3) (c :: cs) false =
        .ok ⟨some (literal_rule c cs), []⟩ := by
  induction cs with
  | nil =>
    intro c n h hcs
    rw [regex_parser_simple_re]
    simp [basic_plain h hcs, character_at_str_nil, simple_re_end, Parsed.need, sequence_merge,
      sequence_remove, literal_rule, bind, Except.bind, pure, Except.pure]
  | cons d ds ih =>
    intro c n h hcs
    have hd := hcs d (List.mem_cons_self _ _)
    have hds : ∀ x ∈ ds, metacharacter x = false :=
      fun x hx => hcs x (List.mem_cons_of_mem _ hx)
    obtain ⟨d1, -, -, d4, -, -, -, -, -, d10, d11, -⟩ := metacharacter_false hd
    have e : n + (d :: ds).length + 3 = (n + 1 + ds.length + 2) + 1 := by
      simp only [List.length_cons]; omega
    rw [e, regex_parser_simple_re]
    have e2 : n + 1 + ds.length + 2 = (n + ds.length + 1) + 2 := by omega
    have e3 : n + 1 + ds.length + 2 = n + ds.length + 3 := by omega
    simp only [Bool.false_eq_true, if_false]
    rw [e2, basic_plain h hcs, ← e2, e3]
    simp only [bind, Except.bind, character_at_str_zero_cons]
    have hcond : (d == ch '|' || d == ch '$' || d == ch ')' || d == 0) = false := by
      simp [d1, d4, d10, d11]
    rw [hcond, ih d n hd hds]
    cases ds with
    | nil =>
      simp [d1, d4, d10, d11, Parsed.need, sequence_merge, sequence_remove, literal_rule, pure,
        Except.pure]
    | cons e es =>
      simp [d1, d4, d10, d11, Parsed.need, sequence_merge, sequence_remove, literal_rule, pure,
        Except.pure]

theorem sequence_remove_literal_rule (c : Int) (cs : List Int) :
    sequence_remove (.sequence (literal_rule c cs) []) = literal_rule c cs := by
  simp [sequence_remove]

/-- A pattern of plain characters compiles to its `literal_rule`. -/
theorem basic_regex_plain {c : Int} {cs : List Int} (h : metacharacter c = false)
    (hcs : ∀ x ∈ cs, metacharacter x = false) :
    basic_regex (c :: cs) = .ok (literal_rule c cs) := by
  obtain ⟨h1, -, -, -, -, -, -, -, -, -, -, h12⟩ := metacharacter_false h
  have e : 5 * (c :: cs).length + 8 = ((4 * cs.length + 9) + cs.length + 3) + 1 := by
    simp only [List.length_cons]; omega
  rw [basic_regex, regex_parser_re, e]
  simp only [character_at_str_zero_cons, beq_iff_eq, h1, if_false]
  rw [next_if_ne (by rwa [character_at_str_zero_cons])]
  simp only [bind, Except.bind, pure, Except.pure]
  rw [regex_parser_inner_re]
  simp only [Bool.false_eq_true, if_false, bind, Except.bind]
  rw [simple_plain cs c _ h hcs]
  have e4 : 4 * cs.length + 9 + cs.length + 3 = (4 * cs.length + 9 + cs.length + 2) + 1 := by
    omega
  simp only [character_at_str_nil]
  have hbar : ((0 : Int) != ch '|') = true := by decide
  rw [hbar, e4, inner_re_end]
  simp [Parsed.need, sequence_merge, sequence_remove_literal_rule, next_if_ne,
    character_at_str_nil, ch_ne_zero.2.2.2.1, pure, Except.pure]

theorem returns_val (v : Int) (s : List Int) (it : Nat) :
    Returns (.val v) s it (deref s it == v) (if deref s it = v then it + 1 else it) := by
  refine returns_of_run 1 ?_
  rw [run_val]
  split <;> simp [*]

theorem deref_of_le {t : List Int} {it : Nat} (h : t.length ≤ it) : deref t it = 0 := by
  simp [deref, List.getD, List.getElem?_eq_none h]

theorem deref_of_lt {t : List Int} {it : Nat} (h : it < t.length) : deref t it = t[it] := by
  simp [deref, List.getD, List.getElem?_eq_getElem h]

theorem occurs_at_cons (t : List Int) (c : Int) (cs : List Int) (it : Nat) :
    occurs_at t (c :: cs) it = (deref t it == c && occurs_at t cs (it + 1)) := rfl

/-- A sequence of value rules matches exactly when the values stand in the input,
and then it consumes all of them. -/
theorem returns_sequence_of_vals (t : List Int) (cs : List Int) :
    ∀ (c : Int) (it : Nat), ∃ q,
      Returns (.sequence (.val c) (cs.map Rule.val)) t it (occurs_at t (c :: cs) it) q ∧
        (occurs_at t (c :: cs) it = true → q = it + (cs.length + 1)) := by
  induction cs with
  | nil =>
    intro c it
    refine ⟨if deref t it = c then it + 1 else it, ?_, ?_⟩
    · rw [List.map_nil, returns_sequence_one]
      simpa [occurs_at] using returns_val c t it
    · intro h
      simp only [occurs_at, Bool.and_true, beq_iff_eq] at h
      simp [h]
  | cons d ds ih =>
    intro c it
    by_cases hc : deref t it = c
    · obtain ⟨q, hq, hlen⟩ := ih d (it + 1)
      refine ⟨q, ?_, ?_⟩
      · rw [List.map_cons, returns_sequence_cons]
        refine Or.inr ⟨it + 1, ?_, ?_⟩
        · simpa [hc] using returns_val c t it
        · have e : occurs_at t (c :: d :: ds) it = occurs_at t (d :: ds) (it + 1) := by
            rw [occurs_at_cons]
            simp [hc]
          rw [e]
          exact hq
      · intro h
        have e : occurs_at t (c :: d :: ds) it = occurs_at t (d :: ds) (it + 1) := by
          rw [occurs_at_cons]
          simp [hc]
        rw [e] at h
        rw [hlen h]
        simp only [List.length_cons]
        omega
    · have e : occurs_at t (c :: d :: ds) it = false := by
        rw [occurs_at_cons]
        simp [hc]
      refine ⟨it, ?_, ?_⟩
      · rw [List.map_cons, returns_sequence_cons, e]
        refine Or.inl ⟨rfl, ?_⟩
        have hv := returns_val c t it
        have hb : (deref t it == c) = false := by simp [hc]
        rw [hb] at hv
        simpa [hc] using hv
      · intro h
        rw [e] at h
        exact absurd h (by simp)

theorem returns_literal_rule (t : List Int) (c : Int) (cs : List Int) (it : Nat) :
    ∃ q, Returns (literal_rule c cs) t it (occurs_at t (c :: cs) it) q ∧
      (occurs_at t (c :: cs) it = true → q = it + (cs.length + 1)) := by
  cases cs with
  | nil =>
    obtain ⟨q, hq, hlen⟩ := returns_sequence_of_vals t [] c it
    exact ⟨q, returns_sequence_one.1 hq, hlen⟩
  | cons d ds => exact returns_sequence_of_vals t (d :: ds) c it

/-- For values other than the terminator, standing in the input at `it` means being
the beginning of the input from `it` on. -/
theorem occurs_at_iff_take (t : List Int) (cs : List Int) :
    ∀ (it : Nat), (∀ x ∈ cs, x ≠ 0) →
      (occurs_at t cs it = true ↔ (t.drop it).take cs.length = cs) := by
  induction cs with
  | nil => intro it _; simp [occurs_at]
  | cons c cs ih =>
    intro it h
    have hc : c ≠ 0 := h c (List.mem_cons_self _ _)
    have hcs : ∀ x ∈ cs, x ≠ 0 := fun x hx => h x (List.mem_cons_of_mem _ hx)
    rw [occurs_at_cons]
    simp only [Bool.and_eq_true, beq_iff_eq, ih (it + 1) hcs, List.length_cons]
    cases hd : t.drop it with
    | nil =>
      have hle : t.length ≤ it := by simpa using hd
      have h0 : deref t it = 0 := deref_of_le hle
      simp only [h0, List.take_nil]
      constructor
      · rintro ⟨h1, -⟩; exact absurd h1.symm hc
      · intro h1; exact absurd h1 (by simp)
    | cons x xs =>
      have hlt : it < t.length := by
        by_contra hge
        have : t.drop it = [] := List.drop_eq_nil_of_le (by omega)
        rw [this] at hd
        exact absurd hd (by simp)
      have hx : deref t it = x := by
        have h1 : t.drop it = t[it] :: t.drop (it + 1) := List.drop_eq_getElem_cons hlt
        rw [h1] at hd
        simp only [List.cons.injEq] at hd
        rw [deref_of_lt hlt, hd.1]
      have hxs : t.drop (it + 1) = xs := by
        have h1 : t.drop it = t[it] :: t.drop (it + 1) := List.drop_eq_getElem_cons hlt
        rw [h1] at hd
        simp only [List.cons.injEq] at hd
        exact hd.2
      rw [hx, hxs]
      simp [List.take_succ_cons]

theorem length_eq_iff_eq_of_take {S T : List Int} (h : T.take S.length = S) :
    S.length = T.length ↔ T = S := by
  constructor
  · intro hl
    rw [hl, List.take_length] at h
    exact h
  · intro he
    rw [he]

/-- C1: a non-empty pattern `S` of plain characters compiles; on every input `T`
`match` of the compiled rule returns true exactly when `S` is the beginning of
`T`, and then the iterator has advanced by the length of `S`; `match_all`
returns true exactly when `T` is `S`. -/
theorem plain_pattern_matches_exactly_its_text (S T : List Int) (hne : S ≠ [])
    (hplain : ∀ c ∈ S, metacharacter c = false) :
    ∃ rule, basic_regex S = .ok rule ∧
      (∀ mem, ∃ fuel q mem1,
        match_ref fuel rule T [] 0 mem = some (decide (T.take S.length = S), q, mem1) ∧
          (T.take S.length = S → q = S.length)) ∧
      (∀ mem, ∃ fuel q mem1,
        match_all_ref fuel rule T [] 0 mem = some (decide (T = S), q, mem1)) := by
  cases S with
  | nil => exact absurd rfl hne
  | cons c cs =>
    have hc := hplain c (List.mem_cons_self _ _)
    have hcs : ∀ x ∈ cs, metacharacter x = false :=
      fun x hx => hplain x (List.mem_cons_of_mem _ hx)
    have hnz : ∀ x ∈ c :: cs, x ≠ 0 := fun x hx => (metacharacter_false (hplain x hx)).1
    obtain ⟨q, hq, hlen⟩ := returns_literal_rule T c cs 0
    have hocc := occurs_at_iff_take T (c :: cs) 0 hnz
    rw [List.drop_zero] at hocc
    have hflag : occurs_at T (c :: cs) 0 = decide (T.take (c :: cs).length = c :: cs) := by
      rw [Bool.eq_iff_iff, hocc]
      simp
    rw [hflag] at hq
    refine ⟨literal_rule c cs, basic_regex_plain hc hcs, fun mem => ?_, fun mem => ?_⟩
    · obtain ⟨fuel, mem1, h⟩ := hq [] [] mem
      refine ⟨fuel, q, mem1, h, fun ht => ?_⟩
      rw [hlen (hocc.2 ht)]
      simp
    · obtain ⟨fuel, mem1, h⟩ := hq [] [] mem
      refine ⟨fuel, q, mem1, ?_⟩
      rw [match_all_ref, h]
      simp only [Option.some.injEq, Prod.mk.injEq, and_true]
      by_cases ht : T.take (c :: cs).length = c :: cs
      · have hq' : q = (c :: cs).length := by
          rw [hlen (hocc.2 ht)]
          simp
        rw [hq']
        simp only [ht, decide_True, Bool.true_and]
        rw [Bool.eq_iff_iff]
        simpa using length_eq_iff_eq_of_take ht
      · have hne' : T ≠ c :: cs := by
          intro he
          apply ht
          rw [he, List.take_length]
        have ht' : ¬ T.take (cs.length + 1) = c :: cs := by simpa using ht
        simp [ht, ht', hne']

/-- C1, witness: the pattern "abc" on the input "abcd". -/
theorem plain_pattern_matches_exactly_its_text_witness :
    chars "abc" ≠ [] ∧ (∀ c ∈ chars "abc", metacharacter c = false) ∧
    ∃ rule, basic_regex (chars "abc") = .ok rule ∧
      (∀ mem, ∃ fuel q mem1,
        match_ref fuel rule (chars "abcd") [] 0 mem =
            some (decide ((chars "abcd").take (chars "abc").length = chars "abc"), q, mem1) ∧
          ((chars "abcd").take (chars "abc").length = chars "abc" →
            q = (chars "abc").length)) ∧
      (∀ mem, ∃ fuel q mem1,
        match_all_ref fuel rule (chars "abcd") [] 0 mem =
          some (decide (chars "abcd" = chars "abc"), q, mem1)) :=
  ⟨by decide, by decide,
    plain_pattern_matches_exactly_its_text (chars "abc") (chars "abcd") (by decide)
      (by decide)⟩

/-! ## The recursion budget of the parser is never exhausted -/

theorem rest_str_one_eq (str : List Int) :
    basic_string_builder_rest_str 1 str = .ok (str.tail) := by
  cases str with
  | nil => simp [basic_string_builder_rest_str]
  | cons c cs => simp [rest_str_one]

theorem next_if_eq (str : List Int) (x : Int) :
    regex_parser_next_if str x =
      .ok (character_at_str 0 str == x,
        if character_at_str 0 str == x then str.tail else str) := by
  by_cases h : character_at_str 0 str = x
  · simp [regex_parser_next_if, h, rest_str_one_eq, bind, Except.bind, pure, Except.pure]
  · simp [regex_parser_next_if, h, rest_str_zero, bind, Except.bind, pure, Except.pure]

theorem next_if_rest_le {str : List Int} {x : Int} {r : Bool × List Int}
    (h : regex_parser_next_if str x = .ok r) : r.2.length ≤ str.length := by
  rw [next_if_eq] at h
  cases h
  simp only
  split
  · simp
  · exact Nat.le_refl _

theorem rest_str_two (str : List Int) :
    basic_string_builder_rest_str 2 str = .error .no_more_characters ∨
      ∃ rest, basic_string_builder_rest_str 2 str = .ok rest ∧
        (rest.length < str.length ∨ (str = [] ∧ rest = [])) := by
  cases str with
  | nil => exact Or.inr ⟨[], by simp [basic_string_builder_rest_str], Or.inr ⟨rfl, rfl⟩⟩
  | cons c cs =>
    cases cs with
    | nil => exact Or.inl (by simp [basic_string_builder_rest_str])
    | cons d ds =>
      refine Or.inr ⟨ds, ?_, Or.inl (by simp only [List.length_cons]; omega)⟩
      simp [basic_string_builder_rest_str, rest_str_zero]

/-- The parser of a character fails only with "No more characters", and otherwise
consumes at least one character of a non-empty string. -/
theorem char_progress (str : List Int) :
    regex_parser_char str = .error .no_more_characters ∨
      ∃ r, regex_parser_char str = .ok r ∧
        (r.2.length < str.length ∨ (str = [] ∧ r.2 = [])) := by
  by_cases h : character_at_str 0 str = ch '\\'
  · rcases rest_str_two str with h2 | ⟨rest, h2, hl⟩
    · exact Or.inl (by simp [regex_parser_char, h, h2, bind, Except.bind])
    · exact Or.inr ⟨(character_at_str 1 str, rest),
        by simp [regex_parser_char, h, h2, bind, Except.bind, pure, Except.pure], hl⟩
  · refine Or.inr ⟨(character_at_str 0 str, str.tail),
      by simp [regex_parser_char, h, rest_str_one_eq, bind, Except.bind, pure, Except.pure], ?_⟩
    cases str with
    | nil => exact Or.inr ⟨rfl, rfl⟩
    | cons c cs => exact Or.inl (by simp)

theorem set_item_progress (str : List Int) :
    regex_parser_set_item str = .error .no_more_characters ∨
      ∃ r, regex_parser_set_item str = .ok r ∧
        (r.2.length < str.length ∨ (str = [] ∧ r.2 = [])) := by
  rcases char_progress str with h1 | ⟨r1, h1, hl1⟩
  · exact Or.inl (by simp [regex_parser_set_item, h1, bind, Except.bind])
  · by_cases hd : character_at_str 0 r1.2 = ch '-'
    · rcases char_progress (r1.2.tail) with h2 | ⟨r2, h2, hl2⟩
      · exact Or.inl (by simp [regex_parser_set_item, h1, next_if_eq, hd, h2, bind, Except.bind])
      · refine Or.inr ⟨(Rule.range r1.1 r2.1, r2.2),
          by simp [regex_parser_set_item, h1, next_if_eq, hd, h2, bind, Except.bind, pure,
            Except.pure], ?_⟩
        have hle : r2.2.length ≤ r1.2.length := by
          rcases hl2 with hl2 | ⟨-, hl2⟩
          · have := List.length_tail r1.2
            omega
          · simp [hl2]
        rcases hl1 with hl1 | ⟨hs, hr⟩
        · exact Or.inl (Nat.lt_of_le_of_lt hle hl1)
        · refine Or.inr ⟨hs, ?_⟩
          rw [hr] at hle
          exact List.length_eq_zero.1 (by simpa using hle)
    · rcases char_progress r1.2 with h2 | ⟨r2, h2, -⟩
      · exact Or.inl (by simp [regex_parser_set_item, h1, next_if_eq, hd, h2, bind, Except.bind])
      · exact Or.inr ⟨(Rule.val r1.1, r1.2),
          by simp [regex_parser_set_item, h1, next_if_eq, hd, h2, bind, Except.bind, pure,
            Except.pure], hl1⟩

theorem sequence_merge_error {a b : Option Rule} {e : CompileError}
    (h : sequence_merge a b = .error e) : e = .incomplete_type := by
  unfold sequence_merge at h
  split at h <;> simp_all

theorem need_error {p : Parsed} {e : CompileError} (h : p.need = .error e) :
    e = .incomplete_type := by
  unfold Parsed.need at h
  split at h <;> simp_all

theorem set_items_budget (n : Nat) :
    ∀ (str : List Int) (e : Bool), str.length + 2 ≤ n →
      regex_parser_set_items n str e ≠ .error .depth_exceeded ∧
        ∀ p, regex_parser_set_items n str e = .ok p → p.rest.length ≤ str.length := by
  induction n with
  | zero => intro str e h; omega
  | succ n ih =>
    intro str e h
    rw [regex_parser_set_items]
    cases e with
    | true =>
      simp only [if_true]
      exact ⟨by simp, fun p hp => by cases hp; exact Nat.le_refl _⟩
    | false =>
      simp only [Bool.false_eq_true, if_false, bind, Except.bind]
      rcases set_item_progress str with h1 | ⟨r1, h1, hl⟩
      · rw [h1]
        exact ⟨by simp, fun p hp => by simp at hp⟩
      · rw [h1]
        simp only
        have hnext : regex_parser_set_items n r1.2
              (character_at_str 0 r1.2 == ch ']' || character_at_str 0 r1.2 == 0) ≠
              .error .depth_exceeded ∧
            ∀ p, regex_parser_set_items n r1.2
              (character_at_str 0 r1.2 == ch ']' || character_at_str 0 r1.2 == 0) = .ok p →
              p.rest.length ≤ str.length := by
          rcases hl with hl | ⟨hs, hr⟩
          · obtain ⟨i1, i2⟩ := ih r1.2
              (character_at_str 0 r1.2 == ch ']' || character_at_str 0 r1.2 == 0) (by omega)
            exact ⟨i1, fun p hp => Nat.le_trans (i2 p hp) (Nat.le_of_lt hl)⟩
          · rw [hr, character_at_str_nil]
            cases n with
            | zero => simp [hs] at h
            | succ m =>
              simp only [regex_parser_set_items, beq_self_eq_true, Bool.or_true, if_true]
              exact ⟨by simp, fun p hp => by cases hp; simp⟩
        obtain ⟨n1, n2⟩ := hnext
        cases hn : regex_parser_set_items n r1.2
            (character_at_str 0 r1.2 == ch ']' || character_at_str 0 r1.2 == 0) with
        | error err =>
          simp only
          refine ⟨?_, fun p hp => by simp at hp⟩
          intro hc
          simp only [Except.error.injEq] at hc
          exact n1 (by rw [hn, hc])
        | ok next =>
          simp only
          cases hm : sequence_merge (some (.sequence r1.1 [])) next.rule with
          | error err =>
            simp only
            refine ⟨?_, fun p hp => by simp at hp⟩
            rw [sequence_merge_error hm]
            simp
          | ok merged =>
            simp only [pure, Except.pure]
            refine ⟨by simp, fun p hp => ?_⟩
            cases hp
            exact n2 next hn

theorem set_budget {n : Nat} {str : List Int} (h : str.length + 1 ≤ n)
    (hopen : character_at_str 0 str = ch '[') :
    regex_parser_set n str ≠ .error .depth_exceeded ∧
      ∀ p, regex_parser_set n str = .ok p → p.rest.length < str.length := by
  cases str with
  | nil => exact absurd hopen (by rw [character_at_str_nil]; decide)
  | cons c cs =>
    rw [character_at_str_zero_cons] at hopen
    subst hopen
    rw [regex_parser_set]
    simp only [character_at_str_zero_cons, bne_self_eq_false, Bool.false_eq_true, if_false,
      next_if_eq, beq_self_eq_true, if_true, List.tail_cons, bind, Except.bind, pure,
      Except.pure]
    have hle : (if character_at_str 0 cs == ch '^' then cs.tail else cs).length ≤ cs.length := by
      split
      · simp
      · exact Nat.le_refl _
    obtain ⟨i1, i2⟩ := set_items_budget n
      (if character_at_str 0 cs == ch '^' then cs.tail else cs) false
      (by simp only [List.length_cons] at h; omega)
    cases hi : regex_parser_set_items n
        (if character_at_str 0 cs == ch '^' then cs.tail else cs) false with
    | error err =>
      simp only
      refine ⟨?_, fun p hp => by simp at hp⟩
      intro hc
      simp only [Except.error.injEq] at hc
      exact i1 (by rw [hi, hc])
    | ok items =>
      have hr := i2 items hi
      simp only
      by_cases hclose : character_at_str 0 items.rest = ch ']'
      · simp only [hclose, beq_self_eq_true, Bool.not_true, Bool.false_eq_true, if_false,
          if_true]
        cases hn : items.need with
        | error err =>
          simp only
          refine ⟨?_, fun p hp => by simp at hp⟩
          rw [need_error hn]
          simp
        | ok rule =>
          simp only
          refine ⟨by simp, fun p hp => ?_⟩
          cases hp
          simp only [List.length_cons]
          have := List.length_tail items.rest
          omega
      · have hb : (character_at_str 0 items.rest == ch ']') = false := by simp [hclose]
        simp only [hb, Bool.not_false, if_true]
        exact ⟨by simp [throw, throwThe, MonadExceptOf.throw], fun p hp => by
          simp [throw, throwThe, MonadExceptOf.throw] at hp⟩

theorem ne_depth_of_error {α : Type} {x : Except CompileError α} {err : CompileError}
    (hx : x = .error err) (h : x ≠ .error .depth_exceeded) :
    (Except.error err : Except CompileError Parsed) ≠ .error .depth_exceeded := by
  intro hc
  simp only [Except.error.injEq] at hc
  exact h (by rw [hx, hc])

theorem suffix_rest_le (r : List Int) (b1 b2 b3 : Bool) :
    (if b1 = true then (if b1 = true then r.tail else r)
      else if b2 = true then (if b2 = true then r.tail else r)
      else if b3 = true then (if b3 = true then r.tail else r)
      else r).length ≤ r.length := by
  have := List.length_tail r
  cases b1 <;> cases b2 <;> cases b3 <;> simp

/-- With a budget of five units per character (and one to four more, by level),
no parser of the recursive descent exhausts it, and each of them leaves a rest
that is no longer than its input. -/
theorem parser_budget (n : Nat) :
    (∀ str, character_at_str 0 str = ch '(' → 5 * str.length ≤ n →
      regex_parser_group n str ≠ .error .depth_exceeded ∧
        ∀ p, regex_parser_group n str = .ok p → p.rest.length < str.length) ∧
    (∀ str, 5 * str.length + 1 ≤ n →
      regex_parser_elementary_re n str ≠ .error .depth_exceeded ∧
        ∀ p, regex_parser_elementary_re n str = .ok p →
          p.rest.length < str.length ∨ (str = [] ∧ p.rest = [])) ∧
    (∀ str, 5 * str.length + 2 ≤ n →
      regex_parser_basic_re n str ≠ .error .depth_exceeded ∧
        ∀ p, regex_parser_basic_re n str = .ok p →
          p.rest.length < str.length ∨ (str = [] ∧ p.rest = [])) ∧
    (∀ str e, 5 * str.length + 3 ≤ n →
      regex_parser_simple_re n str e ≠ .error .depth_exceeded ∧
        ∀ p, regex_parser_simple_re n str e = .ok p →
          p.rest.length ≤ str.length ∧
            (e = false → p.rest.length < str.length ∨ (str = [] ∧ p.rest = []))) ∧
    (∀ str e, 5 * str.length + 4 ≤ n →
      regex_parser_inner_re n str e ≠ .error .depth_exceeded ∧
        ∀ p, regex_parser_inner_re n str e = .ok p → p.rest.length ≤ str.length) := by
  induction n with
  | zero =>
    refine ⟨fun str h0 hn => ?_, fun str hn => by omega, fun str hn => by omega,
      fun str e hn => by omega, fun str e hn => by omega⟩
    cases str with
    | nil => exact absurd h0 (by rw [character_at_str_nil]; decide)
    | cons c cs => simp only [List.length_cons] at hn; omega
  | succ n ih =>
    obtain ⟨ihg, ihe, ihb, ihs, ihi⟩ := ih
    refine ⟨?_, ?_, ?_, ?_, ?_⟩
    · -- group
      intro str h0 hn
      cases str with
      | nil => exact absurd h0 (by rw [character_at_str_nil]; decide)
      | cons c cs =>
        rw [character_at_str_zero_cons] at h0
        subst h0
        simp only [List.length_cons] at hn
        obtain ⟨i1, i2⟩ := ihi cs false (by omega)
        rw [regex_parser_group]
        simp only [next_if_eq, character_at_str_zero_cons, beq_self_eq_true, if_true,
          List.tail_cons, bind, Except.bind, pure, Except.pure, Bool.not_true,
          Bool.false_eq_true, if_false]
        cases hi : regex_parser_inner_re n cs false with
        | error err =>
          exact ⟨ne_depth_of_error hi i1, fun p hp => by simp at hp⟩
        | ok inner =>
          have hr := i2 inner hi
          simp only
          by_cases hclose : character_at_str 0 inner.rest = ch ')'
          · simp only [hclose, beq_self_eq_true, Bool.not_true, Bool.false_eq_true, if_false,
              if_true]
            refine ⟨by simp, fun p hp => ?_⟩
            cases hp
            simp only [List.length_cons]
            have := List.length_tail inner.rest
            omega
          · have hb : (character_at_str 0 inner.rest == ch ')') = false := by simp [hclose]
            simp only [hb, Bool.not_false, if_true]
            exact ⟨by simp [throw, throwThe, MonadExceptOf.throw], fun p hp => by
              simp [throw, throwThe, MonadExceptOf.throw] at hp⟩
    · -- elementary
      intro str hn
      rw [regex_parser_elementary_re]
      simp only [next_if_eq, bind, Except.bind, pure, Except.pure]
      by_cases hg : character_at_str 0 str = ch '('
      · obtain ⟨i1, i2⟩ := ihg str hg (by omega)
        have hany : (ch '(' == ch '.') = false := by decide
        simp only [hg, beq_self_eq_true, if_true, hany, Bool.false_eq_true, if_false]
        cases hi : regex_parser_group n str with
        | error err => exact ⟨ne_depth_of_error hi i1, fun p hp => by simp at hp⟩
        | ok sel =>
          refine ⟨by simp, fun p hp => ?_⟩
          cases hp
          exact Or.inl (i2 sel hi)
      · have hgb : (character_at_str 0 str == ch '(') = false := by simp [hg]
        simp only [hgb, Bool.false_eq_true, if_false]
        by_cases hs : character_at_str 0 str = ch '['
        · have hlen : str.length + 1 ≤ n := by
            cases str with
            | nil => exact absurd hs (by rw [character_at_str_nil]; decide)
            | cons c cs => simp only [List.length_cons] at hn ⊢; omega
          obtain ⟨i1, i2⟩ := set_budget hlen hs
          have hany : (ch '[' == ch '.') = false := by decide
          simp only [hs, beq_self_eq_true, if_true, hany, Bool.false_eq_true, if_false]
          cases hi : regex_parser_set n str with
          | error err => exact ⟨ne_depth_of_error hi i1, fun p hp => by simp at hp⟩
          | ok sel =>
            refine ⟨by simp, fun p hp => ?_⟩
            cases hp
            exact Or.inl (i2 sel hi)
        · have hsb : (character_at_str 0 str == ch '[') = false := by simp [hs]
          simp only [hsb, Bool.false_eq_true, if_false]
          rcases char_progress str with h1 | ⟨r1, h1, hl⟩
          · rw [h1]
            exact ⟨by simp, fun p hp => by simp at hp⟩
          · rw [h1]
            refine ⟨by simp, fun p hp => ?_⟩
            cases hp
            by_cases ha : character_at_str 0 str = ch '.'
            · simp only [ha, beq_self_eq_true, if_true]
              cases str with
              | nil => exact absurd ha (by rw [character_at_str_nil]; decide)
              | cons c cs => exact Or.inl (by simp)
            · have hab : (character_at_str 0 str == ch '.') = false := by simp [ha]
              simp only [hab, Bool.false_eq_true, if_false]
              exact hl
    · -- basic
      intro str hn
      obtain ⟨i1, i2⟩ := ihe str (by omega)
      rw [regex_parser_basic_re]
      simp only [next_if_eq, bind, Except.bind, pure, Except.pure]
      cases hi : regex_parser_elementary_re n str with
      | error err => exact ⟨ne_depth_of_error hi i1, fun p hp => by simp at hp⟩
      | ok el =>
        have hl := i2 el hi
        simp only
        cases hn : el.need with
        | error err =>
          simp only
          refine ⟨?_, fun p hp => by simp at hp⟩
          rw [need_error hn]
          simp
        | ok rule =>
          simp only
          refine ⟨by simp, fun p hp => ?_⟩
          cases hp
          simp only
          have hle := suffix_rest_le el.rest (character_at_str 0 el.rest == ch '*')
            (character_at_str 0 el.rest == ch '+') (character_at_str 0 el.rest == ch '?')
          rcases hl with hl | ⟨hs, hr⟩
          · exact Or.inl (Nat.lt_of_le_of_lt hle hl)
          · refine Or.inr ⟨hs, ?_⟩
            rw [hr] at hle ⊢
            simp
    · -- simple
      intro str e hn
      rw [regex_parser_simple_re]
      cases e with
      | true =>
        simp only [if_true]
        exact ⟨by simp, fun p hp => by cases hp; exact ⟨Nat.le_refl _, by simp⟩⟩
      | false =>
        simp only [Bool.false_eq_true, if_false, bind, Except.bind, pure, Except.pure]
        obtain ⟨i1, i2⟩ := ihb str (by omega)
        cases hi : regex_parser_basic_re n str with
        | error err => exact ⟨ne_depth_of_error hi i1, fun p hp => by simp at hp⟩
        | ok item =>
          have hl := i2 item hi
          simp only
          have hnext : ∀ c, (item.rest = [] → c = true) →
              regex_parser_simple_re n item.rest c ≠ .error .depth_exceeded ∧
              ∀ p, regex_parser_simple_re n item.rest c = .ok p →
                p.rest.length ≤ item.rest.length := by
            intro c hc
            rcases hl with hl | ⟨hs, hr⟩
            · obtain ⟨j1, j2⟩ := ihs item.rest c (by omega)
              exact ⟨j1, fun p hp => (j2 p hp).1⟩
            · rw [hc hr, hr]
              cases n with
              | zero => omega
              | succ m =>
                simp only [regex_parser_simple_re, if_true]
                exact ⟨by simp, fun p hp => by cases hp; simp⟩
          obtain ⟨n1, n2⟩ := hnext
            (character_at_str 0 item.rest == ch '|' || character_at_str 0 item.rest == ch '$' ||
              character_at_str 0 item.rest == ch ')' || character_at_str 0 item.rest == 0)
            (fun hr => by rw [hr, character_at_str_nil]; decide)
          cases hx : regex_parser_simple_re n item.rest
              (character_at_str 0 item.rest == ch '|' ||
                character_at_str 0 item.rest == ch '$' ||
                character_at_str 0 item.rest == ch ')' ||
                character_at_str 0 item.rest == 0) with
          | error err => exact ⟨ne_depth_of_error hx n1, fun p hp => by simp at hp⟩
          | ok next =>
            have hr := n2 next hx
            simp only
            cases hn : item.need with
            | error err =>
              simp only
              refine ⟨?_, fun p hp => by simp at hp⟩
              rw [need_error hn]
              simp
            | ok rule =>
              simp only
              cases hm : sequence_merge (some (.sequence rule [])) next.rule with
              | error err =>
                simp only
                refine ⟨?_, fun p hp => by simp at hp⟩
                rw [sequence_merge_error hm]
                simp
              | ok merged =>
                simp only
                refine ⟨by simp, fun p hp => ?_⟩
                cases hp
                simp only
                rcases hl with hl | ⟨hs, hr'⟩
                · exact ⟨by omega, fun _ => Or.inl (by omega)⟩
                · rw [hr'] at hr
                  have h0 : next.rest = [] := List.length_eq_zero.1 (by simpa using hr)
                  exact ⟨by simp [h0], fun _ => Or.inr ⟨hs, h0⟩⟩
    · -- inner
      intro str e hn
      rw [regex_parser_inner_re]
      cases e with
      | true =>
        simp only [if_true]
        exact ⟨by simp, fun p hp => by cases hp; exact Nat.le_refl _⟩
      | false =>
        simp only [Bool.false_eq_true, if_false, bind, Except.bind, pure, Except.pure]
        obtain ⟨i1, i2⟩ := ihs str false (by omega)
        cases hi : regex_parser_simple_re n str false with
        | error err => exact ⟨ne_depth_of_error hi i1, fun p hp => by simp at hp⟩
        | ok item =>
          have hl := (i2 item hi).2 rfl
          simp only
          have hnext : ∀ c, (item.rest = [] → c = true) →
              regex_parser_inner_re n item.rest c ≠ .error .depth_exceeded ∧
              ∀ p, regex_parser_inner_re n item.rest c = .ok p →
                p.rest.length ≤ item.rest.length := by
            intro c hc
            rcases hl with hl | ⟨hs, hr⟩
            · exact ihi item.rest c (by omega)
            · rw [hc hr, hr]
              cases n with
              | zero => omega
              | succ m =>
                simp only [regex_parser_inner_re, if_true]
                exact ⟨by simp, fun p hp => by cases hp; simp⟩
          obtain ⟨n1, n2⟩ := hnext (character_at_str 0 item.rest != ch '|')
            (fun hr => by rw [hr, character_at_str_nil]; decide)
          cases hx : regex_parser_inner_re n item.rest
              (character_at_str 0 item.rest != ch '|') with
          | error err => exact ⟨ne_depth_of_error hx n1, fun p hp => by simp at hp⟩
          | ok next =>
            have hr := n2 next hx
            simp only
            cases hn : item.need with
            | error err =>
              simp only
              refine ⟨?_, fun p hp => by simp at hp⟩
              rw [need_error hn]
              simp
            | ok rule =>
              simp only
              cases hm : sequence_merge (some (.sequence rule [])) next.rule with
              | error err =>
                simp only
                refine ⟨?_, fun p hp => by simp at hp⟩
                rw [sequence_merge_error hm]
                simp
              | ok merged =>
                simp only
                refine ⟨by simp, fun p hp => ?_⟩
                cases hp
                simp only
                rcases hl with hl | ⟨hs, hr'⟩
                · omega
                · rw [hr'] at hr
                  have h0 : next.rest = [] := List.length_eq_zero.1 (by simpa using hr)
                  simp [h0]

/-- The budget `basic_regex` gives the parser is never exhausted: compilation
ends with a rule or with one of the errors of the source. -/
theorem basic_regex_budget_suffices (str : List Int) :
    basic_regex str ≠ .error .depth_exceeded := by
  rw [basic_regex, regex_parser_re]
  by_cases h0 : character_at_str 0 str = 0
  · simp [h0, throw, throwThe, MonadExceptOf.throw, bind, Except.bind]
  · have hb : (character_at_str 0 str == 0) = false := by simp [h0]
    simp only [hb, Bool.false_eq_true, if_false, next_if_eq, bind, Except.bind, pure,
      Except.pure]
    have hle : (if (character_at_str 0 str == ch '^') = true then str.tail else str).length ≤
        str.length := by
      split
      · simp
      · exact Nat.le_refl _
    obtain ⟨i1, -⟩ := (parser_budget (5 * str.length + 8)).2.2.2.2
      (if (character_at_str 0 str == ch '^') = true then str.tail else str) false (by omega)
    cases hi : regex_parser_inner_re (5 * str.length + 8)
        (if (character_at_str 0 str == ch '^') = true then str.tail else str) false with
    | error err =>
      intro hc
      simp only [Except.error.injEq] at hc
      exact i1 (by rw [hi, hc])
    | ok inner =>
      simp only
      cases hn : inner.need with
      | error err =>
        simp only
        rw [need_error hn]
        simp
      | ok rule => simp

/-! ## Anchors and whole-input matching -/

theorem run_begin (n : Nat) (r : Rule) (s : List Int) (it : Nat) :
    run (n + 1) (.begin r) s it = run n r s it := by
  simp [run, match_impl]

theorem run_end (n : Nat) (r : Rule) (s : List Int) (it : Nat) :
    run (n + 1) (.end_ r) s it =
      (run n r s it).map (fun x => (x.1 && decide (x.2 = s.length), x.2)) := by
  rw [run, match_impl]
  cases h : match_impl n r s [] [] it [] with
  | none => simp [(run_eq_none _ _ _).2 h]
  | some x =>
    obtain ⟨f, q, m⟩ := x
    rw [(run_eq_some _ _ _).2 ⟨m, h⟩]
    simp [proj]

theorem run_begin_end (n : Nat) (r : Rule) (s : List Int) (it : Nat) :
    run (n + 1) (.begin_end r) s it =
      (run n r s it).map (fun x => (x.1 && decide (x.2 = s.length), x.2)) := by
  rw [run, match_impl]
  cases h : match_impl n r s [] [] it [] with
  | none => simp [(run_eq_none _ _ _).2 h]
  | some x =>
    obtain ⟨f, q, m⟩ := x
    rw [(run_eq_some _ _ _).2 ⟨m, h⟩]
    simp [proj]

theorem returns_begin {r : Rule} {s : List Int} {it : Nat} {f : Bool} {q : Nat} :
    Returns (.begin r) s it f q ↔ Returns r s it f q := by
  simp only [returns_iff_run]
  constructor
  · rintro ⟨n, h⟩
    cases n with
    | zero => simp [run_zero] at h
    | succ n => exact ⟨n, by rwa [run_begin] at h⟩
  · rintro ⟨n, h⟩
    exact ⟨n + 1, by rwa [run_begin]⟩

theorem returns_end {r : Rule} {s : List Int} {it : Nat} {f : Bool} {q : Nat} :
    Returns (.end_ r) s it f q ↔
      ∃ b, Returns r s it b q ∧ f = (b && decide (q = s.length)) := by
  constructor
  · intro h
    obtain ⟨n, h⟩ := returns_iff_run.1 h
    cases n with
    | zero => simp [run_zero] at h
    | succ n =>
      rw [run_end] at h
      cases hc : run n r s it with
      | none => simp [hc] at h
      | some x =>
        obtain ⟨b, m⟩ := x
        simp only [hc, Option.map_some', Option.some.injEq, Prod.mk.injEq] at h
        obtain ⟨rfl, rfl⟩ := h
        exact ⟨b, returns_of_run _ hc, rfl⟩
  · rintro ⟨b, h, rfl⟩
    obtain ⟨n, h⟩ := returns_iff_run.1 h
    exact returns_of_run (n + 1) (by rw [run_end, h]; rfl)

theorem returns_begin_end {r : Rule} {s : List Int} {it : Nat} {f : Bool} {q : Nat} :
    Returns (.begin_end r) s it f q ↔
      ∃ b, Returns r s it b q ∧ f = (b && decide (q = s.length)) := by
  constructor
  · intro h
    obtain ⟨n, h⟩ := returns_iff_run.1 h
    cases n with
    | zero => simp [run_zero] at h
    | succ n =>
      rw [run_begin_end] at h
      cases hc : run n r s it with
      | none => simp [hc] at h
      | some x =>
        obtain ⟨b, m⟩ := x
        simp only [hc, Option.map_some', Option.some.injEq, Prod.mk.injEq] at h
        obtain ⟨rfl, rfl⟩ := h
        exact ⟨b, returns_of_run _ hc, rfl⟩
  · rintro ⟨b, h, rfl⟩
    obtain ⟨n, h⟩ := returns_iff_run.1 h
    exact returns_of_run (n + 1) (by rw [run_begin_end, h]; rfl)

/-- C16: over an inner rule without outputs (`begin`, `end` and `begin_end` call
`Rule::match_impl(it, end)` and hand on no output), `end<Rule>` and
`begin_end<Rule>` return true exactly when the inner rule returns true and
leaves the iterator at the end of the input (they return whenever the inner
rule does, with the iterator where it left it), and `begin<Rule>` returns the
result of the inner rule and leaves the same iterator. -/
theorem anchors_forward_inner_rule_and_test_end
    (rule : Rule) (s : List Int) (it : Nat) (flag : Bool) (q : Nat)
    (_hout : rule.output_count = 0) :
    (Returns (.end_ rule) s it flag q ↔
      ∃ b, Returns rule s it b q ∧ flag = (b && decide (q = s.length))) ∧
    (Returns (.begin_end rule) s it flag q ↔
      ∃ b, Returns rule s it b q ∧ flag = (b && decide (q = s.length))) ∧
    (Returns (.begin rule) s it flag q ↔ Returns rule s it flag q) ∧
    (Returns (.end_ rule) s it true q ↔ Returns rule s it true q ∧ q = s.length) ∧
    (Returns (.begin_end rule) s it true q ↔ Returns rule s it true q ∧ q = s.length) := by
  refine ⟨returns_end, returns_begin_end, returns_begin, ?_, ?_⟩
  · rw [returns_end]
    constructor
    · rintro ⟨b, h, hb⟩
      have hb' := hb.symm
      simp only [Bool.and_eq_true, decide_eq_true_eq] at hb'
      obtain ⟨rfl, hq⟩ := hb'
      exact ⟨h, hq⟩
    · rintro ⟨h, hq⟩
      exact ⟨true, h, by simp [hq]⟩
  · rw [returns_begin_end]
    constructor
    · rintro ⟨b, h, hb⟩
      have hb' := hb.symm
      simp only [Bool.and_eq_true, decide_eq_true_eq] at hb'
      obtain ⟨rfl, hq⟩ := hb'
      exact ⟨h, hq⟩
    · rintro ⟨h, hq⟩
      exact ⟨true, h, by simp [hq]⟩

/-- C16, witness: the rules `end<val a>`, `begin_end<val a>` and `begin<val a>` on
the input "a". -/
theorem anchors_forward_inner_rule_and_test_end_witness :
    (Rule.val (ch 'a')).output_count = 0 ∧
      (Returns (.end_ (.val (ch 'a'))) (chars "a") 0 true 1 ↔
        ∃ b, Returns (.val (ch 'a')) (chars "a") 0 b 1 ∧
          true = (b && decide (1 = (chars "a").length))) ∧
      (Returns (.begin_end (.val (ch 'a'))) (chars "a") 0 true 1 ↔
        ∃ b, Returns (.val (ch 'a')) (chars "a") 0 b 1 ∧
          true = (b && decide (1 = (chars "a").length))) ∧
      (Returns (.begin (.val (ch 'a'))) (chars "a") 0 true 1 ↔
        Returns (.val (ch 'a')) (chars "a") 0 true 1) ∧
      (Returns (.end_ (.val (ch 'a'))) (chars "a") 0 true 1 ↔
        Returns (.val (ch 'a')) (chars "a") 0 true 1 ∧ 1 = (chars "a").length) ∧
      (Returns (.begin_end (.val (ch 'a'))) (chars "a") 0 true 1 ↔
        Returns (.val (ch 'a')) (chars "a") 0 true 1 ∧ 1 = (chars "a").length) :=
  ⟨rfl, anchors_forward_inner_rule_and_test_end (.val (ch 'a')) (chars "a") 0 true 1 rfl⟩

/-- C17: `match_all_ref` returns exactly when `match_ref` does, with the same
iterator and the same sinks, and its flag is the flag of `match_ref` and-ed with
the test that the iterator is at the end: it returns true iff `match_ref` returns
true and the iterator equals the end afterwards. -/
theorem match_all_is_match_and_at_end
    (fuel : Nat) (rule : Rule) (s : List Int) (outs : List Nat) (it : Nat) (mem : List Sink) :
    (match_all_ref fuel rule s outs it mem =
      (match_ref fuel rule s outs it mem).map
        (fun r => (r.1 && decide (r.2.1 = s.length), r.2.1, r.2.2))) ∧
    (∀ q mem1, match_all_ref fuel rule s outs it mem = some (true, q, mem1) ↔
      match_ref fuel rule s outs it mem = some (true, q, mem1) ∧ q = s.length) ∧
    (match_all_ref fuel rule s outs it mem = none ↔
      match_ref fuel rule s outs it mem = none) := by
  have h1 : match_all_ref fuel rule s outs it mem =
      (match_ref fuel rule s outs it mem).map
        (fun r => (r.1 && decide (r.2.1 = s.length), r.2.1, r.2.2)) := by
    rw [match_all_ref, match_ref]
    cases match_impl fuel rule s [] outs it mem with
    | none => rfl
    | some x => rfl
  refine ⟨h1, fun q mem1 => ?_, ?_⟩
  · rw [h1]
    cases match_ref fuel rule s outs it mem with
    | none => simp
    | some x =>
      obtain ⟨f, q', m'⟩ := x
      simp only [Option.map_some', Option.some.injEq, Prod.mk.injEq, Bool.and_eq_true,
        decide_eq_true_eq]
      constructor
      · rintro ⟨⟨rfl, h2⟩, rfl, rfl⟩
        exact ⟨⟨rfl, rfl, rfl⟩, h2⟩
      · rintro ⟨⟨rfl, rfl, rfl⟩, h2⟩
        exact ⟨⟨rfl, h2⟩, rfl, rfl⟩
  · rw [h1]
    simp

/-! ## The iterator never moves backwards -/

theorem value_matcher_le {is : Int → Bool} {s : List Int} {caps : List Nat} {it : Nat}
    {mem : List Sink} {f : Bool} {q : Nat} {m1 : List Sink}
    (h : value_matcher is s caps it mem = (f, q, m1)) : it ≤ q := by
  unfold value_matcher at h
  split at h
  · simp only [increment, Prod.mk.injEq] at h
    omega
  · simp only [Prod.mk.injEq] at h
    omega

/-- Whatever a match returns, the iterator it leaves is not before the one it
started from; the same holds for the two loops. -/
theorem iterator_le_step (n : Nat) :
    (∀ r s caps outs it mem f q m1,
      match_impl n r s caps outs it mem = some (f, q, m1) → it ≤ q) ∧
    (∀ r s caps outs it mem f q m1,
      repeat_optional_loop n r s caps outs it mem = some (f, q, m1) → it ≤ q) ∧
    (∀ r s caps outs c it mem f q m1,
      repeat_loop n r s caps outs c it mem = some (f, q, m1) → it ≤ q) := by
  induction n with
  | zero => simp [match_impl, repeat_optional_loop, repeat_loop]
  | succ n ih =>
    obtain ⟨ih1, ih2, ih3⟩ := ih
    refine ⟨?_, ?_, ?_⟩
    · intro r s caps outs it mem f q m1 h
      cases r with
      | val v =>
        simp only [match_impl, Option.some.injEq] at h
        exact value_matcher_le h
      | val_not v =>
        simp only [match_impl, Option.some.injEq] at h
        exact value_matcher_le h
      | range lo hi =>
        simp only [match_impl, Option.some.injEq] at h
        exact value_matcher_le h
      | null_rule =>
        simp only [match_impl, Option.some.injEq, Prod.mk.injEq] at h
        omega
      | any =>
        simp only [match_impl, Option.some.injEq] at h
        exact value_matcher_le h
      | alternative r rs =>
        cases rs with
        | nil =>
          simp only [match_impl] at h
          exact ih1 _ _ _ _ _ _ _ _ _ h
        | cons r2 rs =>
          rw [match_impl] at h
          cases hc : match_impl n r s caps outs it mem with
          | none => simp [hc] at h
          | some y =>
            obtain ⟨b, it1, mem1⟩ := y
            have hle := ih1 _ _ _ _ _ _ _ _ _ hc
            cases b <;> simp only [hc] at h
            · exact Nat.le_trans hle (ih1 _ _ _ _ _ _ _ _ _ h)
            · simp only [Option.some.injEq, Prod.mk.injEq] at h
              omega
      | alternative_not r rs =>
        cases rs with
        | nil =>
          rw [match_impl] at h
          cases hc : match_impl n r s caps outs it mem with
          | none => simp [hc] at h
          | some y =>
            obtain ⟨b, it1, mem1⟩ := y
            cases b <;> simp only [hc, increment, Option.some.injEq, Prod.mk.injEq] at h <;>
              omega
        | cons r2 rs =>
          rw [match_impl] at h
          cases hc : match_impl n r s caps outs it mem with
          | none => simp [hc] at h
          | some y =>
            obtain ⟨b, it1, mem1⟩ := y
            cases b <;> simp only [hc] at h
            · exact ih1 _ _ _ _ _ _ _ _ _ h
            · simp only [Option.some.injEq, Prod.mk.injEq] at h
              omega
      | repeat_optional r =>
        simp only [match_impl] at h
        exact ih2 _ _ _ _ _ _ _ _ _ h
      | repeat_ r =>
        simp only [match_impl] at h
        exact ih3 _ _ _ _ _ _ _ _ _ _ h
      | optional r =>
        rw [match_impl] at h
        cases hc : match_impl n r s caps outs it mem with
        | none => simp [hc] at h
        | some y =>
          obtain ⟨b, it1, mem1⟩ := y
          have hle := ih1 _ _ _ _ _ _ _ _ _ hc
          simp only [hc, Option.some.injEq, Prod.mk.injEq] at h
          omega
      | sequence r rs =>
        cases rs with
        | nil =>
          simp only [match_impl] at h
          exact ih1 _ _ _ _ _ _ _ _ _ h
        | cons r2 rs =>
          rw [match_impl] at h
          cases hc : match_impl n r s caps (List.take r.output_count outs) it mem with
          | none => simp [hc] at h
          | some y =>
            obtain ⟨b, it1, mem1⟩ := y
            have hle := ih1 _ _ _ _ _ _ _ _ _ hc
            cases b <;> simp only [hc] at h
            · simp only [Option.some.injEq, Prod.mk.injEq] at h
              omega
            · exact Nat.le_trans hle (ih1 _ _ _ _ _ _ _ _ _ h)
      | capture r =>
        cases outs with
        | nil =>
          simp only [match_impl] at h
          exact ih1 _ _ _ _ _ _ _ _ _ h
        | cons o os =>
          simp only [match_impl] at h
          exact ih1 _ _ _ _ _ _ _ _ _ h
      | store r v =>
        cases outs with
        | nil =>
          simp only [match_impl] at h
          exact ih1 _ _ _ _ _ _ _ _ _ h
        | cons o os =>
          simp only [match_impl] at h
          exact ih1 _ _ _ _ _ _ _ _ _ h
      | begin r =>
        simp only [match_impl] at h
        exact ih1 _ _ _ _ _ _ _ _ _ h
      | end_ r =>
        rw [match_impl] at h
        cases hc : match_impl n r s caps [] it mem with
        | none => simp [hc] at h
        | some y =>
          obtain ⟨b, it1, mem1⟩ := y
          have hle := ih1 _ _ _ _ _ _ _ _ _ hc
          simp only [hc, Option.some.injEq, Prod.mk.injEq] at h
          omega
      | begin_end r =>
        rw [match_impl] at h
        cases hc : match_impl n r s caps [] it mem with
        | none => simp [hc] at h
        | some y =>
          obtain ⟨b, it1, mem1⟩ := y
          have hle := ih1 _ _ _ _ _ _ _ _ _ hc
          simp only [hc, Option.some.injEq, Prod.mk.injEq] at h
          omega
    · intro r s caps outs it mem f q m1 h
      rw [repeat_optional_loop] at h
      cases hc : match_impl n r s caps outs it mem with
      | none => simp [hc] at h
      | some y =>
        obtain ⟨b, it1, mem1⟩ := y
        have hle := ih1 _ _ _ _ _ _ _ _ _ hc
        cases b <;> simp only [hc] at h
        · simp only [Option.some.injEq, Prod.mk.injEq] at h
          omega
        · exact Nat.le_trans hle (ih2 _ _ _ _ _ _ _ _ _ h)
    · intro r s caps outs c it mem f q m1 h
      rw [repeat_loop] at h
      by_cases he : it = s.length
      · simp only [he, ne_eq, not_true_eq_false, if_false, Option.some.injEq,
          Prod.mk.injEq] at h
        omega
      · simp only [ne_eq, he, not_false_eq_true, if_true] at h
        cases hc : match_impl n r s caps outs it mem with
        | none => simp [hc] at h
        | some y =>
          obtain ⟨b, it1, mem1⟩ := y
          have hle := ih1 _ _ _ _ _ _ _ _ _ hc
          cases b <;> simp only [hc] at h
          · simp only [Option.some.injEq, Prod.mk.injEq] at h
            omega
          · exact Nat.le_trans hle (ih3 _ _ _ _ _ _ _ _ _ _ h)

theorem returns_alternative_not_iterator (rules : List Rule) :
    ∀ (rule : Rule) (s : List Int) (it : Nat) (f : Bool) (q : Nat),
      Returns (.alternative_not rule rules) s it f q →
        (f = false ∧ q = it) ∨ (f = true ∧ q = it + 1) := by
  induction rules with
  | nil =>
    intro rule s it f q h
    rcases returns_alternative_not_one.1 h with ⟨h1, h2, -⟩ | ⟨h1, h2, -⟩
    · exact Or.inl ⟨h1, h2⟩
    · exact Or.inr ⟨h1, h2⟩
  | cons r2 rs ih =>
    intro rule s it f q h
    rcases returns_alternative_not_cons.1 h with ⟨h1, h2, -⟩ | ⟨-, h2⟩
    · exact Or.inl ⟨h1, h2⟩
    · exact ih r2 s it f q h2

/-- C20: whatever `match_impl` returns, with any outputs, the iterator it leaves is
not before the starting one; and `alternative_not` leaves the iterator where it
was when it fails and exactly one further when it matches, wherever its probes
went. -/
theorem iterator_never_moves_backwards
    (fuel : Nat) (rule : Rule) (s : List Int) (caps outs : List Nat) (it : Nat)
    (mem : List Sink) (flag : Bool) (q : Nat) (mem1 : List Sink)
    (h : match_impl fuel rule s caps outs it mem = some (flag, q, mem1)) :
    it ≤ q ∧
      ∀ r rs, rule = .alternative_not r rs →
        (flag = false ∧ q = it) ∨ (flag = true ∧ q = it + 1) := by
  refine ⟨(iterator_le_step fuel).1 _ _ _ _ _ _ _ _ _ h, fun r rs hr => ?_⟩
  subst hr
  exact returns_alternative_not_iterator rs r s it flag q
    (returns_of_run fuel ((run_eq_some caps outs mem).2 ⟨mem1, h⟩))

/-- C20, witness: `alternative_not<sequence<a, b>>` on "ac" probes past the `a` and
returns true with the iterator moved from 0 to 1. -/
theorem iterator_never_moves_backwards_witness :
    match_impl 5 (.alternative_not sequence_ab []) (chars "ac") [] [] 0 [] =
        some (true, 1, []) ∧
    (0 ≤ 1 ∧
      ∀ r rs, Rule.alternative_not sequence_ab [] = .alternative_not r rs →
        (true = false ∧ 1 = 0) ∨ (true = true ∧ 1 = 0 + 1)) :=
  ⟨by decide,
    iterator_never_moves_backwards 5 (.alternative_not sequence_ab []) (chars "ac") [] [] 0 []
      true 1 [] (by decide)⟩

/-! ## Sinks that a match leaves alone -/

theorem increment_frame (s : List Int) (it i : Nat) (caps : List Nat) :
    ∀ (mem : List Sink), i ∉ caps → (increment s caps it mem).2[i]? = mem[i]? := by
  induction caps with
  | nil => intro mem _; rfl
  | cons c cs ih =>
    intro mem hi
    have hne : c ≠ i := fun h => hi (by simp [h])
    have hcs : i ∉ cs := fun h => hi (List.mem_cons_of_mem _ h)
    have h1 := ih (List.modify (Sink.push (deref s it)) c mem) hcs
    simp only [increment, List.foldl_cons] at h1 ⊢
    rw [h1, List.getElem?_modify_ne _ _ hne]

theorem value_matcher_frame {is : Int → Bool} {s : List Int} {caps : List Nat} {it : Nat}
    {mem : List Sink} {f : Bool} {q : Nat} {m1 : List Sink} {i : Nat}
    (h : value_matcher is s caps it mem = (f, q, m1)) (hi : i ∉ caps) : m1[i]? = mem[i]? := by
  unfold value_matcher at h
  split at h
  · have h2 := increment_frame s it i caps mem hi
    simp only [Prod.mk.injEq] at h
    rw [h.2] at h2
    exact h2
  · simp only [Prod.mk.injEq] at h
    rw [h.2.2]

/-- A match changes no sink other than those of the enclosing captures and of the
outputs it is given. -/
theorem frame_step (n : Nat) :
    (∀ r s caps outs it mem f q m1 i,
      match_impl n r s caps outs it mem = some (f, q, m1) → i ∉ caps → i ∉ outs →
        m1[i]? = mem[i]?) ∧
    (∀ r s caps outs it mem f q m1 i,
      repeat_optional_loop n r s caps outs it mem = some (f, q, m1) → i ∉ caps → i ∉ outs →
        m1[i]? = mem[i]?) ∧
    (∀ r s caps outs c it mem f q m1 i,
      repeat_loop n r s caps outs c it mem = some (f, q, m1) → i ∉ caps → i ∉ outs →
        m1[i]? = mem[i]?) := by
  induction n with
  | zero => simp [match_impl, repeat_optional_loop, repeat_loop]
  | succ n ih =>
    obtain ⟨ih1, ih2, ih3⟩ := ih
    refine ⟨?_, ?_, ?_⟩
    · intro r s caps outs it mem f q m1 i h hc ho
      cases r with
      | val v =>
        simp only [match_impl, Option.some.injEq] at h
        exact value_matcher_frame h hc
      | val_not v =>
        simp only [match_impl, Option.some.injEq] at h
        exact value_matcher_frame h hc
      | range lo hi =>
        simp only [match_impl, Option.some.injEq] at h
        exact value_matcher_frame h hc
      | null_rule =>
        simp only [match_impl, Option.some.injEq, Prod.mk.injEq] at h
        rw [h.2.2]
      | any =>
        simp only [match_impl, Option.some.injEq] at h
        exact value_matcher_frame h hc
      | alternative r rs =>
        cases rs with
        | nil =>
          simp only [match_impl] at h
          exact ih1 _ _ _ _ _ _ _ _ _ _ h hc ho
        | cons r2 rs =>
          rw [match_impl] at h
          cases hx : match_impl n r s caps outs it mem with
          | none => simp [hx] at h
          | some y =>
            obtain ⟨b, it1, mem1⟩ := y
            have hf := ih1 _ _ _ _ _ _ _ _ _ i hx hc ho
            cases b <;> simp only [hx] at h
            · rw [ih1 _ _ _ _ _ _ _ _ _ i h hc ho, hf]
            · simp only [Option.some.injEq, Prod.mk.injEq] at h
              rw [← h.2.2, hf]
      | alternative_not r rs =>
        cases rs with
        | nil =>
          rw [match_impl] at h
          cases hx : match_impl n r s caps outs it mem with
          | none => simp [hx] at h
          | some y =>
            obtain ⟨b, it1, mem1⟩ := y
            have hf := ih1 _ _ _ _ _ _ _ _ _ i hx hc ho
            cases b <;> simp only [hx, Option.some.injEq, Prod.mk.injEq] at h
            · have h2 := increment_frame s it i caps mem1 hc
              rw [h.2] at h2
              exact h2.trans hf
            · rw [← h.2.2, hf]
        | cons r2 rs =>
          rw [match_impl] at h
          cases hx : match_impl n r s caps outs it mem with
          | none => simp [hx] at h
          | some y =>
            obtain ⟨b, it1, mem1⟩ := y
            have hf := ih1 _ _ _ _ _ _ _ _ _ i hx hc ho
            cases b <;> simp only [hx] at h
            · rw [ih1 _ _ _ _ _ _ _ _ _ i h hc ho, hf]
            · simp only [Option.some.injEq, Prod.mk.injEq] at h
              rw [← h.2.2, hf]
      | repeat_optional r =>
        simp only [match_impl] at h
        exact ih2 _ _ _ _ _ _ _ _ _ _ h hc ho
      | repeat_ r =>
        simp only [match_impl] at h
        exact ih3 _ _ _ _ _ _ _ _ _ _ _ h hc ho
      | optional r =>
        rw [match_impl] at h
        cases hx : match_impl n r s caps outs it mem with
        | none => simp [hx] at h
        | some y =>
          obtain ⟨b, it1, mem1⟩ := y
          have hf := ih1 _ _ _ _ _ _ _ _ _ i hx hc ho
          simp only [hx, Option.some.injEq, Prod.mk.injEq] at h
          rw [← h.2.2, hf]
      | sequence r rs =>
        cases rs with
        | nil =>
          simp only [match_impl] at h
          exact ih1 _ _ _ _ _ _ _ _ _ _ h hc ho
        | cons r2 rs =>
          rw [match_impl] at h
          cases hx : match_impl n r s caps (List.take r.output_count outs) it mem with
          | none => simp [hx] at h
          | some y =>
            obtain ⟨b, it1, mem1⟩ := y
            have hf := ih1 _ _ _ _ _ _ _ _ _ i hx hc
              (fun hm => ho (List.mem_of_mem_take hm))
            cases b <;> simp only [hx] at h
            · simp only [Option.some.injEq, Prod.mk.injEq] at h
              rw [← h.2.2, hf]
            · rw [ih1 _ _ _ _ _ _ _ _ _ i h hc (fun hm => ho (List.mem_of_mem_drop hm)), hf]
      | capture r =>
        cases outs with
        | nil =>
          simp only [match_impl] at h
          exact ih1 _ _ _ _ _ _ _ _ _ _ h hc (by simp)
        | cons o os =>
          simp only [match_impl] at h
          refine ih1 _ _ _ _ _ _ _ _ _ _ h ?_ (fun hm => ho (List.mem_cons_of_mem _ hm))
          intro hm
          rcases List.mem_cons.1 hm with rfl | hm
          · exact ho (List.mem_cons_self _ _)
          · exact hc hm
      | store r v =>
        cases outs with
        | nil =>
          simp only [match_impl] at h
          exact ih1 _ _ _ _ _ _ _ _ _ _ h hc (by simp)
        | cons o os =>
          simp only [match_impl] at h
          have hne : o ≠ i := fun he => ho (by simp [he])
          rw [ih1 _ _ _ _ _ _ _ _ _ i h hc (fun hm => ho (List.mem_cons_of_mem _ hm)),
            List.getElem?_modify_ne _ _ hne]
      | begin r =>
        simp only [match_impl] at h
        exact ih1 _ _ _ _ _ _ _ _ _ _ h hc (by simp)
      | end_ r =>
        rw [match_impl] at h
        cases hx : match_impl n r s caps [] it mem with
        | none => simp [hx] at h
        | some y =>
          obtain ⟨b, it1, mem1⟩ := y
          have hf := ih1 _ _ _ _ _ _ _ _ _ i hx hc (by simp)
          simp only [hx, Option.some.injEq, Prod.mk.injEq] at h
          rw [← h.2.2, hf]
      | begin_end r =>
        rw [match_impl] at h
        cases hx : match_impl n r s caps [] it mem with
        | none => simp [hx] at h
        | some y =>
          obtain ⟨b, it1, mem1⟩ := y
          have hf := ih1 _ _ _ _ _ _ _ _ _ i hx hc (by simp)
          simp only [hx, Option.some.injEq, Prod.mk.injEq] at h
          rw [← h.2.2, hf]
    · intro r s caps outs it mem f q m1 i h hc ho
      rw [repeat_optional_loop] at h
      cases hx : match_impl n r s caps outs it mem with
      | none => simp [hx] at h
      | some y =>
        obtain ⟨b, it1, mem1⟩ := y
        have hf := ih1 _ _ _ _ _ _ _ _ _ i hx hc ho
        cases b <;> simp only [hx] at h
        · simp only [Option.some.injEq, Prod.mk.injEq] at h
          rw [← h.2.2, hf]
        · rw [ih2 _ _ _ _ _ _ _ _ _ i h hc ho, hf]
    · intro r s caps outs c it mem f q m1 i h hc ho
      rw [repeat_loop] at h
      by_cases he : it = s.length
      · simp only [he, ne_eq, not_true_eq_false, if_false, Option.some.injEq,
          Prod.mk.injEq] at h
        rw [h.2.2]
      · simp only [ne_eq, he, not_false_eq_true, if_true] at h
        cases hx : match_impl n r s caps outs it mem with
        | none => simp [hx] at h
        | some y =>
          obtain ⟨b, it1, mem1⟩ := y
          have hf := ih1 _ _ _ _ _ _ _ _ _ i hx hc ho
          cases b <;> simp only [hx] at h
          · simp only [Option.some.injEq, Prod.mk.injEq] at h
            rw [← h.2.2, hf]
          · rw [ih3 _ _ _ _ _ _ _ _ _ _ i h hc ho, hf]

/-! ## Store -/

theorem run_store (n : Nat) (r : Rule) (v : Int) (s : List Int) (it : Nat) :
    run (n + 1) (.store r v) s it = run n r s it := by
  simp [run, match_impl]

theorem run_capture (n : Nat) (r : Rule) (s : List Int) (it : Nat) :
    run (n + 1) (.capture r) s it = run n r s it := by
  simp [run, match_impl]

theorem returns_store {r : Rule} {v : Int} {s : List Int} {it : Nat} {f : Bool} {q : Nat} :
    Returns (.store r v) s it f q ↔ Returns r s it f q := by
  simp only [returns_iff_run]
  constructor
  · rintro ⟨n, h⟩
    cases n with
    | zero => simp [run_zero] at h
    | succ n => exact ⟨n, by rwa [run_store] at h⟩
  · rintro ⟨n, h⟩
    exact ⟨n + 1, by rwa [run_store]⟩

theorem returns_capture {r : Rule} {s : List Int} {it : Nat} {f : Bool} {q : Nat} :
    Returns (.capture r) s it f q ↔ Returns r s it f q := by
  simp only [returns_iff_run]
  constructor
  · rintro ⟨n, h⟩
    cases n with
    | zero => simp [run_zero] at h
    | succ n => exact ⟨n, by rwa [run_capture] at h⟩
  · rintro ⟨n, h⟩
    exact ⟨n + 1, by rwa [run_capture]⟩

/-- C14: `store<Rule, Value>` bound to a variable `out` first writes `Value` into
it and then runs the inner rule on the remaining outputs, from the same
iterator; it returns exactly when the inner rule returns, with the flag and the
iterator of the inner rule; and whatever that flag is, the variable holds
`Value` afterwards (the inner rule is given neither `out` nor a capture on
it). -/
theorem store_writes_value_then_forwards
    (rule : Rule) (value : Int) (s : List Int) (caps outs : List Nat) (out it : Nat)
    (mem : List Sink) (w : Int)
    (hsink : mem[out]? = some (.variable w)) (hcaps : out ∉ caps) (houts : out ∉ outs) :
    (∀ fuel, match_impl (fuel + 1) (.store rule value) s caps (out :: outs) it mem =
      match_impl fuel rule s caps outs it (mem.modify (store_helper value) out)) ∧
    (mem.modify (store_helper value) out)[out]? = some (.variable value) ∧
    (∀ flag q, Returns (.store rule value) s it flag q ↔ Returns rule s it flag q) ∧
    (∀ fuel flag q mem1,
      match_impl fuel (.store rule value) s caps (out :: outs) it mem = some (flag, q, mem1) →
        mem1[out]? = some (.variable value)) := by
  have hw : (mem.modify (store_helper value) out)[out]? = some (.variable value) := by
    rw [List.getElem?_modify_eq, hsink]
    rfl
  refine ⟨fun fuel => by simp [match_impl], hw, fun flag q => returns_store, ?_⟩
  intro fuel flag q mem1 h
  cases fuel with
  | zero => simp [match_impl] at h
  | succ n =>
    simp only [match_impl] at h
    rw [(frame_step n).1 _ _ _ _ _ _ _ _ _ out h hcaps houts]
    exact hw

/-- C14, witness: `store<null_rule, 5>` on a variable that holds 0; and the rule of
`TEST(rules, store)` on "[abcdef]" matches and leaves 5 in the variable. -/
theorem store_writes_value_then_forwards_witness :
    ([Sink.variable 0][0]? = some (.variable 0) ∧ 0 ∉ ([] : List Nat)) ∧
    (∀ fuel flag q mem1,
      match_impl fuel (.store .null_rule 5) (chars "x") [] [0] 0 [.variable 0] =
          some (flag, q, mem1) →
        mem1[0]? = some (.variable 5)) ∧
    match_impl 2 (.store .null_rule 5) (chars "x") [] [0] 0 [.variable 0] =
      some (true, 0, [.variable 5]) ∧
    match_impl 12 store_test_rule (chars "[abcdef]") [] [0] 0 [.variable 0] =
      some (true, 8, [.variable 5]) :=
  ⟨⟨rfl, by simp⟩,
    (store_writes_value_then_forwards .null_rule 5 (chars "x") [] [] 0 0 [.variable 0] 0 rfl
      (by simp) (by simp)).2.2.2,
    by decide, by decide⟩

/-! ## Alternative stops at the first child that matches -/

theorem run_until_success_mono {n m : Nat} (h : n ≤ m) {s : List Int} {caps outs : List Nat}
    (rules : List Rule) :
    ∀ (rule : Rule) (it : Nat) (mem : List Sink) (res : Bool × Nat × List Sink),
      run_until_success n s caps outs rule rules it mem = some res →
        run_until_success m s caps outs rule rules it mem = some res := by
  induction rules with
  | nil =>
    intro rule it mem res hr
    simp only [run_until_success] at hr ⊢
    exact match_impl_mono h hr
  | cons r2 rs ih =>
    intro rule it mem res hr
    rw [run_until_success] at hr ⊢
    cases hc : match_impl n rule s caps outs it mem with
    | none => simp [hc] at hr
    | some y =>
      obtain ⟨b, it1, mem1⟩ := y
      rw [match_impl_mono h hc]
      cases b <;> simp only [hc] at hr ⊢
      · exact ih r2 it1 mem1 res hr
      · exact hr

theorem alternative_iff_run_until_success {s : List Int} {caps outs : List Nat}
    (rules : List Rule) :
    ∀ (rule : Rule) (it : Nat) (mem : List Sink) (res : Bool × Nat × List Sink),
      (∃ fuel, match_impl fuel (.alternative rule rules) s caps outs it mem = some res) ↔
        ∃ fuel, run_until_success fuel s caps outs rule rules it mem = some res := by
  induction rules with
  | nil =>
    intro rule it mem res
    constructor
    · rintro ⟨n, h⟩
      cases n with
      | zero => simp [match_impl] at h
      | succ n =>
        simp only [match_impl] at h
        exact ⟨n, by simpa [run_until_success] using h⟩
    · rintro ⟨n, h⟩
      simp only [run_until_success] at h
      exact ⟨n + 1, by simpa [match_impl] using h⟩
  | cons r2 rs ih =>
    intro rule it mem res
    constructor
    · rintro ⟨n, h⟩
      cases n with
      | zero => simp [match_impl] at h
      | succ n =>
        rw [match_impl] at h
        cases hc : match_impl n rule s caps outs it mem with
        | none => simp [hc] at h
        | some y =>
          obtain ⟨b, it1, mem1⟩ := y
          cases b <;> simp only [hc] at h
          · obtain ⟨k, hk⟩ := (ih r2 it1 mem1 res).1 ⟨n, h⟩
            refine ⟨max n k, ?_⟩
            rw [run_until_success, match_impl_mono (Nat.le_max_left n k) hc]
            exact run_until_success_mono (Nat.le_max_right n k) rs r2 it1 mem1 res hk
          · refine ⟨n, ?_⟩
            rw [run_until_success, hc]
            exact h
    · rintro ⟨n, h⟩
      rw [run_until_success] at h
      cases hc : match_impl n rule s caps outs it mem with
      | none => simp [hc] at h
      | some y =>
        obtain ⟨b, it1, mem1⟩ := y
        cases b <;> simp only [hc] at h
        · obtain ⟨k, hk⟩ := (ih r2 it1 mem1 res).2 ⟨n, h⟩
          refine ⟨max n k + 1, ?_⟩
          rw [match_impl, match_impl_mono (Nat.le_max_left n k) hc]
          exact match_impl_mono (Nat.le_max_right n k) hk
        · refine ⟨n + 1, ?_⟩
          rw [match_impl, hc]
          exact h

/-- C15: the result of an `alternative` (flag, iterator and sinks) is the result of
running its children in order up to and including the first one that returns
true, and of nothing after it.  On "a" the rule
`alternative<store<val<'a'>, 1>, store<val<'b'>, 2>>` leaves 1 in the variable;
and an `alternative` whose first child matches returns even when its second
child would never return. -/
theorem alternative_stops_at_first_success :
    (∀ (rule : Rule) (rules : List Rule) (s : List Int) (caps outs : List Nat) (it : Nat)
        (mem : List Sink) (res : Bool × Nat × List Sink),
      (∃ fuel, match_impl fuel (.alternative rule rules) s caps outs it mem = some res) ↔
        ∃ fuel, run_until_success fuel s caps outs rule rules it mem = some res) ∧
    match_impl 3 alternative_of_stores (chars "a") [] [0] 0 [.variable 0] =
      some (true, 1, [.variable 1]) ∧
    match_impl 3 (.alternative (.val (ch 'a')) [repeat_optional_of_optional_a]) (chars "a")
      [] [] 0 [] = some (true, 1, []) :=
  ⟨fun rule rules s caps outs it mem res =>
      alternative_iff_run_until_success rules rule it mem res,
    by decide, by decide⟩

/-! ## Sequence hands each child its slice of the outputs -/

theorem output_counter_eq_sum (rules : List Rule) :
    output_counter rules = (rules.map Rule.output_count).sum := by
  induction rules with
  | nil => simp [output_counter]
  | cons r rs ih => simp [output_counter, ih]

theorem sequence_output_count (rule : Rule) (rules : List Rule) :
    (Rule.sequence rule rules).output_count = ((rule :: rules).map Rule.output_count).sum := by
  simp [Rule.output_count, output_counter_eq_sum]

theorem run_sliced_mono {n m : Nat} (h : n ≤ m) {s : List Int} {caps outs : List Nat}
    (rules : List Rule) :
    ∀ (offset it : Nat) (mem : List Sink) (res : Bool × Nat × List Sink),
      run_sliced n s caps outs offset rules it mem = some res →
        run_sliced m s caps outs offset rules it mem = some res := by
  induction rules with
  | nil =>
    intro offset it mem res hr
    simpa [run_sliced] using hr
  | cons r rs ih =>
    intro offset it mem res hr
    rw [run_sliced] at hr ⊢
    cases hc : match_impl n r s caps ((outs.drop offset).take r.output_count) it mem with
    | none => simp [hc] at hr
    | some y =>
      obtain ⟨b, it1, mem1⟩ := y
      rw [match_impl_mono h hc]
      cases b <;> simp only [hc] at hr ⊢
      · exact hr
      · exact ih _ it1 mem1 res hr

theorem sequence_iff_run_sliced {s : List Int} {caps outs : List Nat} (rules : List Rule) :
    ∀ (rule : Rule) (offset it : Nat) (mem : List Sink) (res : Bool × Nat × List Sink),
      outs.length = offset + (Rule.sequence rule rules).output_count →
      ((∃ fuel, match_impl fuel (.sequence rule rules) s caps (outs.drop offset) it mem =
          some res) ↔
        ∃ fuel, run_sliced fuel s caps outs offset (rule :: rules) it mem = some res) := by
  induction rules with
  | nil =>
    intro rule offset it mem res hlen
    have htake : (outs.drop offset).take rule.output_count = outs.drop offset := by
      apply List.take_of_length_le
      simp only [Rule.output_count, output_counter, Nat.add_zero] at hlen
      rw [List.length_drop]
      omega
    constructor
    · rintro ⟨n, h⟩
      cases n with
      | zero => simp [match_impl] at h
      | succ n =>
        simp only [match_impl] at h
        refine ⟨n, ?_⟩
        rw [run_sliced, htake, h]
        obtain ⟨b, q, m⟩ := res
        cases b <;> simp [run_sliced]
    · rintro ⟨n, h⟩
      rw [run_sliced, htake] at h
      cases hc : match_impl n rule s caps (outs.drop offset) it mem with
      | none => simp [hc] at h
      | some y =>
        obtain ⟨b, q, m⟩ := y
        refine ⟨n + 1, ?_⟩
        simp only [match_impl]
        cases b <;> simp only [hc, run_sliced] at h <;> rw [hc, ← h]
  | cons r2 rs ih =>
    intro rule offset it mem res hlen
    have hlen2 : outs.length = (offset + rule.output_count) + (Rule.sequence r2 rs).output_count := by
      simp only [Rule.output_count, output_counter] at hlen ⊢
      omega
    have hdrop : (outs.drop offset).drop rule.output_count =
        outs.drop (offset + rule.output_count) := by
      rw [List.drop_drop, Nat.add_comm]
    constructor
    · rintro ⟨n, h⟩
      cases n with
      | zero => simp [match_impl] at h
      | succ n =>
        rw [match_impl] at h
        cases hc : match_impl n rule s caps ((outs.drop offset).take rule.output_count) it mem with
        | none => simp [hc] at h
        | some y =>
          obtain ⟨b, it1, mem1⟩ := y
          cases b <;> simp only [hc] at h
          · refine ⟨n, ?_⟩
            rw [run_sliced, hc]
            exact h
          · rw [hdrop] at h
            obtain ⟨k, hk⟩ := (ih r2 _ it1 mem1 res hlen2).1 ⟨n, h⟩
            refine ⟨max n k, ?_⟩
            rw [run_sliced, match_impl_mono (Nat.le_max_left n k) hc]
            exact run_sliced_mono (Nat.le_max_right n k) _ _ it1 mem1 res hk
    · rintro ⟨n, h⟩
      rw [run_sliced] at h
      cases hc : match_impl n rule s caps ((outs.drop offset).take rule.output_count) it mem with
      | none => simp [hc] at h
      | some y =>
        obtain ⟨b, it1, mem1⟩ := y
        cases b <;> simp only [hc] at h
        · refine ⟨n + 1, ?_⟩
          rw [match_impl, hc]
          exact h
        · obtain ⟨k, hk⟩ := (ih r2 _ it1 mem1 res hlen2).2 ⟨n, h⟩
          refine ⟨max n k + 1, ?_⟩
          rw [match_impl, match_impl_mono (Nat.le_max_left n k) hc]
          simp only
          rw [hdrop]
          exact match_impl_mono (Nat.le_max_right n k) hk

/-- C18: the `output_count` of a `sequence` is the sum of the `output_count` of its
children, and a `sequence` matched with that many outputs gives the same result
(flag, iterator and sinks) as running its children in order, the child `i` on
the slice of the outputs that starts at the sum of the `output_count` of the
children before it and has the length of its own `output_count`. -/
theorem sequence_partitions_outputs
    (rule : Rule) (rules : List Rule) (s : List Int) (caps outs : List Nat) (it : Nat)
    (mem : List Sink) (res : Bool × Nat × List Sink)
    (hlen : outs.length = (Rule.sequence rule rules).output_count) :
    (Rule.sequence rule rules).output_count = ((rule :: rules).map Rule.output_count).sum ∧
    ((∃ fuel, match_impl fuel (.sequence rule rules) s caps outs it mem = some res) ↔
      ∃ fuel, run_sliced fuel s caps outs 0 (rule :: rules) it mem = some res) := by
  refine ⟨sequence_output_count rule rules, ?_⟩
  have h := @sequence_iff_run_sliced s caps outs rules rule 0 it mem res (by omega)
  rwa [List.drop_zero] at h

/-- C18, witness: `sequence<capture<val<'a'>>, val<'-'>, capture<val<'b'>>>` with two
containers on "a-b": the first capture writes the first container, the value
rule takes no output, the second capture writes the second container. -/
theorem sequence_partitions_outputs_witness :
    [0, 1].length = sequence_of_captures.output_count ∧
    match_impl 5 sequence_of_captures (chars "a-b") [] [0, 1] 0 [.container [], .container []] =
      some (true, 3, [.container [ch 'a'], .container [ch 'b']]) ∧
    ∃ fuel, run_sliced fuel (chars "a-b") [] [0, 1] 0
      [.capture (.val (ch 'a')), .val (ch '-'), .capture (.val (ch 'b'))] 0
      [.container [], .container []] =
        some (true, 3, [.container [ch 'a'], .container [ch 'b']]) :=
  ⟨by decide, by decide,
    (sequence_partitions_outputs (.capture (.val (ch 'a')))
      [.val (ch '-'), .capture (.val (ch 'b'))] (chars "a-b") [] [0, 1] 0
      [.container [], .container []] (true, 3, [.container [ch 'a'], .container [ch 'b']])
      (by decide)).2.1 ⟨5, by decide⟩⟩

/-! ## Repetition of a value rule -/

theorem match_impl_val_true {a : Int} {s : List Int} {k : Nat} (h : deref s k = a) (n : Nat)
    (outs : List Nat) (mem : List Sink) :
    match_impl (n + 1) (.val a) s [] outs k mem = some (true, k + 1, mem) := by
  simp [match_impl, value_matcher, val_is, h, increment]

theorem match_impl_val_false {a : Int} {s : List Int} {k : Nat} (h : deref s k ≠ a) (n : Nat)
    (outs : List Nat) (mem : List Sink) :
    match_impl (n + 1) (.val a) s [] outs k mem = some (false, k, mem) := by
  simp [match_impl, value_matcher, val_is, h]

/-- The loop of `repeat` over `n` copies of a value counts them modulo `2 ^ 32`. -/
theorem repeat_loop_of_values {a : Int} {s : List Int} {n : Nat}
    (hrun : ∀ k < n, deref s k = a) (hn : n ≤ s.length)
    (hstop : s.length = n ∨ deref s n ≠ a) (outs : List Nat) (mem : List Sink) (m : Nat) :
    ∀ (k c fuel : Nat), k + m = n → c < 2 ^ 32 → m + 2 ≤ fuel →
      repeat_loop fuel (.val a) s [] outs c k mem =
        some (decide ((c + m) % 2 ^ 32 ≠ 0), n, mem) := by
  induction m with
  | zero =>
    intro k c fuel hk hc hf
    have hkn : k = n := by omega
    subst hkn
    obtain ⟨f, rfl⟩ : ∃ f, fuel = f + 2 := ⟨fuel - 2, by omega⟩
    have e0 : (c + 0) % 2 ^ 32 = c := by rw [Nat.add_zero, Nat.mod_eq_of_lt hc]
    rw [repeat_loop, e0]
    by_cases he : k = s.length
    · simp [he]
    · have hne : deref s k ≠ a := by
        rcases hstop with h | h
        · exact absurd h.symm he
        · exact h
      simp [he, match_impl_val_false hne]
  | succ m ih =>
    intro k c fuel hk hc hf
    obtain ⟨f, rfl⟩ : ∃ f, fuel = f + 2 := ⟨fuel - 2, by omega⟩
    have hlt : k < n := by omega
    have he : k ≠ s.length := by omega
    rw [repeat_loop]
    simp only [ne_eq, he, not_false_eq_true, if_true, match_impl_val_true (hrun k hlt)]
    rw [ih (k + 1) ((c + 1) % 2 ^ 32) (f + 1) (by omega) (Nat.mod_lt _ (by decide)) (by omega)]
    have e : ((c + 1) % 2 ^ 32 + m) % 2 ^ 32 = (c + (m + 1)) % 2 ^ 32 := by
      rw [Nat.mod_add_mod]
      congr 1
      omega
    rw [e]

theorem repeat_optional_loop_of_values {a : Int} {s : List Int} {n : Nat}
    (hrun : ∀ k < n, deref s k = a) (hstop : deref s n ≠ a) (outs : List Nat)
    (mem : List Sink) (m : Nat) :
    ∀ (k fuel : Nat), k + m = n → m + 2 ≤ fuel →
      repeat_optional_loop fuel (.val a) s [] outs k mem = some (true, n, mem) := by
  induction m with
  | zero =>
    intro k fuel hk hf
    have hkn : k = n := by omega
    subst hkn
    obtain ⟨f, rfl⟩ : ∃ f, fuel = f + 2 := ⟨fuel - 2, by omega⟩
    rw [repeat_optional_loop]
    simp [match_impl_val_false hstop]
  | succ m ih =>
    intro k fuel hk hf
    obtain ⟨f, rfl⟩ : ∃ f, fuel = f + 2 := ⟨fuel - 2, by omega⟩
    have hlt : k < n := by omega
    rw [repeat_optional_loop]
    simp only [match_impl_val_true (hrun k hlt)]
    exact ih (k + 1) (f + 1) (by omega) (by omega)

theorem deref_replicate_append_lt {a : Int} {n k : Nat} (rest : List Int) (h : k < n) :
    deref (List.replicate n a ++ rest) k = a := by
  have hl : k < (List.replicate n a ++ rest).length := by simp; omega
  rw [deref_of_lt hl, List.getElem_append_left (by simpa using h)]
  simp

theorem deref_replicate_append_cons (a b : Int) (n : Nat) (t : List Int) :
    deref (List.replicate n a ++ b :: t) n = b := by
  have hl : n < (List.replicate n a ++ b :: t).length := by simp
  rw [deref_of_lt hl, List.getElem_append_right (by simp)]
  simp

theorem returns_repeat_of_values (a : Int) (n : Nat) (rest : List Int)
    (hrest : rest = [] ∨ ∃ b t, rest = b :: t ∧ b ≠ a) :
    Returns (.repeat_ (.val a)) (List.replicate n a ++ rest) 0
      (decide (n % 2 ^ 32 ≠ 0)) n := by
  have hstop : (List.replicate n a ++ rest).length = n ∨
      deref (List.replicate n a ++ rest) n ≠ a := by
    rcases hrest with rfl | ⟨b, t, rfl, hb⟩
    · exact Or.inl (by simp)
    · exact Or.inr (by rw [deref_replicate_append_cons]; exact hb)
  have h := repeat_loop_of_values (fun k hk => deref_replicate_append_lt rest hk)
    (by simp) hstop [] [] n 0 0 (n + 2) (by omega) (by decide) (by omega)
  rw [Nat.zero_add] at h
  refine returns_of_run (n + 3) ((run_eq_some [] [] []).2 ⟨[], ?_⟩)
  rw [match_impl]
  exact h

theorem returns_repeat_optional_of_values (a : Int) (n : Nat) (rest : List Int)
    (hrest : (rest = [] ∧ a ≠ 0) ∨ ∃ b t, rest = b :: t ∧ b ≠ a) :
    Returns (.repeat_optional (.val a)) (List.replicate n a ++ rest) 0 true n := by
  have hstop : deref (List.replicate n a ++ rest) n ≠ a := by
    rcases hrest with ⟨rfl, ha⟩ | ⟨b, t, rfl, hb⟩
    · rw [deref_of_le (by simp)]
      exact fun h => ha h.symm
    · rw [deref_replicate_append_cons]
      exact hb
  have h := repeat_optional_loop_of_values (fun k hk => deref_replicate_append_lt rest hk)
    hstop [] [] n 0 (n + 2) (by omega) (by omega)
  refine returns_of_run (n + 3) ((run_eq_some [] [] []).2 ⟨[], ?_⟩)
  rw [match_impl]
  exact h

/-- C11: over `n` copies of `a` followed by nothing or by another value, `repeat<val<a>>`
leaves the iterator at `n` and returns whether `n` is not a multiple of `2 ^ 32`
(its counter is an `unsigned int`), so it returns false on `2 ^ 32` copies of
`a`; `repeat_optional<val<a>>` leaves the iterator at `n` and returns true when
the copies are followed by another value or `a` is not the terminator `0`; on
the empty input `val<0>`, which `repeat_optional<val<0>>` runs first, returns
true and moves the iterator to 1. -/
theorem repeat_counts_modulo_and_repeat_optional_reads_end :
    (∀ (a : Int) (n : Nat) (rest : List Int), (rest = [] ∨ ∃ b t, rest = b :: t ∧ b ≠ a) →
      Returns (.repeat_ (.val a)) (List.replicate n a ++ rest) 0
        (decide (n % 2 ^ 32 ≠ 0)) n) ∧
    (∀ (a : Int) (n : Nat) (rest : List Int),
      ((rest = [] ∧ a ≠ 0) ∨ ∃ b t, rest = b :: t ∧ b ≠ a) →
      Returns (.repeat_optional (.val a)) (List.replicate n a ++ rest) 0 true n) ∧
    Returns (.repeat_ (.val (ch 'a'))) (List.replicate (2 ^ 32) (ch 'a')) 0 false (2 ^ 32) ∧
    Returns (.val 0) [] 0 true 1 := by
  refine ⟨returns_repeat_of_values, returns_repeat_optional_of_values, ?_, ?_⟩
  · have h := returns_repeat_of_values (ch 'a') (2 ^ 32) [] (Or.inl rfl)
    rw [List.append_nil] at h
    have e : decide (2 ^ 32 % 2 ^ 32 ≠ 0) = false := by decide
    rw [e] at h
    exact h
  · have h := returns_val 0 [] 0
    have hd : deref [] 0 = 0 := rfl
    rw [hd] at h
    simpa using h

theorem repeat_optional_loop_of_null_rule (n : Nat) :
    ∀ (s : List Int) (caps outs : List Nat) (it : Nat) (mem : List Sink),
      repeat_optional_loop n .null_rule s caps outs it mem = none := by
  induction n with
  | zero => intro s caps outs it mem; simp [repeat_optional_loop]
  | succ n ih =>
    intro s caps outs it mem
    rw [repeat_optional_loop]
    cases n with
    | zero => simp [match_impl]
    | succ k =>
      simp only [match_impl]
      exact ih _ _ _ _ _

/-- C12: on the empty input, with a variable that holds 0, `repeat<store<val<'a'>, 5>>`
does not run its child and leaves the variable at 0, whereas
`repeat_optional<store<val<'a'>, 5>>` runs the child once and leaves 5 in it;
and `repeat<null_rule>` returns false there, whereas `repeat_optional<null_rule>`
never returns. -/
theorem repeat_optional_runs_child_at_end_and_repeat_does_not :
    match_impl 4 (.repeat_ store_val_a) [] [] [0] 0 [.variable 0] =
      some (false, 0, [.variable 0]) ∧
    match_impl 4 (.repeat_optional store_val_a) [] [] [0] 0 [.variable 0] =
      some (true, 0, [.variable 5]) ∧
    match_impl 2 (.repeat_ .null_rule) [] [] [] 0 [] = some (false, 0, []) ∧
    (∀ (fuel : Nat) (s : List Int) (caps outs : List Nat) (it : Nat) (mem : List Sink),
      match_impl fuel (.repeat_optional .null_rule) s caps outs it mem = none) := by
  refine ⟨by decide, by decide, by decide, fun fuel s caps outs it mem => ?_⟩
  cases fuel with
  | zero => simp [match_impl]
  | succ n =>
    rw [match_impl]
    exact repeat_optional_loop_of_null_rule n s caps outs it mem

/-- C13: on "[abcdef]" the rule of the capture test fills its container with
"abcdef", the text between the brackets; the rule `rule2` of the disabled test,
whose capture holds `repeat<alternative_not<val<']'>>>`, consumes the same text
and returns true, yet its container receives "abcdef]": the probe of
`alternative_not` that matches the closing bracket runs on a copy of the
capturing iterator, whose increment writes to the same container. -/
theorem capture_also_records_probes_of_alternative_not :
    match_impl 20 capture_test_rule (chars "[abcdef]") [] [0] 0 [.container []] =
      some (true, 8, [.container (chars "abcdef")]) ∧
    match_impl 20 capture_test_rule2 (chars "[abcdef]") [] [0] 0 [.container []] =
      some (true, 8, [.container (chars "abcdef]")]) ∧
    match_impl 5 (.capture (.alternative_not sequence_ab [])) (chars "ac") [] [0] 0
      [.container []] = some (true, 1, [.container (chars "aa")]) := by
  refine ⟨by decide, by decide, by decide⟩

/-- C19: on the empty input `alternative_not<val<'a'>>` returns true and leaves the
iterator at 1, past the end 0; and on "a" the rule `sequence<any, any>` returns
true and leaves the iterator at 2, past the end 1. -/
theorem iterator_can_pass_the_end :
    match_ref 2 (.alternative_not (.val (ch 'a')) []) [] [] 0 [] = some (true, 1, []) ∧
    match_ref 3 (.sequence .any [.any]) (chars "a") [] 0 [] = some (true, 2, []) ∧
    (chars "a").length = 1 := by
  refine ⟨by decide, by decide, by decide⟩

/-! ## Matching of compiled patterns: tools -/

theorem regex_match_of_returns {rule : Rule} {s : List Int} {f : Bool} {q : Nat}
    (h : Returns rule s 0 f q) : ∃ fuel, regex_match fuel rule s = some f := by
  obtain ⟨fuel, mem1, h1⟩ := h [] [] []
  exact ⟨fuel, by simp [regex_match, h1]⟩

theorem run_repeat_optional (n : Nat) (r : Rule) (s : List Int) (it : Nat) :
    run (n + 2) (.repeat_optional r) s it =
      match run n r s it with
      | none => none
      | some (true, q) => run (n + 1) (.repeat_optional r) s q
      | some (false, q) => some (true, q) := by
  rw [run, match_impl, repeat_optional_loop]
  cases h : match_impl n r s [] [] it [] with
  | none => simp [(run_eq_none _ _ _).2 h]
  | some x =>
    obtain ⟨f, q, m⟩ := x
    rw [(run_eq_some _ _ _).2 ⟨m, h⟩]
    cases f
    · simp [proj]
    · simp only []
      rw [run, match_impl]
      exact (sinks_irrelevant n).2.1 r s q [] [] m [] [] []

theorem returns_repeat_optional_stop {r : Rule} {s : List Int} {it q : Nat}
    (h : Returns r s it false q) : Returns (.repeat_optional r) s it true q := by
  obtain ⟨n, h⟩ := returns_iff_run.1 h
  exact returns_of_run (n + 2) (by rw [run_repeat_optional, h])

theorem returns_repeat_optional_step {r : Rule} {s : List Int} {it m : Nat} {f : Bool} {q : Nat}
    (h1 : Returns r s it true m) (h2 : Returns (.repeat_optional r) s m f q) :
    Returns (.repeat_optional r) s it f q := by
  obtain ⟨n1, h1⟩ := returns_iff_run.1 h1
  obtain ⟨n2, h2⟩ := returns_iff_run.1 h2
  refine returns_of_run (max n1 n2 + 2) ?_
  rw [run_repeat_optional, run_mono (Nat.le_max_left n1 n2) h1]
  exact run_mono (Nat.le_trans (Nat.le_max_right n1 n2) (Nat.le_succ _)) h2

theorem isClass_true {r : Rule} {is : Int → Bool} (hc : IsClass r is) {s : List Int} {it m : Nat} :
    Returns r s it true m ↔ is (deref s it) = true ∧ m = it + 1 := by
  have h := hc s it
  constructor
  · intro h1
    obtain ⟨e1, e2⟩ := returns_det h h1
    rw [e1] at e2
    simp only [if_true] at e2
    exact ⟨e1, e2.symm⟩
  · rintro ⟨e1, rfl⟩
    rw [e1] at h
    simpa using h

theorem isClass_false {r : Rule} {is : Int → Bool} (hc : IsClass r is) {s : List Int}
    {it m : Nat} : Returns r s it false m ↔ is (deref s it) = false ∧ m = it := by
  have h := hc s it
  constructor
  · intro h1
    obtain ⟨e1, e2⟩ := returns_det h h1
    rw [e1] at e2
    simp only [Bool.false_eq_true, if_false] at e2
    exact ⟨e1, e2.symm⟩
  · rintro ⟨e1, rfl⟩
    rw [e1] at h
    simpa using h

theorem isClass_val (v : Int) : IsClass (.val v) (val_is v) := by
  intro s it
  refine returns_of_run 1 ?_
  rw [run_val]
  by_cases h : deref s it = v <;> simp [val_is, h]

theorem isClass_range (lo hi : Int) : IsClass (.range lo hi) (range_is lo hi) := by
  intro s it
  refine returns_of_run 1 ?_
  rw [run_range]
  by_cases h : lo ≤ deref s it ∧ deref s it ≤ hi
  · simp [range_is, h]
  · have h2 : range_is lo hi (deref s it) = false := by
      simp only [range_is, ge_iff_le, Bool.and_eq_false_imp, decide_eq_true_eq,
        decide_eq_false_iff_not]
      exact fun h1 h3 => h ⟨h1, h3⟩
    simp [h, h2]

theorem isClass_alternative_one {r : Rule} {is : Int → Bool} (hc : IsClass r is) :
    IsClass (.alternative r []) is := by
  intro s it
  exact returns_alternative_one.2 (hc s it)

theorem isClass_alternative_cons {r r2 : Rule} {rs : List Rule} {is is2 : Int → Bool}
    (hc : IsClass r is) (hc2 : IsClass (.alternative r2 rs) is2) :
    IsClass (.alternative r (r2 :: rs)) (fun x => is x || is2 x) := by
  intro s it
  rw [returns_alternative_cons]
  by_cases h : is (deref s it) = true
  · refine Or.inl ⟨by simp [h], ?_⟩
    simp only [h, Bool.true_or, if_true]
    exact (isClass_true hc).2 ⟨h, rfl⟩
  · have hf : is (deref s it) = false := by simpa using h
    refine Or.inr ⟨it, (isClass_false hc).2 ⟨hf, rfl⟩, ?_⟩
    simp only [hf, Bool.false_or]
    exact hc2 s it

/-- Scan of `repeat_optional` over a rule that tests one value: from the position
after `pre` it takes the values of `cs` that pass the test, and it reaches the
end of the input exactly when all of them do (the terminator does not pass). -/
theorem repeat_optional_scan {r : Rule} {is : Int → Bool} (hc : IsClass r is)
    (h0 : is 0 = false) (cs : List Int) :
    ∀ (pre : List Int), ∃ q,
      Returns (.repeat_optional r) (pre ++ cs) pre.length true q ∧
        (q = (pre ++ cs).length ↔ cs.all is = true) := by
  induction cs with
  | nil =>
    intro pre
    refine ⟨pre.length, returns_repeat_optional_stop ((isClass_false hc).2 ⟨?_, rfl⟩), by simp⟩
    rw [deref_of_le (by simp)]
    exact h0
  | cons c cs ih =>
    intro pre
    have hd : deref (pre ++ c :: cs) pre.length = c := by
      rw [deref_of_lt (by simp)]
      exact List.getElem_of_append rfl rfl
    by_cases hcl : is c = true
    · obtain ⟨q, hq, hiff⟩ := ih (pre ++ [c])
      have e : pre ++ [c] ++ cs = pre ++ c :: cs := by simp
      rw [e] at hq hiff
      have el : (pre ++ [c]).length = pre.length + 1 := by simp
      rw [el] at hq
      refine ⟨q, returns_repeat_optional_step ((isClass_true hc).2 ⟨by rw [hd]; exact hcl, rfl⟩)
        hq, ?_⟩
      rw [hiff]
      simp [hcl]
    · have hf : is c = false := by simpa using hcl
      refine ⟨pre.length,
        returns_repeat_optional_stop ((isClass_false hc).2 ⟨by rw [hd]; exact hf, rfl⟩), ?_⟩
      simp [hf]

/-! ## The parser does not depend on the recursion budget -/

theorem stable_bind {α β : Type} {x x' : Except CompileError α}
    {g g' : α → Except CompileError β}
    (hx : x ≠ .error .depth_exceeded → x' = x)
    (hg : ∀ a, x = .ok a → g a ≠ .error .depth_exceeded → g' a = g a) :
    (x >>= g) ≠ .error .depth_exceeded → (x' >>= g') = (x >>= g) := by
  intro h
  cases x with
  | error e =>
    have he : (Except.error e : Except CompileError α) ≠ .error .depth_exceeded := by
      intro hc
      apply h
      cases hc
      rfl
    rw [hx he]
    rfl
  | ok a =>
    rw [hx (by simp)]
    exact hg a rfl h

theorem set_items_mono (n : Nat) : ∀ (str : List Int) (e : Bool),
    regex_parser_set_items n str e ≠ .error .depth_exceeded →
      regex_parser_set_items (n + 1) str e = regex_parser_set_items n str e := by
  induction n with
  | zero => intro str e h; exact absurd rfl h
  | succ n ih =>
    intro str e
    rw [regex_parser_set_items, regex_parser_set_items]
    cases e with
    | true => intro _; rfl
    | false =>
      simp only [Bool.false_eq_true, if_false]
      refine stable_bind (fun _ => rfl) (fun item _ => ?_)
      exact stable_bind (ih _ _) (fun next _ _ => rfl)

theorem stable_ite {α : Type} {c : Prop} [Decidable c] {x x' y y' : Except CompileError α}
    (hx : x ≠ .error .depth_exceeded → x' = x) (hy : y ≠ .error .depth_exceeded → y' = y) :
    (if c then x else y) ≠ .error .depth_exceeded →
      (if c then x' else y') = (if c then x else y) := by
  by_cases h : c
  · simpa only [h, if_true] using hx
  · simpa only [h, if_false] using hy

theorem set_mono (n : Nat) (str : List Int)
    (h : regex_parser_set n str ≠ .error .depth_exceeded) :
    regex_parser_set (n + 1) str = regex_parser_set n str := by
  revert h
  unfold regex_parser_set
  dsimp only []
  refine stable_ite (stable_bind (fun _ => rfl) (fun a ha => ?_))
    (stable_bind (fun _ => rfl) (fun _ _ => ?_))
  · cases ha
  · refine stable_bind (fun _ => rfl) (fun open_ _ => ?_)
    refine stable_bind (fun _ => rfl) (fun neg _ => ?_)
    exact stable_bind (set_items_mono n _ _) (fun items _ _ => rfl)

theorem parser_mono (n : Nat) :
    (∀ str, regex_parser_group n str ≠ .error .depth_exceeded →
      regex_parser_group (n + 1) str = regex_parser_group n str) ∧
    (∀ str, regex_parser_elementary_re n str ≠ .error .depth_exceeded →
      regex_parser_elementary_re (n + 1) str = regex_parser_elementary_re n str) ∧
    (∀ str, regex_parser_basic_re n str ≠ .error .depth_exceeded →
      regex_parser_basic_re (n + 1) str = regex_parser_basic_re n str) ∧
    (∀ str e, regex_parser_simple_re n str e ≠ .error .depth_exceeded →
      regex_parser_simple_re (n + 1) str e = regex_parser_simple_re n str e) ∧
    (∀ str e, regex_parser_inner_re n str e ≠ .error .depth_exceeded →
      regex_parser_inner_re (n + 1) str e = regex_parser_inner_re n str e) := by
  induction n with
  | zero =>
    refine ⟨?_, ?_, ?_, ?_, ?_⟩
    · intro str h; exact absurd (by rw [regex_parser_group]) h
    · intro str h; exact absurd (by rw [regex_parser_elementary_re]) h
    · intro str h; exact absurd (by rw [regex_parser_basic_re]) h
    · intro str e h; exact absurd (by rw [regex_parser_simple_re]) h
    · intro str e h; exact absurd (by rw [regex_parser_inner_re]) h
  | succ n ih =>
    obtain ⟨ihg, ihe, ihb, ihs, ihi⟩ := ih
    refine ⟨?_, ?_, ?_, ?_, ?_⟩
    · intro str
      rw [regex_parser_group, regex_parser_group]
      dsimp only []
      refine stable_bind (fun _ => rfl) (fun open_ _ => ?_)
      exact stable_bind (ihi _ _) (fun inner _ _ => rfl)
    · intro str
      rw [regex_parser_elementary_re, regex_parser_elementary_re]
      refine stable_bind (fun _ => rfl) (fun is_any _ => ?_)
      refine stable_bind (fun _ => rfl) (fun is_group _ => ?_)
      refine stable_bind (fun _ => rfl) (fun is_set _ => ?_)
      dsimp only []
      exact stable_ite (stable_bind (ihg _) (fun _ _ _ => rfl))
        (stable_ite (stable_bind (set_mono _ _) (fun _ _ _ => rfl)) (fun _ => rfl))
    · intro str
      rw [regex_parser_basic_re, regex_parser_basic_re]
      exact stable_bind (ihe _) (fun elementary _ _ => rfl)
    · intro str e
      rw [regex_parser_simple_re, regex_parser_simple_re]
      cases e with
      | true => intro _; rfl
      | false =>
        simp only [Bool.false_eq_true, if_false]
        refine stable_bind (ihb _) (fun item _ => ?_)
        exact stable_bind (ihs _ _) (fun next _ _ => rfl)
    · intro str e
      rw [regex_parser_inner_re, regex_parser_inner_re]
      cases e with
      | true => intro _; rfl
      | false =>
        simp only [Bool.false_eq_true, if_false]
        refine stable_bind (ihs _ _) (fun item _ => ?_)
        exact stable_bind (ihi _ _) (fun next _ _ => rfl)

theorem stable_le {α : Type} {f : Nat → Except CompileError α}
    (hf : ∀ k, f k ≠ .error .depth_exceeded → f (k + 1) = f k) {n : Nat}
    (hn : f n ≠ .error .depth_exceeded) : ∀ m, n ≤ m → f m = f n := by
  intro m hm
  induction m with
  | zero =>
    have : n = 0 := by omega
    rw [this]
  | succ m ih =>
    by_cases h : n = m + 1
    · rw [h]
    · have e := ih (by omega)
      rw [hf m (by rw [e]; exact hn), e]

theorem re_mono (str : List Int) (n : Nat)
    (h : regex_parser_re n str ≠ .error .depth_exceeded) :
    regex_parser_re (n + 1) str = regex_parser_re n str := by
  revert h
  unfold regex_parser_re
  dsimp only []
  refine stable_ite (fun _ => rfl) (stable_bind (fun _ => rfl) (fun _ _ => ?_))
  refine stable_bind (fun _ => rfl) (fun begin_ _ => ?_)
  exact stable_bind ((parser_mono n).2.2.2.2 _ _) (fun inner _ _ => rfl)

/-- A result of the parser at any budget is the result of `basic_regex`. -/
theorem compiles_of_fuel {str : List Int} {rule : Rule} {n : Nat}
    (h : regex_parser_re n str = .ok rule) : basic_regex str = .ok rule := by
  have hn : regex_parser_re n str ≠ .error .depth_exceeded := by rw [h]; simp
  rcases Nat.le_total n (5 * str.length + 8) with hle | hle
  · rw [basic_regex, stable_le (re_mono str) hn _ hle, h]
  · have e := stable_le (re_mono str) (basic_regex_budget_suffices str) n hle
    rw [basic_regex, ← e, h]

theorem ok_ne_depth {α : Type} {x : Except CompileError α} {a : α} (h : x = .ok a) :
    x ≠ .error .depth_exceeded := by
  rw [h]; simp

theorem group_le {n m : Nat} {str : List Int} {p : Parsed}
    (h : regex_parser_group n str = .ok p) (hm : n ≤ m) : regex_parser_group m str = .ok p := by
  rw [stable_le (fun k => (parser_mono k).1 str) (ok_ne_depth h) m hm, h]

theorem elementary_le {n m : Nat} {str : List Int} {p : Parsed}
    (h : regex_parser_elementary_re n str = .ok p) (hm : n ≤ m) :
    regex_parser_elementary_re m str = .ok p := by
  rw [stable_le (fun k => (parser_mono k).2.1 str) (ok_ne_depth h) m hm, h]

theorem basic_le {n m : Nat} {str : List Int} {p : Parsed}
    (h : regex_parser_basic_re n str = .ok p) (hm : n ≤ m) :
    regex_parser_basic_re m str = .ok p := by
  rw [stable_le (fun k => (parser_mono k).2.2.1 str) (ok_ne_depth h) m hm, h]

theorem simple_le {n m : Nat} {str : List Int} {e : Bool} {p : Parsed}
    (h : regex_parser_simple_re n str e = .ok p) (hm : n ≤ m) :
    regex_parser_simple_re m str e = .ok p := by
  rw [stable_le (fun k => (parser_mono k).2.2.2.1 str e) (ok_ne_depth h) m hm, h]

theorem inner_le {n m : Nat} {str : List Int} {e : Bool} {p : Parsed}
    (h : regex_parser_inner_re n str e = .ok p) (hm : n ≤ m) :
    regex_parser_inner_re m str e = .ok p := by
  rw [stable_le (fun k => (parser_mono k).2.2.2.2 str e) (ok_ne_depth h) m hm, h]

theorem set_items_le {n m : Nat} {str : List Int} {e : Bool} {p : Parsed}
    (h : regex_parser_set_items n str e = .ok p) (hm : n ≤ m) :
    regex_parser_set_items m str e = .ok p := by
  rw [stable_le (fun k => set_items_mono k str e) (ok_ne_depth h) m hm, h]

theorem set_le {n m : Nat} {str : List Int} {p : Parsed}
    (h : regex_parser_set n str = .ok p) (hm : n ≤ m) : regex_parser_set m str = .ok p := by
  rw [stable_le (fun k => set_mono k str) (ok_ne_depth h) m hm, h]

/-! ## Equations of the parser, one per form of the pattern -/

theorem char_nil : regex_parser_char [] = .ok (0, []) := by
  simp [regex_parser_char, character_at_str, basic_string_builder_rest_str, bind, Except.bind,
    pure, Except.pure, ch]

theorem char_cons_ne {c : Int} (cs : List Int) (h : c ≠ ch '\\') :
    regex_parser_char (c :: cs) = .ok (c, cs) := by
  simp [regex_parser_char, character_at_str_zero_cons, h, rest_str_one, bind, Except.bind,
    pure, Except.pure]

theorem char_escape {c : Int} (d : Int) (ds : List Int) (h : c = ch '\\') :
    regex_parser_char (c :: d :: ds) = .ok (d, ds) := by
  subst h
  simp [regex_parser_char, character_at_str, basic_string_builder_rest_str, rest_str_zero,
    bind, Except.bind, pure, Except.pure]

theorem char_escape_end {c : Int} (h : c = ch '\\') :
    regex_parser_char [c] = .error .no_more_characters := by
  subst h
  simp [regex_parser_char, character_at_str, basic_string_builder_rest_str, bind, Except.bind]

theorem simple_re_false (n : Nat) (str : List Int) :
    regex_parser_simple_re (n + 1) str false =
      (regex_parser_basic_re n str >>= fun item =>
        regex_parser_simple_re n item.rest
          (character_at_str 0 item.rest == ch '|' ||
           character_at_str 0 item.rest == ch '$' ||
           character_at_str 0 item.rest == ch ')' ||
           character_at_str 0 item.rest == 0) >>= fun next =>
        item.need >>= fun rule =>
        sequence_merge (some (.sequence rule [])) next.rule >>= fun merged =>
        pure ⟨some (sequence_remove merged), next.rest⟩) := by
  rw [regex_parser_simple_re]
  simp only [Bool.false_eq_true, if_false]

theorem inner_re_false (n : Nat) (str : List Int) :
    regex_parser_inner_re (n + 1) str false =
      (regex_parser_simple_re n str false >>= fun item =>
        regex_parser_inner_re n item.rest (character_at_str 0 item.rest != ch '|') >>=
          fun next =>
        item.need >>= fun rule =>
        sequence_merge (some (.sequence rule [])) next.rule >>= fun merged =>
        pure ⟨some (sequence_remove merged), next.rest⟩) := by
  rw [regex_parser_inner_re]
  simp only [Bool.false_eq_true, if_false]

theorem set_items_end (n : Nat) (str : List Int) :
    regex_parser_set_items (n + 1) str true = .ok ⟨none, str⟩ := by
  simp [regex_parser_set_items]

theorem set_items_false (n : Nat) (str : List Int) :
    regex_parser_set_items (n + 1) str false =
      (regex_parser_set_item str >>= fun item =>
        regex_parser_set_items n item.2
          (character_at_str 0 item.2 == ch ']' || character_at_str 0 item.2 == 0) >>=
          fun next =>
        sequence_merge (some (.sequence item.1 [])) next.rule >>= fun merged =>
        pure ⟨some (sequence_remove merged), next.rest⟩) := by
  rw [regex_parser_set_items]
  simp only [Bool.false_eq_true, if_false]

theorem parsed_eta {x : Except CompileError Parsed} :
    (x >>= fun s => pure ⟨s.rule, s.rest⟩) = x := by
  cases x <;> rfl

theorem elementary_any {c : Int} (cs : List Int) (n : Nat) (h : c = ch '.') :
    regex_parser_elementary_re (n + 1) (c :: cs) = .ok ⟨some .any, cs⟩ := by
  subst h
  rw [regex_parser_elementary_re]
  simp [next_if_eq, character_at_str_zero_cons, char_cons_ne, ch, bind, Except.bind, pure,
    Except.pure]

theorem elementary_group {c : Int} (cs : List Int) (n : Nat) (h : c = ch '(') :
    regex_parser_elementary_re (n + 1) (c :: cs) = regex_parser_group n (c :: cs) := by
  subst h
  rw [regex_parser_elementary_re]
  have e1 : (ch '(' == ch '.') = false := by decide
  simp only [next_if_eq, character_at_str_zero_cons, e1, beq_self_eq_true, bind, Except.bind,
    if_true, Bool.false_eq_true, if_false]
  exact parsed_eta

theorem elementary_set {c : Int} (cs : List Int) (n : Nat) (h : c = ch '[') :
    regex_parser_elementary_re (n + 1) (c :: cs) = regex_parser_set n (c :: cs) := by
  subst h
  rw [regex_parser_elementary_re]
  have e1 : (ch '[' == ch '.') = false := by decide
  have e2 : (ch '[' == ch '(') = false := by decide
  simp only [next_if_eq, character_at_str_zero_cons, e1, e2, beq_self_eq_true, bind,
    Except.bind, if_true, Bool.false_eq_true, if_false]
  exact parsed_eta

theorem elementary_char (str : List Int) (n : Nat) (h1 : character_at_str 0 str ≠ ch '.')
    (h2 : character_at_str 0 str ≠ ch '(') (h3 : character_at_str 0 str ≠ ch '[') :
    regex_parser_elementary_re (n + 1) str =
      (regex_parser_char str >>= fun c => pure ⟨some (.val c.1), c.2⟩) := by
  rw [regex_parser_elementary_re]
  rw [next_if_ne h1, next_if_ne h2, next_if_ne h3]
  cases regex_parser_char str <;> rfl

/-! ## Patterns of the tests and of the documentation -/

/-- C21: the pattern "a*a" compiles to `sequence<repeat_optional<val a>, val a>`.  On
the input of `n` copies of 'a' (any `n`; "aaa" is `n = 3`) the repetition takes
all `n` values and returns true, the `val` after it is tried at the end and
fails there, and `regex_match` returns false. -/
theorem star_then_same_value_fails :
    basic_regex (chars "a*a") =
        .ok (.sequence (.repeat_optional (.val (ch 'a'))) [.val (ch 'a')]) ∧
      (∀ n : Nat,
        Returns (.repeat_optional (.val (ch 'a'))) (List.replicate n (ch 'a')) 0 true n ∧
        Returns (.val (ch 'a')) (List.replicate n (ch 'a')) n false n ∧
        ∃ fuel, regex_match fuel (.sequence (.repeat_optional (.val (ch 'a'))) [.val (ch 'a')])
          (List.replicate n (ch 'a')) = some false) ∧
      regex_match 10 (.sequence (.repeat_optional (.val (ch 'a'))) [.val (ch 'a')])
        (chars "aaa") = some false := by
  refine ⟨?_, fun n => ?_, by decide⟩
  · apply @compiles_of_fuel _ _ 20
    simp [chars, regex_parser_re, inner_re_false, inner_re_end, simple_re_false, simple_re_end,
      regex_parser_basic_re, elementary_char, char_cons_ne, next_if_eq,
      character_at_str_zero_cons, character_at_str_nil, sequence_merge, sequence_remove,
      Parsed.need, ch, bind, Except.bind, pure, Except.pure]
  · have h1 : Returns (.repeat_optional (.val (ch 'a'))) (List.replicate n (ch 'a')) 0 true n := by
      have h := returns_repeat_optional_of_values (ch 'a') n [] (Or.inl ⟨rfl, by decide⟩)
      rwa [List.append_nil] at h
    have h2 : Returns (.val (ch 'a')) (List.replicate n (ch 'a')) n false n := by
      refine (isClass_false (isClass_val (ch 'a'))).2 ⟨?_, rfl⟩
      rw [deref_of_le (by simp)]
      decide
    exact ⟨h1, h2, regex_match_of_returns
      (returns_sequence_cons.2 (Or.inr ⟨n, h1, returns_sequence_one.2 h2⟩))⟩

/-- C22: the pattern "^abcd$" compiles to `begin_end<sequence<a, b, c, d>>`, and on
every input `T` the function `regex_match` returns, with true exactly when `T`
is "abcd". -/
theorem begin_abcd_end_matches_only_abcd :
    basic_regex (chars "^abcd$") =
        .ok (.begin_end (.sequence (.val (ch 'a')) [.val (ch 'b'), .val (ch 'c'), .val (ch 'd')])) ∧
      ∀ T : List Int, ∃ fuel,
        regex_match fuel
          (.begin_end (.sequence (.val (ch 'a')) [.val (ch 'b'), .val (ch 'c'), .val (ch 'd')]))
          T = some (decide (T = chars "abcd")) := by
  refine ⟨?_, fun T => ?_⟩
  · apply @compiles_of_fuel _ _ 20
    simp [chars, regex_parser_re, inner_re_false, inner_re_end, simple_re_false, simple_re_end,
      regex_parser_basic_re, elementary_char, char_cons_ne, next_if_eq,
      character_at_str_zero_cons, character_at_str_nil, sequence_merge, sequence_remove,
      Parsed.need, ch, bind, Except.bind, pure, Except.pure]
  · obtain ⟨q, hq, hlen⟩ := returns_sequence_of_vals T [ch 'b', ch 'c', ch 'd'] (ch 'a') 0
    have hocc := occurs_at_iff_take T (chars "abcd") 0 (by decide)
    rw [List.drop_zero] at hocc
    refine regex_match_of_returns (returns_begin_end.2 ⟨_, hq, ?_⟩)
    rw [Bool.eq_iff_iff]
    simp only [decide_eq_true_eq, Bool.and_eq_true]
    constructor
    · intro hT
      have ho : occurs_at T (chars "abcd") 0 = true := by rw [hT]; decide
      refine ⟨ho, ?_⟩
      rw [hlen ho, hT]
      decide
    · rintro ⟨ho, hq4⟩
      have h4 := hlen ho
      have ht := hocc.1 ho
      rw [← ht]
      have hl : T.length = 4 := by rw [← hq4, h4]; rfl
      have e : (chars "abcd").length = T.length := by rw [hl]; decide
      rw [e, List.take_length]

/-- C23: the pattern "^a*$" compiles to `begin_end<repeat_optional<val a>>`; on every
input `T` the function `regex_match` returns, with true exactly when `T` is some
number of copies of 'a'; so it is true on "", "a", "aaaa", "aaaaa" and false on
"aab". -/
theorem begin_star_end_matches_only_copies :
    basic_regex (chars "^a*$") = .ok (.begin_end (.repeat_optional (.val (ch 'a')))) ∧
      (∀ T : List Int, ∃ fuel flag,
        regex_match fuel (.begin_end (.repeat_optional (.val (ch 'a')))) T = some flag ∧
          (flag = true ↔ ∃ n, T = List.replicate n (ch 'a'))) ∧
      regex_match 10 (.begin_end (.repeat_optional (.val (ch 'a')))) (chars "") = some true ∧
      regex_match 10 (.begin_end (.repeat_optional (.val (ch 'a')))) (chars "a") = some true ∧
      regex_match 10 (.begin_end (.repeat_optional (.val (ch 'a')))) (chars "aaaa") = some true ∧
      regex_match 10 (.begin_end (.repeat_optional (.val (ch 'a')))) (chars "aaaaa") = some true ∧
      regex_match 10 (.begin_end (.repeat_optional (.val (ch 'a')))) (chars "aab") = some false := by
  refine ⟨?_, fun T => ?_, by decide, by decide, by decide, by decide, by decide⟩
  · apply @compiles_of_fuel _ _ 20
    simp [chars, regex_parser_re, inner_re_false, inner_re_end, simple_re_false, simple_re_end,
      regex_parser_basic_re, elementary_char, char_cons_ne, next_if_eq,
      character_at_str_zero_cons, character_at_str_nil, sequence_merge, sequence_remove,
      Parsed.need, ch, bind, Except.bind, pure, Except.pure]
  · obtain ⟨q, hq, hiff⟩ := repeat_optional_scan (isClass_val (ch 'a')) (by decide) T []
    rw [List.nil_append] at hq hiff
    obtain ⟨fuel, hf⟩ := regex_match_of_returns (returns_begin_end.2 ⟨_, hq, rfl⟩)
    refine ⟨fuel, _, hf, ?_⟩
    simp only [Bool.true_and, decide_eq_true_eq]
    rw [hiff, List.all_eq_true]
    constructor
    · intro h
      exact ⟨T.length, List.eq_replicate_iff.2 ⟨rfl, fun b hb => by simpa [val_is] using h b hb⟩⟩
    · rintro ⟨n, hn⟩ x hx
      rw [hn] at hx
      rw [List.eq_of_mem_replicate hx]
      simp [val_is]

/-- C24: for every character `c` the pattern of a backslash and `c` compiles to
`val<c>`; the escaped dot compiles to `val<'.'>`, on which `regex_match` returns
true exactly when the first element of the input is '.'; the pattern "."
compiles to `any`. -/
theorem backslash_makes_the_next_character_literal :
    (∀ c : Int, basic_regex [ch '\\', c] = .ok (.val c)) ∧
      basic_regex (chars "\\.") = .ok (.val (ch '.')) ∧
      (∀ T : List Int, ∃ fuel,
        regex_match fuel (.val (ch '.')) T = some (decide (T.head? = some (ch '.')))) ∧
      basic_regex (chars ".") = .ok .any := by
  have hc : ∀ c : Int, basic_regex [ch '\\', c] = .ok (.val c) := by
    intro c
    apply @compiles_of_fuel _ _ 20
    simp [regex_parser_re, inner_re_false, inner_re_end, simple_re_false, simple_re_end,
      regex_parser_basic_re, elementary_char, char_escape, next_if_eq,
      character_at_str_zero_cons, character_at_str_nil, sequence_merge, sequence_remove,
      Parsed.need, ch, bind, Except.bind, pure, Except.pure]
  refine ⟨hc, hc (ch '.'), fun T => ?_, ?_⟩
  · have h := returns_val (ch '.') T 0
    have e : (deref T 0 == ch '.') = decide (T.head? = some (ch '.')) := by
      cases T with
      | nil => decide
      | cons x xs =>
        have hd : deref (x :: xs) 0 = x := rfl
        rw [hd, Bool.eq_iff_iff]
        simp only [beq_iff_eq, List.head?_cons, Option.some.injEq, decide_eq_true_eq]
    rw [e] at h
    exact regex_match_of_returns h
  · apply @compiles_of_fuel _ _ 20
    simp [chars, regex_parser_re, inner_re_false, inner_re_end, simple_re_false, simple_re_end,
      regex_parser_basic_re, elementary_any, next_if_eq,
      character_at_str_zero_cons, character_at_str_nil, sequence_merge, sequence_remove,
      Parsed.need, ch, bind, Except.bind, pure, Except.pure]

theorem match_all_of_begin_end {r : Rule} {s : List Int} {f : Bool} {q : Nat}
    (h : Returns (.begin_end r) s 0 f q) :
    ∃ fuel mem1, match_all_ref fuel (.begin_end r) s [] 0 [] = some (f, q, mem1) := by
  obtain ⟨b, _, hf⟩ := returns_begin_end.1 h
  obtain ⟨fuel, mem1, h1⟩ := h [] [] []
  refine ⟨fuel, mem1, ?_⟩
  simp only [match_all_ref, match_ref, h1, Option.some.injEq, Prod.mk.injEq, and_true]
  rw [hf]
  cases b <;> simp

/-- C25: the pattern `^[a-zA-Z_][a-zA-Z0-9_]*$` compiles to `identifier_rule`; on
every input `T` both `regex_match` and `match_all` return, with true exactly
when `T` is an identifier (not empty, first a letter or '_', then letters,
digits and '_'); "_foo123" gives true, "1abc" and "" give false. -/
theorem identifier_pattern_matches_identifiers :
    basic_regex (chars "^[a-zA-Z_][a-zA-Z0-9_]*$") = .ok identifier_rule ∧
      (∀ T : List Int, ∃ flag,
        (∃ fuel, regex_match fuel identifier_rule T = some flag) ∧
        (∃ fuel q mem1, match_all_ref fuel identifier_rule T [] 0 [] = some (flag, q, mem1)) ∧
        (flag = true ↔ is_identifier T)) ∧
      regex_match 20 identifier_rule (chars "_foo123") = some true ∧
      regex_match 20 identifier_rule (chars "1abc") = some false ∧
      regex_match 20 identifier_rule (chars "") = some false := by
  refine ⟨?_, fun T => ?_, by decide, by decide, by decide⟩
  · apply @compiles_of_fuel _ _ 30
    simp [chars, identifier_rule, regex_parser_re, inner_re_false, inner_re_end,
      simple_re_false, simple_re_end, regex_parser_basic_re, elementary_set, regex_parser_set,
      set_items_false, set_items_end, regex_parser_set_item, char_cons_ne, next_if_eq,
      character_at_str_zero_cons, character_at_str_nil, sequence_merge, sequence_remove,
      Parsed.need, ch, bind, Except.bind, pure, Except.pure]
  · have hc1 := isClass_alternative_cons (isClass_range (ch 'a') (ch 'z'))
      (isClass_alternative_cons (isClass_range (ch 'A') (ch 'Z'))
        (isClass_alternative_one (isClass_val (ch '_'))))
    have hc2 := isClass_alternative_cons (isClass_range (ch 'a') (ch 'z'))
      (isClass_alternative_cons (isClass_range (ch 'A') (ch 'Z'))
        (isClass_alternative_cons (isClass_range (ch '0') (ch '9'))
          (isClass_alternative_one (isClass_val (ch '_')))))
    have e1 : ∀ x : Int, (range_is (ch 'a') (ch 'z') x ||
        (range_is (ch 'A') (ch 'Z') x || val_is (ch '_') x)) = true ↔
          (ascii_letter x ∨ x = ch '_') := by
      intro x
      simp only [range_is, val_is, ascii_letter, Bool.or_eq_true, Bool.and_eq_true,
        decide_eq_true_eq, beq_iff_eq, ge_iff_le, or_assoc]
    have e2 : ∀ x : Int, (range_is (ch 'a') (ch 'z') x ||
        (range_is (ch 'A') (ch 'Z') x || (range_is (ch '0') (ch '9') x ||
          val_is (ch '_') x))) = true ↔
          (ascii_letter x ∨ ascii_digit x ∨ x = ch '_') := by
      intro x
      simp only [range_is, val_is, ascii_letter, ascii_digit, Bool.or_eq_true,
        Bool.and_eq_true, decide_eq_true_eq, beq_iff_eq, ge_iff_le, or_assoc]
    have key : ∃ flag q, Returns identifier_rule T 0 flag q ∧
        (flag = true ↔ is_identifier T) := by
      cases T with
      | nil =>
        refine ⟨_, 0, returns_begin_end.2 ⟨false, returns_sequence_cons.2
          (Or.inl ⟨rfl, (isClass_false hc1).2 ⟨by decide, rfl⟩⟩), rfl⟩, ?_⟩
        simp [is_identifier]
      | cons c cs =>
        have hd : deref (c :: cs) 0 = c := rfl
        by_cases hP : (range_is (ch 'a') (ch 'z') c ||
            (range_is (ch 'A') (ch 'Z') c || val_is (ch '_') c)) = true
        · obtain ⟨q, hq, hiff⟩ := repeat_optional_scan hc2 (by decide) cs [c]
          refine ⟨_, q, returns_begin_end.2 ⟨true, returns_sequence_cons.2
            (Or.inr ⟨1, (isClass_true hc1).2 ⟨by rw [hd]; exact hP, rfl⟩,
              returns_sequence_one.2 hq⟩), rfl⟩, ?_⟩
          simp only [Bool.true_and, decide_eq_true_eq]
          have hl : ([c] ++ cs).length = (c :: cs).length := rfl
          rw [← hl, hiff, List.all_eq_true]
          constructor
          · intro h
            exact ⟨c, cs, rfl, (e1 c).1 hP, fun x hx => (e2 x).1 (h x hx)⟩
          · rintro ⟨c', cs', he, -, h⟩ x hx
            obtain ⟨-, rfl⟩ := List.cons.inj he
            exact (e2 x).2 (h x hx)
        · have hf : (range_is (ch 'a') (ch 'z') c ||
              (range_is (ch 'A') (ch 'Z') c || val_is (ch '_') c)) = false := by
            simpa using hP
          refine ⟨_, 0, returns_begin_end.2 ⟨false, returns_sequence_cons.2
            (Or.inl ⟨rfl, (isClass_false hc1).2 ⟨by rw [hd]; exact hf, rfl⟩⟩), rfl⟩, ?_⟩
          simp only [Bool.false_and, Bool.false_eq_true, false_iff]
          rintro ⟨c', cs', he, h1, -⟩
          obtain ⟨rfl, -⟩ := List.cons.inj he
          exact hP ((e1 c).2 h1)
    obtain ⟨flag, q, hr, hiff⟩ := key
    obtain ⟨fuel, q', mem1, hall⟩ :
        ∃ fuel q mem1, match_all_ref fuel identifier_rule T [] 0 [] = some (flag, q, mem1) := by
      obtain ⟨fuel, mem1, h⟩ := match_all_of_begin_end hr
      exact ⟨fuel, q, mem1, h⟩
    exact ⟨flag, regex_match_of_returns hr, ⟨fuel, q', mem1, hall⟩, hiff⟩

/-- C27: the float pattern of `test_float` compiles to `float_rule`, on which
`regex_match` returns true for "-3.14e-2" and false for "+-3". -/
theorem float_pattern_examples :
    basic_regex (chars "^[-+]?[0-9]*\\.?[0-9]+([eE][-+]?[0-9]+)?$") = .ok float_rule ∧
      regex_match 40 float_rule (chars "-3.14e-2") = some true ∧
      regex_match 40 float_rule (chars "+-3") = some false := by
  refine ⟨?_, by decide, by decide⟩
  apply @compiles_of_fuel _ _ 40
  simp [chars, float_rule, digit_rule, regex_parser_re, inner_re_false, inner_re_end,
    simple_re_false, simple_re_end, regex_parser_basic_re, elementary_set, elementary_group,
    elementary_char, regex_parser_group, regex_parser_set, set_items_false, set_items_end,
    regex_parser_set_item, char_cons_ne, char_escape, next_if_eq, character_at_str_zero_cons,
    character_at_str_nil, sequence_merge, sequence_remove, Parsed.need, ch, bind, Except.bind,
    pure, Except.pure]

theorem deref_append_length (pre suf : List Int) :
    deref (pre ++ suf) pre.length = suf.headD 0 := by
  cases suf with
  | nil => rw [deref_of_le (by simp)]; rfl
  | cons x rest =>
    rw [deref_of_lt (by simp)]
    exact List.getElem_of_append rfl rfl

theorem token_cases (u : Token) (hc : IsClass u.rule u.is) (h0 : u.is 0 = false)
    (pre suf : List Int) :
    (∃ x rest, suf = x :: rest ∧
        Returns u.to_rule (pre ++ suf) pre.length true (pre.length + 1) ∧
        ∀ ts, consume (u :: ts) suf = consume ts rest) ∨
      (Returns u.to_rule (pre ++ suf) pre.length true pre.length ∧
        ∀ ts, consume (u :: ts) suf = consume ts suf) ∨
      (Returns u.to_rule (pre ++ suf) pre.length false pre.length ∧
        ∀ ts, consume (u :: ts) suf = none) := by
  have hd := deref_append_length pre suf
  have hopt : ∀ (b : Bool) (q : Nat), Returns u.rule (pre ++ suf) pre.length b q →
      u.is_optional = true → Returns u.to_rule (pre ++ suf) pre.length true q := by
    intro b q hr ho
    rw [Token.to_rule, ho]
    exact returns_optional.2 ⟨rfl, b, hr⟩
  have hreq : ∀ (b : Bool) (q : Nat), Returns u.rule (pre ++ suf) pre.length b q →
      u.is_optional = false → Returns u.to_rule (pre ++ suf) pre.length b q := by
    intro b q hr ho
    rw [Token.to_rule, ho]
    exact hr
  by_cases ht : u.is (suf.headD 0) = true
  · cases suf with
    | nil => rw [List.headD_nil, h0] at ht; exact absurd ht (by simp)
    | cons x rest =>
      rw [List.headD_cons] at ht
      have hr : Returns u.rule (pre ++ x :: rest) pre.length true (pre.length + 1) :=
        (isClass_true hc).2 ⟨by rw [hd]; exact ht, rfl⟩
      refine Or.inl ⟨x, rest, rfl, ?_, fun ts => by simp [consume, ht]⟩
      cases ho : u.is_optional
      · exact hreq _ _ hr ho
      · exact hopt _ _ hr ho
  · have hf : u.is (suf.headD 0) = false := by simpa using ht
    have hr : Returns u.rule (pre ++ suf) pre.length false pre.length :=
      (isClass_false hc).2 ⟨by rw [hd]; exact hf, rfl⟩
    cases ho : u.is_optional
    · refine Or.inr (Or.inr ⟨hreq _ _ hr ho, fun ts => ?_⟩)
      cases suf with
      | nil => simp [consume, ho]
      | cons x rest =>
        rw [List.headD_cons] at hf
        simp [consume, ho, hf]
    · refine Or.inr (Or.inl ⟨hopt _ _ hr ho, fun ts => ?_⟩)
      cases suf with
      | nil => simp [consume, ho]
      | cons x rest =>
        rw [List.headD_cons] at hf
        simp [consume, ho, hf]

/-- A sequence of tokens run after `pre` on the input `pre ++ suf` returns; it
returns true exactly when `consume` reads the tokens off `suf`, and then the
iterator stands where the rest left by `consume` begins. -/
theorem returns_tokens (ts : List Token) :
    ∀ (t : Token) (pre suf : List Int),
      (∀ u ∈ t :: ts, IsClass u.rule u.is ∧ u.is 0 = false) →
      ∃ f q, Returns (.sequence t.to_rule (ts.map Token.to_rule)) (pre ++ suf) pre.length f q ∧
        match consume (t :: ts) suf with
        | some suf' => f = true ∧ q + suf'.length = (pre ++ suf).length
        | none => f = false := by
  induction ts with
  | nil =>
    intro t pre suf h
    obtain ⟨hc, h0⟩ := h t (List.mem_cons_self _ _)
    rcases token_cases t hc h0 pre suf with ⟨x, rest, rfl, hr, he⟩ | ⟨hr, he⟩ | ⟨hr, he⟩
    · refine ⟨true, pre.length + 1, returns_sequence_one.2 hr, ?_⟩
      rw [he]
      simp [consume]
      omega
    · refine ⟨true, pre.length, returns_sequence_one.2 hr, ?_⟩
      rw [he]
      simp [consume]
    · refine ⟨false, pre.length, returns_sequence_one.2 hr, ?_⟩
      rw [he]
  | cons t2 ts ih =>
    intro t pre suf h
    obtain ⟨hc, h0⟩ := h t (List.mem_cons_self _ _)
    have h2 : ∀ u ∈ t2 :: ts, IsClass u.rule u.is ∧ u.is 0 = false :=
      fun u hu => h u (List.mem_cons_of_mem _ hu)
    rcases token_cases t hc h0 pre suf with ⟨x, rest, rfl, hr, he⟩ | ⟨hr, he⟩ | ⟨hr, he⟩
    · obtain ⟨f, q, hq, hm⟩ := ih t2 (pre ++ [x]) rest h2
      have e : pre ++ [x] ++ rest = pre ++ x :: rest := by simp
      have el : (pre ++ [x]).length = pre.length + 1 := by simp
      rw [e, el] at hq
      rw [e] at hm
      refine ⟨f, q, returns_sequence_cons.2 (Or.inr ⟨_, hr, hq⟩), ?_⟩
      rw [he]
      exact hm
    · obtain ⟨f, q, hq, hm⟩ := ih t2 pre suf h2
      refine ⟨f, q, returns_sequence_cons.2 (Or.inr ⟨_, hr, hq⟩), ?_⟩
      rw [he]
      exact hm
    · refine ⟨false, pre.length, returns_sequence_cons.2 (Or.inl ⟨rfl, hr⟩), ?_⟩
      rw [he]

theorem consume_nil (s out : List Int) : consume [] s = some out ↔ s = out := by
  simp [consume]

theorem consume_required (is : Int → Bool) (r : Rule) (ts : List Token) (s out : List Int) :
    consume (⟨false, is, r⟩ :: ts) s = some out ↔
      ∃ x rest, s = x :: rest ∧ is x = true ∧ consume ts rest = some out := by
  cases s with
  | nil => simp [consume]
  | cons x rest =>
    by_cases h : is x = true
    · have e : consume (⟨false, is, r⟩ :: ts) (x :: rest) = consume ts rest := by
        simp [consume, h]
      rw [e]
      constructor
      · intro hc
        exact ⟨x, rest, rfl, h, hc⟩
      · rintro ⟨x', rest', he, -, hc⟩
        obtain ⟨rfl, rfl⟩ := List.cons.inj he
        exact hc
    · simp [consume, h]

theorem consume_optional (is : Int → Bool) (r : Rule) (ts : List Token) (s out : List Int) :
    consume (⟨true, is, r⟩ :: ts) s = some out ↔
      (∃ x rest, s = x :: rest ∧ is x = true ∧ consume ts rest = some out) ∨
        ((s = [] ∨ ∃ x rest, s = x :: rest ∧ is x = false) ∧ consume ts s = some out) := by
  cases s with
  | nil => simp [consume]
  | cons x rest =>
    by_cases h : is x = true
    · have e : consume (⟨true, is, r⟩ :: ts) (x :: rest) = consume ts rest := by
        simp [consume, h]
      rw [e]
      constructor
      · intro hc
        exact Or.inl ⟨x, rest, rfl, h, hc⟩
      · rintro (⟨x', rest', he, -, hc⟩ | ⟨hn | ⟨x', rest', he, hf⟩, -⟩)
        · obtain ⟨rfl, rfl⟩ := List.cons.inj he
          exact hc
        · exact absurd hn (by simp)
        · obtain ⟨rfl, rfl⟩ := List.cons.inj he
          rw [h] at hf
          exact absurd hf (by simp)
    · simp [consume, h]

theorem digit_test (x : Int) : range_is (ch '0') (ch '9') x = true ↔ ascii_digit x := by
  simp only [range_is, ascii_digit, Bool.and_eq_true, decide_eq_true_eq, ge_iff_le]

theorem slash_test (x : Int) : val_is (ch '/') x = true ↔ x = ch '/' := by
  simp only [val_is, beq_iff_eq]

/-- What `consume` reads off with the tokens of the date pattern, leaving nothing,
are the dates. -/
theorem consume_date (T : List Int) : consume date_tokens T = some [] ↔ is_date T := by
  constructor
  · intro h
    simp only [date_tokens, consume_required, consume_optional, consume_nil, digit_test,
      slash_test] at h
    obtain ⟨x0, s1, rfl, h0, h⟩ := h
    rcases h with ⟨x1, s2, rfl, h1, h⟩ | ⟨-, h⟩
    · obtain ⟨_, s3, rfl, rfl, h⟩ := h
      obtain ⟨x3, s4, rfl, h3, h⟩ := h
      rcases h with ⟨x4, s5, rfl, h4, h⟩ | ⟨-, h⟩
      · obtain ⟨_, s6, rfl, rfl, y1, s7, rfl, hy1, y2, s8, rfl, hy2, y3, s9, rfl, hy3,
          y4, s10, rfl, hy4, rfl⟩ := h
        exact ⟨[x0, x1], [x3, x4], [y1, y2, y3, y4], rfl, Or.inr rfl, Or.inr rfl, rfl,
          by simp [h0, h1], by simp [h3, h4], by simp [hy1, hy2, hy3, hy4]⟩
      · obtain ⟨_, s6, rfl, rfl, y1, s7, rfl, hy1, y2, s8, rfl, hy2, y3, s9, rfl, hy3,
          y4, s10, rfl, hy4, rfl⟩ := h
        exact ⟨[x0, x1], [x3], [y1, y2, y3, y4], rfl, Or.inr rfl, Or.inl rfl, rfl,
          by simp [h0, h1], by simp [h3], by simp [hy1, hy2, hy3, hy4]⟩
    · obtain ⟨_, s3, rfl, rfl, h⟩ := h
      obtain ⟨x3, s4, rfl, h3, h⟩ := h
      rcases h with ⟨x4, s5, rfl, h4, h⟩ | ⟨-, h⟩
      · obtain ⟨_, s6, rfl, rfl, y1, s7, rfl, hy1, y2, s8, rfl, hy2, y3, s9, rfl, hy3,
          y4, s10, rfl, hy4, rfl⟩ := h
        exact ⟨[x0], [x3, x4], [y1, y2, y3, y4], rfl, Or.inl rfl, Or.inr rfl, rfl,
          by simp [h0], by simp [h3, h4], by simp [hy1, hy2, hy3, hy4]⟩
      · obtain ⟨_, s6, rfl, rfl, y1, s7, rfl, hy1, y2, s8, rfl, hy2, y3, s9, rfl, hy3,
          y4, s10, rfl, hy4, rfl⟩ := h
        exact ⟨[x0], [x3], [y1, y2, y3, y4], rfl, Or.inl rfl, Or.inl rfl, rfl,
          by simp [h0], by simp [h3], by simp [hy1, hy2, hy3, hy4]⟩
  · rintro ⟨d, m, y, rfl, hd, hm, hy, hdd, hdm, hdy⟩
    have hs : range_is (ch '0') (ch '9') (ch '/') = false := by decide
    have hv : val_is (ch '/') (ch '/') = true := by decide
    obtain ⟨y1, y2, y3, y4, rfl⟩ : ∃ y1 y2 y3 y4, y = [y1, y2, y3, y4] := by
      match y, hy with
      | [y1, y2, y3, y4], _ => exact ⟨y1, y2, y3, y4, rfl⟩
    have hy1 := (digit_test y1).2 (hdy y1 (by simp))
    have hy2 := (digit_test y2).2 (hdy y2 (by simp))
    have hy3 := (digit_test y3).2 (hdy y3 (by simp))
    have hy4 := (digit_test y4).2 (hdy y4 (by simp))
    rcases hd with hd | hd <;> rcases hm with hm | hm
    · obtain ⟨a, rfl⟩ := List.length_eq_one.1 hd
      obtain ⟨b, rfl⟩ := List.length_eq_one.1 hm
      have ha := (digit_test a).2 (hdd a (by simp))
      have hb := (digit_test b).2 (hdm b (by simp))
      simp [date_tokens, consume, ha, hb, hs, hv, hy1, hy2, hy3, hy4]
    · obtain ⟨a, rfl⟩ := List.length_eq_one.1 hd
      obtain ⟨b, b2, rfl⟩ := List.length_eq_two.1 hm
      have ha := (digit_test a).2 (hdd a (by simp))
      have hb := (digit_test b).2 (hdm b (by simp))
      have hb2 := (digit_test b2).2 (hdm b2 (by simp))
      simp [date_tokens, consume, ha, hb, hb2, hs, hv, hy1, hy2, hy3, hy4]
    · obtain ⟨a, a2, rfl⟩ := List.length_eq_two.1 hd
      obtain ⟨b, rfl⟩ := List.length_eq_one.1 hm
      have ha := (digit_test a).2 (hdd a (by simp))
      have ha2 := (digit_test a2).2 (hdd a2 (by simp))
      have hb := (digit_test b).2 (hdm b (by simp))
      simp [date_tokens, consume, ha, ha2, hb, hs, hv, hy1, hy2, hy3, hy4]
    · obtain ⟨a, a2, rfl⟩ := List.length_eq_two.1 hd
      obtain ⟨b, b2, rfl⟩ := List.length_eq_two.1 hm
      have ha := (digit_test a).2 (hdd a (by simp))
      have ha2 := (digit_test a2).2 (hdd a2 (by simp))
      have hb := (digit_test b).2 (hdm b (by simp))
      have hb2 := (digit_test b2).2 (hdm b2 (by simp))
      simp [date_tokens, consume, ha, ha2, hb, hb2, hs, hv, hy1, hy2, hy3, hy4]

/-- C26: the date pattern of `test_date` compiles to `date_rule`; on every input `T`
the function `regex_match` returns, with true exactly when `T` is one or two
digits, '/', one or two digits, '/', four digits and nothing else; "3/12/2015"
gives true and "13/13/15" gives false. -/
theorem date_pattern_matches_dates :
    basic_regex (chars "^[0-9][0-9]?/[0-9][0-9]?/[0-9][0-9][0-9][0-9]$") = .ok date_rule ∧
      (∀ T : List Int, ∃ fuel flag,
        regex_match fuel date_rule T = some flag ∧ (flag = true ↔ is_date T)) ∧
      regex_match 20 date_rule (chars "3/12/2015") = some true ∧
      regex_match 20 date_rule (chars "13/13/15") = some false := by
  refine ⟨?_, fun T => ?_, by decide, by decide⟩
  · apply @compiles_of_fuel _ _ 40
    simp [chars, date_rule, digit_rule, regex_parser_re, inner_re_false, inner_re_end,
      simple_re_false, simple_re_end, regex_parser_basic_re, elementary_set, elementary_char,
      regex_parser_set, set_items_false, set_items_end, regex_parser_set_item, char_cons_ne,
      next_if_eq, character_at_str_zero_cons, character_at_str_nil, sequence_merge,
      sequence_remove, Parsed.need, ch, bind, Except.bind, pure, Except.pure]
  · have hdig : IsClass digit_rule (range_is (ch '0') (ch '9')) :=
      isClass_alternative_one (isClass_range _ _)
    have htok : ∀ u ∈ date_tokens, IsClass u.rule u.is ∧ u.is 0 = false := by
      intro u hu
      simp only [date_tokens, List.mem_cons, List.mem_singleton, List.not_mem_nil,
        or_false] at hu
      rcases hu with rfl | rfl | rfl | rfl | rfl | rfl | rfl | rfl | rfl | rfl
      all_goals first
        | exact ⟨hdig, by decide⟩
        | exact ⟨isClass_val _, by decide⟩
    obtain ⟨f, q, hq, hm⟩ := returns_tokens _ _ [] T htok
    rw [List.nil_append] at hq hm
    have hr : Returns date_rule T 0 (f && decide (q = T.length)) q :=
      returns_begin_end.2 ⟨f, hq, rfl⟩
    obtain ⟨fuel, hf⟩ := regex_match_of_returns hr
    refine ⟨fuel, _, hf, ?_⟩
    rw [← consume_date]
    cases hc : consume date_tokens T with
    | none =>
      change consume date_tokens T = none at hc
      have hm' : f = false := by
        have := hm
        rw [show consume (_ :: _) T = consume date_tokens T from rfl, hc] at this
        exact this
      simp [hm']
    | some suf =>
      have hm' : f = true ∧ q + suf.length = T.length := by
        have := hm
        rw [show consume (_ :: _) T = consume date_tokens T from rfl, hc] at this
        exact this
      simp only [hm'.1, Bool.true_and, decide_eq_true_eq, Option.some.injEq]
      constructor
      · intro h
        have : suf.length = 0 := by omega
        exact List.length_eq_zero.1 this
      · intro h
        rw [h] at hm'
        simpa using hm'.2

/-! ## The parsers of basic-RE and simple-RE -/

/-- C29: when the elementary-RE at the head of `str` has the rule `r` and leaves
`rest`, the basic-RE parser gives `repeat<r>` for a following '+',
`repeat_optional<r>` for '*', `optional<r>` for '?', each time without that
character, and `r` with `rest` untouched otherwise; so "a+", "a*", "a?" and
"[a-z0-9]+" compile to the rules of the test `regex, rules`. -/
theorem suffix_wraps_elementary_rule :
    (∀ (n : Nat) (str : List Int) (r : Rule) (rest : List Int),
      regex_parser_elementary_re n str = .ok ⟨some r, rest⟩ →
      regex_parser_basic_re (n + 1) str = .ok
        (match rest with
         | c :: t =>
           if c = ch '+' then ⟨some (.repeat_ r), t⟩
           else if c = ch '*' then ⟨some (.repeat_optional r), t⟩
           else if c = ch '?' then ⟨some (.optional r), t⟩
           else ⟨some r, c :: t⟩
         | [] => ⟨some r, []⟩)) ∧
      basic_regex (chars "a+") = .ok (.repeat_ (.val (ch 'a'))) ∧
      basic_regex (chars "a*") = .ok (.repeat_optional (.val (ch 'a'))) ∧
      basic_regex (chars "a?") = .ok (.optional (.val (ch 'a'))) ∧
      basic_regex (chars "a") = .ok (.val (ch 'a')) ∧
      basic_regex (chars "[a-z0-9]+") =
        .ok (.repeat_ (.alternative (.range (ch 'a') (ch 'z')) [.range (ch '0') (ch '9')])) := by
  refine ⟨?_, ?_, ?_, ?_, ?_, ?_⟩
  · intro n str r rest h
    rw [regex_parser_basic_re, h]
    simp only [bind, Except.bind, next_if_eq, Parsed.need, pure, Except.pure]
    cases rest with
    | nil =>
      have e1 : ((0 : Int) == ch '*') = false := by decide
      have e2 : ((0 : Int) == ch '+') = false := by decide
      have e3 : ((0 : Int) == ch '?') = false := by decide
      simp only [character_at_str_nil, e1, e2, e3, Bool.false_eq_true, if_false]
    | cons c t =>
      simp only [character_at_str_zero_cons, beq_iff_eq, List.tail_cons]
      by_cases hs : c = ch '*'
      · subst hs
        have e : ¬ ch '*' = ch '+' := by decide
        simp only [e, if_true, if_false]
      · by_cases hp : c = ch '+'
        · subst hp
          have e : ¬ ch '+' = ch '*' := by decide
          simp only [e, if_true, if_false]
        · by_cases hq : c = ch '?'
          · subst hq
            have e1 : ¬ ch '?' = ch '*' := by decide
            have e2 : ¬ ch '?' = ch '+' := by decide
            simp only [e1, e2, if_true, if_false]
          · simp only [hs, hp, hq, if_false]
  all_goals
    apply @compiles_of_fuel _ _ 20
    simp [chars, regex_parser_re, inner_re_false, inner_re_end, simple_re_false, simple_re_end,
      regex_parser_basic_re, elementary_set, elementary_char, regex_parser_set, set_items_false,
      set_items_end, regex_parser_set_item, char_cons_ne, next_if_eq,
      character_at_str_zero_cons, character_at_str_nil, sequence_merge, sequence_remove,
      Parsed.need, ch, bind, Except.bind, pure, Except.pure]

/-- C29, witness: the pattern "a+", whose elementary-RE "a" leaves "+". -/
theorem suffix_wraps_elementary_rule_witness :
    regex_parser_elementary_re 1 (chars "a+") = .ok ⟨some (.val (ch 'a')), chars "+"⟩ ∧
      regex_parser_basic_re 2 (chars "a+") = .ok ⟨some (.repeat_ (.val (ch 'a'))), []⟩ :=
  ⟨elementary_char _ 0 (by decide) (by decide) (by decide),
    suffix_wraps_elementary_rule.1 1 (chars "a+") (.val (ch 'a')) (chars "+")
      (elementary_char _ 0 (by decide) (by decide) (by decide))⟩

theorem merge_behind_one (r r2 : Rule) :
    sequence_merge (some (.sequence r [])) (some r2) = .ok (.sequence r (merged_children r2)) ∧
      sequence_remove (.sequence r (merged_children r2)) = .sequence r (merged_children r2) := by
  cases r2 <;> exact ⟨rfl, rfl⟩

theorem merge_void (r : Rule) :
    sequence_merge (some (.sequence r [])) none = .ok (.sequence r []) := rfl

theorem simple_last {n : Nat} {str : List Int} {r : Rule} {rest : List Int}
    (h : regex_parser_basic_re n str = .ok ⟨some r, rest⟩) (hs : simple_re_stops rest = true) :
    regex_parser_simple_re (n + 2) str false = .ok ⟨some r, rest⟩ := by
  rw [simple_re_false, basic_le h (Nat.le_succ n)]
  rw [simple_re_stops] at hs
  simp only [bind, Except.bind, hs, simple_re_end, Parsed.need, merge_void, pure, Except.pure,
    sequence_remove]

theorem simple_cons {n m : Nat} {str mid rest : List Int} {r r2 : Rule}
    (h : regex_parser_basic_re n str = .ok ⟨some r, mid⟩) (hs : simple_re_stops mid = false)
    (h2 : regex_parser_simple_re m mid false = .ok ⟨some r2, rest⟩) :
    regex_parser_simple_re (max n m + 1) str false =
      .ok ⟨some (.sequence r (merged_children r2)), rest⟩ := by
  rw [simple_re_false, basic_le h (Nat.le_max_left n m)]
  rw [simple_re_stops] at hs
  simp only [bind, Except.bind, hs, simple_le h2 (Nat.le_max_right n m), Parsed.need,
    (merge_behind_one r r2).1, (merge_behind_one r r2).2, pure, Except.pure]

theorem merged_children_simple_re_rule (r : Rule) (rs : List Rule) :
    merged_children (simple_re_rule r rs) = spliced (r :: rs) := by
  cases rs <;> rfl

/-- The parser of simple-RE on a chain of basic-REs. -/
theorem simple_of_chain (rs : List Rule) :
    ∀ (r : Rule) (str rest : List Int), basic_re_chain (r :: rs) str rest →
      ∃ n, regex_parser_simple_re n str false = .ok ⟨some (simple_re_rule r rs), rest⟩ := by
  induction rs with
  | nil =>
    rintro r str rest ⟨⟨n, h⟩, hs⟩
    exact ⟨n + 2, simple_last h hs⟩
  | cons r2 rs ih =>
    rintro r str rest ⟨mid, ⟨n, h⟩, hs, hc⟩
    obtain ⟨m, h2⟩ := ih r2 mid rest hc
    refine ⟨max n m + 1, ?_⟩
    rw [simple_cons h hs h2, merged_children_simple_re_rule]
    rfl

theorem inner_of_simple {n : Nat} {str : List Int} {r : Rule} {rest : List Int}
    (h : regex_parser_simple_re n str false = .ok ⟨some r, rest⟩)
    (hb : character_at_str 0 rest ≠ ch '|') :
    regex_parser_inner_re (n + 2) str false = .ok ⟨some r, rest⟩ := by
  rw [inner_re_false, simple_le h (Nat.le_succ n)]
  have e : (character_at_str 0 rest != ch '|') = true := by simpa using hb
  simp only [bind, Except.bind, e, inner_re_end, Parsed.need, merge_void, pure, Except.pure,
    sequence_remove]

/-- A pattern that does not begin with '^' and whose inner-RE reaches the end of
the pattern compiles to the rule of the inner-RE. -/
theorem compiles_of_inner {n : Nat} {str : List Int} {r : Rule}
    (h : regex_parser_inner_re n str false = .ok ⟨some r, []⟩)
    (h0 : character_at_str 0 str ≠ 0) (hb : character_at_str 0 str ≠ ch '^') :
    basic_regex str = .ok r := by
  apply @compiles_of_fuel _ _ n
  rw [regex_parser_re]
  have e0 : (character_at_str 0 str == 0) = false := by simpa using h0
  have eb : (character_at_str 0 str == ch '^') = false := by simpa using hb
  have ee : ((0 : Int) == ch '$') = false := by decide
  simp only [e0, eb, ee, next_if_eq, h, bind, Except.bind, Parsed.need, pure, Except.pure,
    character_at_str_nil, Bool.false_eq_true, if_false]

theorem spliced_of_last_not_sequence (rs : List Rule) :
    ∀ (r : Rule), (∀ a as, (r :: rs).getLast? ≠ some (.sequence a as)) →
      spliced (r :: rs) = r :: rs := by
  induction rs with
  | nil =>
    intro r h
    cases r <;> first | rfl | exact absurd rfl (h _ _)
  | cons r2 rs ih =>
    intro r h
    have h2 : ∀ a as, (r2 :: rs).getLast? ≠ some (.sequence a as) := by
      intro a as
      have := h a as
      rwa [List.getLast?_cons_cons] at this
    rw [spliced, ih r2 h2]

theorem spliced_of_last_sequence (rs : List Rule) :
    ∀ (r a : Rule) (as : List Rule), (r :: rs).getLast? = some (.sequence a as) →
      spliced (r :: rs) = (r :: rs).dropLast ++ a :: as := by
  induction rs with
  | nil =>
    intro r a as h
    simp only [List.getLast?_singleton, Option.some.injEq] at h
    subst h
    rfl
  | cons r2 rs ih =>
    intro r a as h
    rw [List.getLast?_cons_cons] at h
    rw [spliced, ih r2 a as h]
    rfl

/-- C28, as the code has it: a simple-RE made of basic-REs with the rules `r :: rs`
compiles to `simple_re_rule r rs`.  That is `r` itself for one basic-RE; for
more it is one `sequence` whose children are the rules in order when the last
rule is not itself a `sequence`, and when the last rule is `sequence<a, as...>`
its children `a, as...` stand in its place.  The patterns "abcd", "ab+" and
"a+z?" compile to the rules of the test `regex, rules`. -/
theorem simple_re_compiles_to_spliced_sequence :
    (∀ (r : Rule) (rs : List Rule) (str rest : List Int),
      basic_re_chain (r :: rs) str rest →
      ∃ n, regex_parser_simple_re n str false = .ok ⟨some (simple_re_rule r rs), rest⟩) ∧
    (∀ (r : Rule) (rs : List Rule) (str : List Int),
      basic_re_chain (r :: rs) str [] → character_at_str 0 str ≠ 0 →
      character_at_str 0 str ≠ ch '^' → basic_regex str = .ok (simple_re_rule r rs)) ∧
    (∀ r : Rule, simple_re_rule r [] = r) ∧
    (∀ (r r2 : Rule) (rs : List Rule),
      (∀ a as, (r2 :: rs).getLast? ≠ some (.sequence a as)) →
      simple_re_rule r (r2 :: rs) = .sequence r (r2 :: rs)) ∧
    (∀ (r r2 : Rule) (rs : List Rule) (a : Rule) (as : List Rule),
      (r2 :: rs).getLast? = some (.sequence a as) →
      simple_re_rule r (r2 :: rs) = .sequence r ((r2 :: rs).dropLast ++ a :: as)) ∧
    basic_regex (chars "abcd") =
      .ok (.sequence (.val (ch 'a')) [.val (ch 'b'), .val (ch 'c'), .val (ch 'd')]) ∧
    basic_regex (chars "ab+") = .ok (.sequence (.val (ch 'a')) [.repeat_ (.val (ch 'b'))]) ∧
    basic_regex (chars "a+z?") =
      .ok (.sequence (.repeat_ (.val (ch 'a'))) [.optional (.val (ch 'z'))]) := by
  refine ⟨fun r rs str rest h => simple_of_chain rs r str rest h, ?_, fun r => rfl, ?_, ?_,
    ?_, ?_, ?_⟩
  · intro r rs str h h0 hb
    obtain ⟨n, hn⟩ := simple_of_chain rs r str [] h
    exact compiles_of_inner (inner_of_simple hn (by rw [character_at_str_nil]; decide)) h0 hb
  · intro r r2 rs h
    rw [simple_re_rule, spliced_of_last_not_sequence rs r2 h]
  · intro r r2 rs a as h
    rw [simple_re_rule, spliced_of_last_sequence rs r2 a as h]
  all_goals
    apply @compiles_of_fuel _ _ 20
    simp [chars, regex_parser_re, inner_re_false, inner_re_end, simple_re_false, simple_re_end,
      regex_parser_basic_re, elementary_char, char_cons_ne, next_if_eq,
      character_at_str_zero_cons, character_at_str_nil, sequence_merge, sequence_remove,
      Parsed.need, ch, bind, Except.bind, pure, Except.pure]

/-- C28, witness: the pattern "ab+" is the chain of the basic-REs "a" and "b+". -/
theorem simple_re_compiles_to_spliced_sequence_witness :
    basic_re_chain [.val (ch 'a'), .repeat_ (.val (ch 'b'))] (chars "ab+") [] ∧
      character_at_str 0 (chars "ab+") ≠ 0 ∧ character_at_str 0 (chars "ab+") ≠ ch '^' ∧
      (∃ n, regex_parser_simple_re n (chars "ab+") false =
        .ok ⟨some (.sequence (.val (ch 'a')) [.repeat_ (.val (ch 'b'))]), []⟩) ∧
      basic_regex (chars "ab+") = .ok (.sequence (.val (ch 'a')) [.repeat_ (.val (ch 'b'))]) := by
  have hc : basic_re_chain [.val (ch 'a'), .repeat_ (.val (ch 'b'))] (chars "ab+") [] := by
    refine ⟨chars "b+", ⟨3, ?_⟩, by decide, ⟨3, ?_⟩, by decide⟩
    all_goals
      simp [chars, regex_parser_basic_re, elementary_char, char_cons_ne, next_if_eq,
        character_at_str_zero_cons, character_at_str_nil, Parsed.need, ch, bind, Except.bind,
        pure, Except.pure]
  exact ⟨hc, by decide, by decide,
    simple_re_compiles_to_spliced_sequence.1 _ _ _ _ hc,
    simple_re_compiles_to_spliced_sequence.2.1 _ _ _ hc (by decide) (by decide)⟩

/-- C28, counterexample: "a(bc)" is the chain of the basic-REs "a" and "(bc)", whose
rules are `val a` and `sequence<b, c>`, yet it compiles to `sequence<a, b, c>`
with three children, not to `sequence<a, sequence<b, c>>`. -/
theorem trailing_group_adds_its_children :
    basic_re_chain [.val (ch 'a'), .sequence (.val (ch 'b')) [.val (ch 'c')]]
        (chars "a(bc)") [] ∧
      basic_regex (chars "a(bc)") =
        .ok (.sequence (.val (ch 'a')) [.val (ch 'b'), .val (ch 'c')]) ∧
      basic_regex (chars "a(bc)") ≠
        .ok (.sequence (.val (ch 'a')) [.sequence (.val (ch 'b')) [.val (ch 'c')]]) := by
  have hcomp : basic_regex (chars "a(bc)") =
      .ok (.sequence (.val (ch 'a')) [.val (ch 'b'), .val (ch 'c')]) := by
    apply @compiles_of_fuel _ _ 20
    simp [chars, regex_parser_re, inner_re_false, inner_re_end, simple_re_false, simple_re_end,
      regex_parser_basic_re, elementary_char, elementary_group, regex_parser_group,
      char_cons_ne, next_if_eq, character_at_str_zero_cons, character_at_str_nil,
      sequence_merge, sequence_remove, Parsed.need, ch, bind, Except.bind, pure, Except.pure]
  refine ⟨⟨chars "(bc)", ⟨3, ?_⟩, by decide, ⟨12, ?_⟩, by decide⟩, hcomp, ?_⟩
  · simp [chars, regex_parser_basic_re, elementary_char, char_cons_ne, next_if_eq,
      character_at_str_zero_cons, character_at_str_nil, Parsed.need, ch, bind, Except.bind,
      pure, Except.pure]
  · simp [chars, inner_re_false, inner_re_end, simple_re_false, simple_re_end,
      regex_parser_basic_re, elementary_char, elementary_group, regex_parser_group,
      char_cons_ne, next_if_eq, character_at_str_zero_cons, character_at_str_nil,
      sequence_merge, sequence_remove, Parsed.need, ch, bind, Except.bind, pure, Except.pure]
  · rw [hcomp]
    intro h
    injection h with h
    injection h with _ h
    injection h with h _
    cases h

/-! ## The parser of sets -/

theorem char_text (c : SetChar) (after : List Int) (h : c.well_formed = true) :
    regex_parser_char (c.text ++ after) = .ok (c.value, after) := by
  obtain ⟨e, v⟩ := c
  cases e with
  | true => exact char_escape v after rfl
  | false =>
    have hv : v ≠ ch '\\' := by simpa [SetChar.well_formed] using h
    exact char_cons_ne after hv

theorem char_before_close (text tail : List Int) :
    ∃ r, regex_parser_char (text ++ ch ']' :: tail) = .ok r := by
  cases text with
  | nil => exact ⟨_, char_cons_ne tail (by decide)⟩
  | cons c cs =>
    by_cases h : c = ch '\\'
    · cases cs with
      | nil => exact ⟨_, char_escape _ tail h⟩
      | cons d ds => exact ⟨_, char_escape d (ds ++ ch ']' :: tail) h⟩
    · exact ⟨_, char_cons_ne _ h⟩

theorem first_of_text (i : SetItem) (after : List Int) :
    character_at_str 0 (i.text ++ after) =
      if i.first.escaped then ch '\\' else i.first.value := by
  cases i with
  | single c =>
    obtain ⟨e, v⟩ := c
    cases e <;> rfl
  | range low high =>
    obtain ⟨e, v⟩ := low
    cases e <;> rfl

theorem set_item_text (i : SetItem) (after : List Int) (h : i.well_formed = true)
    (hdash : ∀ c, i = .single c → character_at_str 0 after ≠ ch '-')
    (hafter : ∃ r, regex_parser_char after = .ok r) :
    regex_parser_set_item (i.text ++ after) = .ok (i.rule, after) := by
  cases i with
  | single c =>
    have hc : c.well_formed = true := by
      simp only [SetItem.well_formed, Bool.and_eq_true] at h
      exact h.1
    obtain ⟨r, hr⟩ := hafter
    simp only [regex_parser_set_item, SetItem.text, char_text c after hc,
      next_if_ne (hdash c rfl), hr, bind, Except.bind, pure, Except.pure, SetItem.rule,
      Bool.false_eq_true, if_false]
  | range low high =>
    simp only [SetItem.well_formed, Bool.and_eq_true] at h
    have e : (low.text ++ ch '-' :: high.text) ++ after =
        low.text ++ (ch '-' :: (high.text ++ after)) := by simp
    simp only [regex_parser_set_item, SetItem.text, e, char_text low _ h.1.1, next_if_eq,
      character_at_str_zero_cons, beq_self_eq_true, if_true, List.tail_cons,
      char_text high after h.2, bind, Except.bind, pure, Except.pure, SetItem.rule]

theorem merged_children_item (i : SetItem) : merged_children i.rule = [i.rule] := by
  cases i <;> rfl

/-- The parser of the items of a set on the text of well-formed items. -/
theorem set_items_text (is : List SetItem) :
    ∀ (i : SetItem) (tail : List Int), items_well_formed (i :: is) = true →
      ∃ n, regex_parser_set_items n (items_text (i :: is) ++ ch ']' :: tail) false =
        .ok ⟨some (items_rule i is), ch ']' :: tail⟩ := by
  induction is with
  | nil =>
    intro i tail h
    have hi : i.well_formed = true := h
    have hitem := set_item_text i (ch ']' :: tail) hi (fun _ _ => by
      rw [character_at_str_zero_cons]; decide) ⟨_, char_cons_ne tail (by decide)⟩
    refine ⟨2, ?_⟩
    have et : items_text [i] ++ ch ']' :: tail = i.text ++ ch ']' :: tail := by
      simp [items_text]
    rw [et, set_items_false, hitem]
    simp only [bind, Except.bind, character_at_str_zero_cons, beq_self_eq_true, Bool.true_or,
      set_items_end, merge_void, pure, Except.pure, sequence_remove, items_rule]
  | cons j js ih =>
    intro i tail h
    simp only [items_well_formed, Bool.and_eq_true] at h
    obtain ⟨⟨hi, hij⟩, hrest⟩ := h
    obtain ⟨n, hn⟩ := ih j tail hrest
    have hj : j.well_formed = true := by
      cases js with
      | nil => exact hrest
      | cons k ks =>
        simp only [items_well_formed, Bool.and_eq_true] at hrest
        exact hrest.1.1
    have hopens : j.first.opens = true := by
      cases j with
      | single c =>
        simp only [SetItem.well_formed, Bool.and_eq_true] at hj
        exact hj.2
      | range low high =>
        simp only [SetItem.well_formed, Bool.and_eq_true] at hj
        exact hj.1.2
    have eafter : items_text (j :: js) ++ ch ']' :: tail =
        j.text ++ (items_text js ++ ch ']' :: tail) := by
      simp [items_text]
    have hfirst : character_at_str 0 (items_text (j :: js) ++ ch ']' :: tail) =
        if j.first.escaped then ch '\\' else j.first.value := by
      rw [eafter, first_of_text]
    have hitem := set_item_text i (items_text (j :: js) ++ ch ']' :: tail) hi
      (fun c hc => by
        rw [hfirst]
        subst hc
        cases he : j.first.escaped
        · simp only [he, Bool.false_or, bne_iff_ne, ne_eq] at hij
          simpa using hij
        · simp only [if_true]
          decide)
      (char_before_close _ tail)
    have hend : (character_at_str 0 (items_text (j :: js) ++ ch ']' :: tail) == ch ']' ||
        character_at_str 0 (items_text (j :: js) ++ ch ']' :: tail) == 0) = false := by
      rw [hfirst]
      cases he : j.first.escaped
      · simp only [SetChar.opens, he, Bool.false_or, Bool.and_eq_true, bne_iff_ne,
          ne_eq] at hopens
        simp [hopens.1, hopens.2]
      · simp only [if_true]
        decide
    refine ⟨n + 1, ?_⟩
    have et : items_text (i :: j :: js) ++ ch ']' :: tail =
        i.text ++ (items_text (j :: js) ++ ch ']' :: tail) := by
      simp [items_text]
    rw [et, set_items_false, hitem]
    simp only [bind, Except.bind, hend, hn]
    have hm : merged_children (items_rule j js) = (j :: js).map SetItem.rule := by
      cases js with
      | nil => exact merged_children_item j
      | cons k ks => rfl
    rw [(merge_behind_one _ _).1]
    simp only [pure, Except.pure, (merge_behind_one _ _).2, hm]
    rfl

theorem set_plain {n : Nat} {s : List Int} {r : Rule} {tail : List Int}
    (h : regex_parser_set_items n s false = .ok ⟨some r, ch ']' :: tail⟩)
    (hneg : character_at_str 0 s ≠ ch '^') :
    regex_parser_set n (ch '[' :: s) =
      .ok ⟨some (sequence_remove (.alternative r [])), tail⟩ := by
  have e1 : (ch '[' != ch '[') = false := by decide
  have e2 : (character_at_str 0 s == ch '^') = false := by simpa using hneg
  simp only [regex_parser_set, next_if_eq, character_at_str_zero_cons, e1, e2, h,
    beq_self_eq_true, bind, Except.bind, pure, Except.pure, Parsed.need, List.tail_cons,
    Bool.false_eq_true, if_false, if_true, Bool.not_true]

theorem set_negated {n : Nat} {s : List Int} {r : Rule} {tail : List Int}
    (h : regex_parser_set_items n s false = .ok ⟨some r, ch ']' :: tail⟩) :
    regex_parser_set n (ch '[' :: ch '^' :: s) =
      .ok ⟨some (sequence_remove (.alternative_not r [])), tail⟩ := by
  have e1 : (ch '[' != ch '[') = false := by decide
  simp only [regex_parser_set, next_if_eq, character_at_str_zero_cons, e1, h,
    beq_self_eq_true, bind, Except.bind, pure, Except.pure, Parsed.need, List.tail_cons,
    Bool.false_eq_true, if_false, if_true, Bool.not_true]

theorem alternative_of_items (i : SetItem) (is : List SetItem) :
    sequence_remove (.alternative (items_rule i is) []) =
        .alternative i.rule (is.map SetItem.rule) ∧
      sequence_remove (.alternative_not (items_rule i is) []) =
        .alternative_not i.rule (is.map SetItem.rule) := by
  cases is with
  | nil => cases i <;> exact ⟨rfl, rfl⟩
  | cons j js => exact ⟨rfl, rfl⟩

theorem basic_of_elementary_end {n : Nat} {str : List Int} {r : Rule}
    (h : regex_parser_elementary_re n str = .ok ⟨some r, []⟩) :
    regex_parser_basic_re (n + 1) str = .ok ⟨some r, []⟩ := by
  have e1 : ((0 : Int) == ch '*') = false := by decide
  have e2 : ((0 : Int) == ch '+') = false := by decide
  have e3 : ((0 : Int) == ch '?') = false := by decide
  rw [regex_parser_basic_re, h]
  simp only [bind, Except.bind, next_if_eq, Parsed.need, pure, Except.pure,
    character_at_str_nil, e1, e2, e3, Bool.false_eq_true, if_false]

/-- A pattern that is one set, and whose set parser reaches the end of the pattern,
compiles to the rule of the set. -/
theorem compiles_of_set {n : Nat} {s : List Int} {r : Rule}
    (h : regex_parser_set n (ch '[' :: s) = .ok ⟨some r, []⟩) :
    basic_regex (ch '[' :: s) = .ok r := by
  have h1 : regex_parser_elementary_re (n + 1) (ch '[' :: s) = .ok ⟨some r, []⟩ := by
    rw [elementary_set s n rfl, h]
  have h2 := simple_last (basic_of_elementary_end h1) (by decide)
  exact compiles_of_inner (inner_of_simple h2 (by rw [character_at_str_nil]; decide))
    (by rw [character_at_str_zero_cons]; decide) (by rw [character_at_str_zero_cons]; decide)

/-- C30: for well-formed items `i :: is`, the set "[" items "]" (the first item not
beginning with a bare '^') parses to `alternative` of the rules of the items
in the order written, and "[^" items "]" to `alternative_not` of them; the
rule of `x-y` is `range<x, y>` as written and that of a single character is
`val`; a set alone in the pattern compiles to that rule, and a set of one
item keeps `alternative` around it. -/
theorem set_compiles_to_alternative_of_items :
    (∀ (i : SetItem) (is : List SetItem) (tail : List Int),
      items_well_formed (i :: is) = true →
      (i.first.escaped = true ∨ i.first.value ≠ ch '^') →
      (∃ n, regex_parser_set n (ch '[' :: (items_text (i :: is) ++ ch ']' :: tail)) =
        .ok ⟨some (.alternative i.rule (is.map SetItem.rule)), tail⟩) ∧
      basic_regex (ch '[' :: (items_text (i :: is) ++ [ch ']'])) =
        .ok (.alternative i.rule (is.map SetItem.rule))) ∧
    (∀ (i : SetItem) (is : List SetItem) (tail : List Int),
      items_well_formed (i :: is) = true →
      (∃ n, regex_parser_set n (ch '[' :: ch '^' :: (items_text (i :: is) ++ ch ']' :: tail)) =
        .ok ⟨some (.alternative_not i.rule (is.map SetItem.rule)), tail⟩) ∧
      basic_regex (ch '[' :: ch '^' :: (items_text (i :: is) ++ [ch ']'])) =
        .ok (.alternative_not i.rule (is.map SetItem.rule))) ∧
    basic_regex (chars "[a-z]") = .ok (.alternative (.range (ch 'a') (ch 'z')) []) ∧
    basic_regex (chars "[z-a]") = .ok (.alternative (.range (ch 'z') (ch 'a')) []) ∧
    basic_regex (chars "[a-z0-9]") =
      .ok (.alternative (.range (ch 'a') (ch 'z')) [.range (ch '0') (ch '9')]) ∧
    basic_regex (chars "[^abc]") =
      .ok (.alternative_not (.val (ch 'a')) [.val (ch 'b'), .val (ch 'c')]) := by
  have hplain : ∀ (i : SetItem) (is : List SetItem) (tail : List Int),
      items_well_formed (i :: is) = true →
      (i.first.escaped = true ∨ i.first.value ≠ ch '^') →
      ∃ n, regex_parser_set n (ch '[' :: (items_text (i :: is) ++ ch ']' :: tail)) =
        .ok ⟨some (.alternative i.rule (is.map SetItem.rule)), tail⟩ := by
    intro i is tail hw hfirst
    obtain ⟨n, hn⟩ := set_items_text is i tail hw
    refine ⟨n, ?_⟩
    rw [set_plain hn, (alternative_of_items i is).1]
    have et : items_text (i :: is) ++ ch ']' :: tail =
        i.text ++ (items_text is ++ ch ']' :: tail) := by simp [items_text]
    rw [et, first_of_text]
    have hb : ch '\\' ≠ ch '^' := by decide
    rcases hfirst with he | hv
    · rw [he]
      simpa using hb
    · cases he : i.first.escaped
      · simpa using hv
      · simpa using hb
  have hneg : ∀ (i : SetItem) (is : List SetItem) (tail : List Int),
      items_well_formed (i :: is) = true →
      ∃ n, regex_parser_set n (ch '[' :: ch '^' :: (items_text (i :: is) ++ ch ']' :: tail)) =
        .ok ⟨some (.alternative_not i.rule (is.map SetItem.rule)), tail⟩ := by
    intro i is tail hw
    obtain ⟨n, hn⟩ := set_items_text is i tail hw
    exact ⟨n, by rw [set_negated hn, (alternative_of_items i is).2]⟩
  refine ⟨fun i is tail hw hfirst => ⟨hplain i is tail hw hfirst, ?_⟩,
    fun i is tail hw => ⟨hneg i is tail hw, ?_⟩, ?_, ?_, ?_, ?_⟩
  · obtain ⟨n, hn⟩ := hplain i is [] hw hfirst
    exact compiles_of_set hn
  · obtain ⟨n, hn⟩ := hneg i is [] hw
    exact compiles_of_set hn
  all_goals
    apply @compiles_of_fuel _ _ 20
    simp [chars, regex_parser_re, inner_re_false, inner_re_end, simple_re_false, simple_re_end,
      regex_parser_basic_re, elementary_set, regex_parser_set, set_items_false, set_items_end,
      regex_parser_set_item, char_cons_ne, next_if_eq, character_at_str_zero_cons,
      character_at_str_nil, sequence_merge, sequence_remove, Parsed.need, ch, bind,
      Except.bind, pure, Except.pure]

/-- C30, witness: the set "[a-z]" with its one item `a-z`, with and without '^'. -/
theorem set_compiles_to_alternative_of_items_witness :
    items_well_formed [.range ⟨false, ch 'a'⟩ ⟨false, ch 'z'⟩] = true ∧
      ((⟨false, ch 'a'⟩ : SetChar).escaped = true ∨ (⟨false, ch 'a'⟩ : SetChar).value ≠ ch '^') ∧
      basic_regex (chars "[a-z]") = .ok (.alternative (.range (ch 'a') (ch 'z')) []) ∧
      basic_regex (chars "[^a-z]") = .ok (.alternative_not (.range (ch 'a') (ch 'z')) []) :=
  ⟨by decide, Or.inr (by decide),
    (set_compiles_to_alternative_of_items.1 (.range ⟨false, ch 'a'⟩ ⟨false, ch 'z'⟩) [] []
      (by decide) (Or.inr (by decide))).2,
    (set_compiles_to_alternative_of_items.2.1 (.range ⟨false, ch 'a'⟩ ⟨false, ch 'z'⟩) [] []
      (by decide)).2⟩

/-! ## Anchors, groups and text after the pattern -/

theorem compiles_of_inner_anchored {n : Nat} {s : List Int} {r : Rule} {rest : List Int}
    (h : regex_parser_inner_re n s false = .ok ⟨some r, rest⟩) :
    basic_regex (ch '^' :: s) =
      .ok (if character_at_str 0 rest = ch '$' then .begin_end r else .begin r) := by
  apply @compiles_of_fuel _ _ n
  rw [regex_parser_re]
  have e0 : (ch '^' == (0 : Int)) = false := by decide
  simp only [character_at_str_zero_cons, e0, next_if_eq, beq_self_eq_true, h, bind,
    Except.bind, Parsed.need, pure, Except.pure, Bool.false_eq_true, if_false, if_true,
    List.tail_cons, beq_iff_eq]

theorem compiles_of_inner_plain {n : Nat} {str : List Int} {r : Rule} {rest : List Int}
    (h0 : character_at_str 0 str ≠ 0) (hb : character_at_str 0 str ≠ ch '^')
    (h : regex_parser_inner_re n str false = .ok ⟨some r, rest⟩) :
    basic_regex str = .ok (if character_at_str 0 rest = ch '$' then .end_ r else r) := by
  apply @compiles_of_fuel _ _ n
  rw [regex_parser_re]
  have e0 : (character_at_str 0 str == 0) = false := by simpa using h0
  have eb : (character_at_str 0 str == ch '^') = false := by simpa using hb
  simp only [e0, eb, next_if_eq, h, bind, Except.bind, Parsed.need, pure, Except.pure,
    Bool.false_eq_true, if_false, beq_iff_eq]

/-- C31: with `r` the rule of the inner-RE and `rest` the text it leaves, a pattern
that begins with '^' compiles to `begin_end<r>` when `rest` begins with '$' and
to `begin<r>` otherwise; a pattern that does not begin with '^' compiles to
`end<r>` when `rest` begins with '$' and to `r` otherwise.  A '^' elsewhere is
the character: the elementary-RE parser gives `val<'^'>` for it. -/
theorem anchors_wrap_the_inner_rule :
    (∀ (n : Nat) (s : List Int) (r : Rule) (rest : List Int),
      regex_parser_inner_re n s false = .ok ⟨some r, rest⟩ →
      basic_regex (ch '^' :: s) =
        .ok (if character_at_str 0 rest = ch '$' then .begin_end r else .begin r)) ∧
    (∀ (n : Nat) (str : List Int) (r : Rule) (rest : List Int),
      character_at_str 0 str ≠ 0 → character_at_str 0 str ≠ ch '^' →
      regex_parser_inner_re n str false = .ok ⟨some r, rest⟩ →
      basic_regex str = .ok (if character_at_str 0 rest = ch '$' then .end_ r else r)) ∧
    (∀ (n : Nat) (cs : List Int),
      regex_parser_elementary_re (n + 1) (ch '^' :: cs) = .ok ⟨some (.val (ch '^')), cs⟩) ∧
    basic_regex (chars "^a$") = .ok (.begin_end (.val (ch 'a'))) ∧
    basic_regex (chars "^a") = .ok (.begin (.val (ch 'a'))) ∧
    basic_regex (chars "a$") = .ok (.end_ (.val (ch 'a'))) ∧
    basic_regex (chars "a") = .ok (.val (ch 'a')) ∧
    basic_regex (chars "a^") = .ok (.sequence (.val (ch 'a')) [.val (ch '^')]) ∧
    basic_regex (chars "^a^b$") =
      .ok (.begin_end (.sequence (.val (ch 'a')) [.val (ch '^'), .val (ch 'b')])) := by
  refine ⟨fun n s r rest h => compiles_of_inner_anchored h,
    fun n str r rest h0 hb h => compiles_of_inner_plain h0 hb h, ?_, ?_, ?_, ?_, ?_, ?_, ?_⟩
  · intro n cs
    rw [elementary_char _ n (by rw [character_at_str_zero_cons]; decide)
      (by rw [character_at_str_zero_cons]; decide) (by rw [character_at_str_zero_cons]; decide),
      char_cons_ne cs (by decide)]
    rfl
  all_goals
    apply @compiles_of_fuel _ _ 20
    simp [chars, regex_parser_re, inner_re_false, inner_re_end, simple_re_false, simple_re_end,
      regex_parser_basic_re, elementary_char, char_cons_ne, next_if_eq,
      character_at_str_zero_cons, character_at_str_nil, sequence_merge, sequence_remove,
      Parsed.need, ch, bind, Except.bind, pure, Except.pure]

/-- C31, witness: the inner-RE "a" of the patterns "^a$" and "a$" leaves "$". -/
theorem anchors_wrap_the_inner_rule_witness :
    regex_parser_inner_re 6 (chars "a$") false = .ok ⟨some (.val (ch 'a')), chars "$"⟩ ∧
      character_at_str 0 (chars "a$") ≠ 0 ∧ character_at_str 0 (chars "a$") ≠ ch '^' ∧
      basic_regex (chars "^a$") = .ok (.begin_end (.val (ch 'a'))) ∧
      basic_regex (chars "a$") = .ok (.end_ (.val (ch 'a'))) := by
  have h : regex_parser_inner_re 6 (chars "a$") false =
      .ok ⟨some (.val (ch 'a')), chars "$"⟩ := by
    simp [chars, inner_re_false, inner_re_end, simple_re_false, simple_re_end,
      regex_parser_basic_re, elementary_char, char_cons_ne, next_if_eq,
      character_at_str_zero_cons, character_at_str_nil, sequence_merge, sequence_remove,
      Parsed.need, ch, bind, Except.bind, pure, Except.pure]
  exact ⟨h, by decide, by decide,
    anchors_wrap_the_inner_rule.1 6 (chars "a$") _ _ h,
    anchors_wrap_the_inner_rule.2.1 6 (chars "a$") _ _ (by decide) (by decide) h⟩

theorem group_of_inner {n : Nat} {s : List Int} {rule : Option Rule} {tail : List Int}
    (h : regex_parser_inner_re n s false = .ok ⟨rule, ch ')' :: tail⟩) :
    regex_parser_group (n + 1) (ch '(' :: s) = .ok ⟨rule, tail⟩ := by
  rw [regex_parser_group]
  simp only [next_if_eq, character_at_str_zero_cons, beq_self_eq_true, h, bind, Except.bind,
    pure, Except.pure, if_true, List.tail_cons, Bool.not_true, Bool.false_eq_true, if_false]

/-- C32: when the inner-RE parser gives the rule `rule` for the text behind '(' and
stops at ')', the group parser (and the elementary-RE parser on the group)
gives exactly `rule`, and hands on the text after ')'.  So "(a)" compiles like
"a" and "(ab)" like "ab", and in "(ab)c" and "(a)b" the text after the group
is parsed. -/
theorem group_has_the_rule_of_its_inner_re :
    (∀ (n : Nat) (s : List Int) (rule : Option Rule) (tail : List Int),
      regex_parser_inner_re n s false = .ok ⟨rule, ch ')' :: tail⟩ →
      regex_parser_group (n + 1) (ch '(' :: s) = .ok ⟨rule, tail⟩ ∧
      regex_parser_elementary_re (n + 2) (ch '(' :: s) = .ok ⟨rule, tail⟩) ∧
    basic_regex (chars "(a)") = .ok (.val (ch 'a')) ∧
    basic_regex (chars "a") = .ok (.val (ch 'a')) ∧
    basic_regex (chars "(ab)") = .ok (.sequence (.val (ch 'a')) [.val (ch 'b')]) ∧
    basic_regex (chars "ab") = .ok (.sequence (.val (ch 'a')) [.val (ch 'b')]) ∧
    basic_regex (chars "(ab)c") =
      .ok (.sequence (.sequence (.val (ch 'a')) [.val (ch 'b')]) [.val (ch 'c')]) ∧
    basic_regex (chars "(a)b") = .ok (.sequence (.val (ch 'a')) [.val (ch 'b')]) ∧
    basic_regex (chars "((a))*") = .ok (.repeat_optional (.val (ch 'a'))) := by
  refine ⟨fun n s rule tail h => ⟨group_of_inner h, ?_⟩, ?_, ?_, ?_, ?_, ?_, ?_, ?_⟩
  · rw [elementary_group s (n + 1) rfl, group_of_inner h]
  all_goals
    apply @compiles_of_fuel _ _ 30
    simp [chars, regex_parser_re, inner_re_false, inner_re_end, simple_re_false, simple_re_end,
      regex_parser_basic_re, elementary_char, elementary_group, regex_parser_group,
      char_cons_ne, next_if_eq, character_at_str_zero_cons, character_at_str_nil,
      sequence_merge, sequence_remove, Parsed.need, ch, bind, Except.bind, pure, Except.pure]

/-- C32, witness: the group "(ab)" followed by "c". -/
theorem group_has_the_rule_of_its_inner_re_witness :
    regex_parser_inner_re 9 (chars "ab)c") false =
        .ok ⟨some (.sequence (.val (ch 'a')) [.val (ch 'b')]), chars ")c"⟩ ∧
      regex_parser_group 10 (chars "(ab)c") =
        .ok ⟨some (.sequence (.val (ch 'a')) [.val (ch 'b')]), chars "c"⟩ := by
  have h : regex_parser_inner_re 9 (chars "ab)c") false =
      .ok ⟨some (.sequence (.val (ch 'a')) [.val (ch 'b')]), chars ")c"⟩ := by
    simp [chars, inner_re_false, inner_re_end, simple_re_false, simple_re_end,
      regex_parser_basic_re, elementary_char, char_cons_ne, next_if_eq,
      character_at_str_zero_cons, character_at_str_nil, sequence_merge, sequence_remove,
      Parsed.need, ch, bind, Except.bind, pure, Except.pure]
  exact ⟨h, (group_has_the_rule_of_its_inner_re.1 9 (chars "ab)c") _ (chars "c") h).1⟩

/-- C40: for every text `q`, the pattern "a$" followed by `q` compiles to
`end<val a>`, which is what "a$" compiles to, and the pattern "a)" followed by
`q` compiles to `val a`, which is what "a" compiles to: the text behind the
'$' and behind the unmatched ')' is never looked at. -/
theorem text_after_the_pattern_is_ignored :
    (∀ q : List Int, basic_regex (chars "a$" ++ q) = .ok (.end_ (.val (ch 'a')))) ∧
    basic_regex (chars "a$") = .ok (.end_ (.val (ch 'a'))) ∧
    (∀ q : List Int, basic_regex (chars "a)" ++ q) = .ok (.val (ch 'a'))) ∧
    basic_regex (chars "a") = .ok (.val (ch 'a')) ∧
    basic_regex (chars "a$[") = .ok (.end_ (.val (ch 'a'))) ∧
    basic_regex (chars "a)(") = .ok (.val (ch 'a')) := by
  have h1 : ∀ q : List Int, basic_regex (chars "a$" ++ q) = .ok (.end_ (.val (ch 'a'))) := by
    intro q
    apply @compiles_of_fuel _ _ 20
    simp [chars, regex_parser_re, inner_re_false, inner_re_end, simple_re_false, simple_re_end,
      regex_parser_basic_re, elementary_char, char_cons_ne, next_if_eq,
      character_at_str_zero_cons, character_at_str_nil, sequence_merge, sequence_remove,
      Parsed.need, ch, bind, Except.bind, pure, Except.pure]
  have h2 : ∀ q : List Int, basic_regex (chars "a)" ++ q) = .ok (.val (ch 'a')) := by
    intro q
    apply @compiles_of_fuel _ _ 20
    simp [chars, regex_parser_re, inner_re_false, inner_re_end, simple_re_false, simple_re_end,
      regex_parser_basic_re, elementary_char, char_cons_ne, next_if_eq,
      character_at_str_zero_cons, character_at_str_nil, sequence_merge, sequence_remove,
      Parsed.need, ch, bind, Except.bind, pure, Except.pure]
  refine ⟨h1, ?_, h2, ?_, h1 (chars "["), h2 (chars "(")⟩
  · have := h1 []
    rwa [List.append_nil] at this
  · apply @compiles_of_fuel _ _ 20
    simp [chars, regex_parser_re, inner_re_false, inner_re_end, simple_re_false, simple_re_end,
      regex_parser_basic_re, elementary_char, char_cons_ne, next_if_eq,
      character_at_str_zero_cons, character_at_str_nil, sequence_merge, sequence_remove,
      Parsed.need, ch, bind, Except.bind, pure, Except.pure]

/-! ## The predefined rule for line ends -/

/-- C37: on every input `T` the rule `newline_multiplatform` returns; it returns
true exactly when `T` begins with '\n' or '\r'; the iterator is then at 2 when
`T` begins with "\r\n" and at 1 otherwise, and it stays at 0 when the rule
returns false.  On "\n", "\r" and "\r\n" the iterator ends at the end. -/
theorem newline_multiplatform_takes_one_line_end :
    (∀ T : List Int,
      Returns newline_multiplatform T 0
        (decide (T.head? = some (ch '\n') ∨ T.head? = some (ch '\r')))
        (if T.take 2 = [ch '\r', ch '\n'] then 2
         else if T.head? = some (ch '\n') ∨ T.head? = some (ch '\r') then 1 else 0)) ∧
    run 8 newline_multiplatform (chars "\n") 0 = some (true, (chars "\n").length) ∧
    run 8 newline_multiplatform (chars "\r") 0 = some (true, (chars "\r").length) ∧
    run 8 newline_multiplatform (chars "\r\n") 0 = some (true, (chars "\r\n").length) := by
  refine ⟨fun T => ?_, by decide, by decide, by decide⟩
  have hn := isClass_val (ch '\n')
  have hr := isClass_val (ch '\r')
  have hne : ch '\n' ≠ ch '\r' := by decide
  rw [newline_multiplatform, returns_alternative_cons]
  cases T with
  | nil =>
    refine Or.inr ⟨0, (isClass_false hn).2 ⟨by decide, rfl⟩, returns_alternative_one.2
      (returns_sequence_cons.2 (Or.inl ⟨by simp, ?_⟩))⟩
    simpa using (isClass_false hr).2 ⟨by decide, rfl⟩
  | cons x xs =>
    have hd : deref (x :: xs) 0 = x := rfl
    by_cases hx : x = ch '\n'
    · subst hx
      refine Or.inl ⟨by simp, ?_⟩
      have h := (@isClass_true _ _ hn (ch '\n' :: xs) 0 1).2
        ⟨by rw [hd]; simp [val_is], rfl⟩
      have e : (ch '\n' :: xs).take 2 ≠ [ch '\r', ch '\n'] := by
        intro h2
        cases xs with
        | nil => simp at h2
        | cons y ys =>
          simp at h2
          exact hne h2.1
      simpa [e] using h
    · have h1 : Returns (.val (ch '\n')) (x :: xs) 0 false 0 :=
        (isClass_false hn).2 ⟨by rw [hd]; simp [val_is, hx], rfl⟩
      refine Or.inr ⟨0, h1, returns_alternative_one.2 ?_⟩
      by_cases hxr : x = ch '\r'
      · subst hxr
        have h2 : Returns (.val (ch '\r')) (ch '\r' :: xs) 0 true 1 :=
          (isClass_true hr).2 ⟨by rw [hd]; simp [val_is], rfl⟩
        have hopt := isClass_val (ch '\n') (ch '\r' :: xs) 1
        have hd1 : deref (ch '\r' :: xs) 1 = xs.headD 0 := by
          cases xs <;> rfl
        rw [hd1] at hopt
        have hq : (if (ch '\r' :: xs).take 2 = [ch '\r', ch '\n'] then 2
            else if (ch '\r' :: xs).head? = some (ch '\n') ∨
              (ch '\r' :: xs).head? = some (ch '\r') then 1 else 0) =
            (if val_is (ch '\n') (xs.headD 0) = true then 1 + 1 else 1) := by
          cases xs with
          | nil => simp [val_is, ch]
          | cons y ys =>
            by_cases hy : y = ch '\n'
            · simp [val_is, hy]
            · simp [val_is, hy]
        rw [hq]
        refine returns_sequence_cons.2 (Or.inr ⟨1, ?_, returns_sequence_one.2
          (returns_optional.2 ⟨?_, _, hopt⟩)⟩)
        · simpa using h2
        · simp
      · have h2 : Returns (.val (ch '\r')) (x :: xs) 0 false 0 :=
          (isClass_false hr).2 ⟨by rw [hd]; simp [val_is, hxr], rfl⟩
        have e : (x :: xs).take 2 ≠ [ch '\r', ch '\n'] := by
          intro h3
          cases xs with
          | nil => simp at h3
          | cons y ys =>
            simp at h3
            exact hxr h3.1
        refine returns_sequence_cons.2 (Or.inl ⟨by simp [hx, hxr], ?_⟩)
        simpa [e, hx, hxr] using h2

/-! ## Properties kept by every parser -/

theorem sat_ok {α : Type} {P : α → Prop} {E : CompileError → Prop} {a : α} (h : P a) :
    Sat P E (.ok a) := h

theorem sat_error {α : Type} {P : α → Prop} {E : CompileError → Prop} {e : CompileError}
    (h : E e) : Sat P E (.error e : Except CompileError α) := h

theorem sat_bind {α β : Type} {P : α → Prop} {S : β → Prop} {E : CompileError → Prop}
    {x : Except CompileError α} {f : α → Except CompileError β}
    (hx : Sat P E x) (hf : ∀ a, P a → Sat S E (f a)) : Sat S E (x >>= f) := by
  cases x with
  | error e => exact hx
  | ok a => exact hf a hx

theorem sat_ite {α : Type} {P : α → Prop} {E : CompileError → Prop} {c : Prop} [Decidable c]
    {x y : Except CompileError α} (hx : Sat P E x) (hy : Sat P E y) :
    Sat P E (if c then x else y) := by
  by_cases h : c
  · simpa only [h, if_true] using hx
  · simpa only [h, if_false] using hy

theorem sat_of_ok {α : Type} {P : α → Prop} {E : CompileError → Prop}
    {x : Except CompileError α} {a : α} (h : Sat P E x) (hx : x = .ok a) : P a := by
  rw [hx] at h
  exact h

theorem sat_of_error {α : Type} {P : α → Prop} {E : CompileError → Prop}
    {x : Except CompileError α} {e : CompileError} (h : Sat P E x) (hx : x = .error e) :
    E e := by
  rw [hx] at h
  exact h

theorem rest_str_sat {Q : List Int → Prop} {E : CompileError → Prop}
    (hQ : ∀ c cs, Q (c :: cs) → Q cs) (hE : ∀ e, e ≠ .string_cannot_be_empty → E e)
    (str : List Int) : ∀ n, Q str → Sat Q E (basic_string_builder_rest_str n str) := by
  induction str with
  | nil =>
    intro n h
    rw [basic_string_builder_rest_str]
    exact h
  | cons c cs ih =>
    intro n h
    rw [basic_string_builder_rest_str]
    refine sat_ite (sat_ite (ih _ (hQ c cs h)) h) (sat_error (hE _ (by simp)))

theorem next_if_sat {Q : List Int → Prop} {E : CompileError → Prop}
    (hQ : ∀ c cs, Q (c :: cs) → Q cs) (str : List Int) (x : Int) (h : Q str) :
    Sat (fun r : Bool × List Int => Q r.2) E (regex_parser_next_if str x) := by
  rw [next_if_eq]
  refine sat_ok ?_
  by_cases hc : (character_at_str 0 str == x) = true
  · simp only [hc, if_true]
    cases str with
    | nil => exact h
    | cons c cs => exact hQ c cs h
  · simp only [hc, if_false]
    exact h

theorem char_sat {Q : List Int → Prop} {E : CompileError → Prop}
    (hQ : ∀ c cs, Q (c :: cs) → Q cs) (hE : ∀ e, e ≠ .string_cannot_be_empty → E e)
    (str : List Int) (h : Q str) :
    Sat (fun r : Int × List Int => Q r.2) E (regex_parser_char str) := by
  rw [regex_parser_char]
  exact sat_bind (rest_str_sat hQ hE str _ h) (fun a ha => sat_ok ha)

theorem set_item_sat {Q : List Int → Prop} {R : Rule → Prop} {E : CompileError → Prop}
    (hQ : ∀ c cs, Q (c :: cs) → Q cs) (hE : ∀ e, e ≠ .string_cannot_be_empty → E e)
    (hval : ∀ c, R (.val c)) (hrange : ∀ a b, R (.range a b))
    (str : List Int) (h : Q str) :
    Sat (fun r : Rule × List Int => R r.1 ∧ Q r.2) E (regex_parser_set_item str) := by
  rw [regex_parser_set_item]
  refine sat_bind (char_sat hQ hE str h) (fun char1 h1 => ?_)
  refine sat_bind (next_if_sat hQ _ _ h1) (fun dash h2 => ?_)
  refine sat_bind (char_sat hQ hE _ h2) (fun char2 h3 => sat_ok ?_)
  by_cases hd : dash.1 = true
  · simp only [hd, if_true]
    exact ⟨hrange _ _, h3⟩
  · simp only [hd, if_false]
    exact ⟨hval _, h1⟩

theorem merge_sat {R : Rule → Prop} {E : CompileError → Prop}
    (hmerge : ∀ r r2, R r → R r2 → R (.sequence r (merged_children r2)))
    (rule : Rule) (next : Option Rule) (hr : R rule) (hn : ∀ r, next = some r → R r) :
    Sat (fun m => R (sequence_remove m)) E (sequence_merge (some (.sequence rule [])) next) := by
  cases next with
  | none =>
    rw [merge_void]
    exact sat_ok hr
  | some r2 =>
    rw [(merge_behind_one rule r2).1]
    refine sat_ok ?_
    show R (sequence_remove (.sequence rule (merged_children r2)))
    rw [(merge_behind_one rule r2).2]
    exact hmerge _ _ hr (hn r2 rfl)

theorem need_sat {Q : List Int → Prop} {R : Rule → Prop} {E : CompileError → Prop}
    (hE : ∀ e, e ≠ .string_cannot_be_empty → E e) (p : Parsed) (h : p.good Q R) :
    Sat R E p.need := by
  rw [Parsed.need]
  cases hr : p.rule with
  | none => exact sat_error (hE _ (by simp))
  | some r => exact sat_ok (h.2 r hr)

theorem set_items_sat {Q : List Int → Prop} {R : Rule → Prop} {E : CompileError → Prop}
    (hQ : ∀ c cs, Q (c :: cs) → Q cs) (hE : ∀ e, e ≠ .string_cannot_be_empty → E e)
    (hval : ∀ c, R (.val c)) (hrange : ∀ a b, R (.range a b))
    (hmerge : ∀ r r2, R r → R r2 → R (.sequence r (merged_children r2))) (n : Nat) :
    ∀ (str : List Int) (e : Bool), Q str →
      Sat (Parsed.good Q R) E (regex_parser_set_items n str e) := by
  induction n with
  | zero =>
    intro str e _
    rw [regex_parser_set_items]
    exact sat_error (hE _ (by simp))
  | succ n ih =>
    intro str e h
    rw [regex_parser_set_items]
    refine sat_ite (sat_ok ⟨h, fun r hr => by simp at hr⟩) ?_
    refine sat_bind (set_item_sat hQ hE hval hrange str h) (fun item hi => ?_)
    refine sat_bind (ih _ _ hi.2) (fun next hn => ?_)
    refine sat_bind (merge_sat hmerge item.1 next.rule hi.1 hn.2) (fun merged hm => ?_)
    exact sat_ok ⟨hn.1, fun r hr => by
      simp only [Option.some.injEq] at hr
      rw [← hr]
      exact hm⟩

theorem set_sat {Q : List Int → Prop} {R : Rule → Prop} {E : CompileError → Prop}
    (hQ : ∀ c cs, Q (c :: cs) → Q cs) (hE : ∀ e, e ≠ .string_cannot_be_empty → E e)
    (hval : ∀ c, R (.val c)) (hrange : ∀ a b, R (.range a b))
    (hmerge : ∀ r r2, R r → R r2 → R (.sequence r (merged_children r2)))
    (halt : ∀ r, R r → R (sequence_remove (.alternative r [])) ∧
      R (sequence_remove (.alternative_not r [])))
    (n : Nat) (str : List Int) (h : Q str) :
    Sat (Parsed.good Q R) E (regex_parser_set n str) := by
  unfold regex_parser_set
  dsimp only []
  have hjp : ∀ y : PUnit, Sat (Parsed.good Q R) E (do
      let open_ ← regex_parser_next_if str (ch '[')
      let neg ← regex_parser_next_if open_.2 (ch '^')
      let items ← regex_parser_set_items n neg.2 false
      let close ← regex_parser_next_if items.rest (ch ']')
      let __do_jp : PUnit → Except CompileError Parsed := fun _ => do
        let rule ← items.need
        pure ⟨some (if neg.1 = true then sequence_remove (.alternative_not rule [])
          else sequence_remove (.alternative rule [])), close.2⟩
      if (!close.1) = true then do
        let y ← throw CompileError.missing_close_square
        __do_jp y
      else do
        let y ← pure PUnit.unit
        __do_jp y) := by
    intro _
    refine sat_bind (next_if_sat hQ _ _ h) (fun open_ ho => ?_)
    refine sat_bind (next_if_sat hQ _ _ ho) (fun neg hn => ?_)
    refine sat_bind (set_items_sat hQ hE hval hrange hmerge n _ _ hn) (fun items hi => ?_)
    refine sat_bind (next_if_sat hQ _ _ hi.1) (fun close hc => ?_)
    dsimp only []
    refine sat_ite (sat_bind (P := fun _ => True) (sat_error (hE _ (by simp))) ?_)
      (sat_bind (P := fun _ => True) (sat_ok trivial) ?_)
    all_goals
      intro _ _
      refine sat_bind (need_sat hE items hi) (fun rule hr => sat_ok ⟨hc, fun r hr2 => ?_⟩)
      simp only [Option.some.injEq] at hr2
      rw [← hr2]
      by_cases hneg : neg.1 = true
      · simp only [hneg, if_true]
        exact (halt rule hr).2
      · simp only [hneg, if_false]
        exact (halt rule hr).1
  exact sat_ite (sat_bind (P := fun _ => True) (sat_error (hE _ (by simp))) (fun y _ => hjp y))
    (sat_bind (P := fun _ => True) (sat_ok trivial) (fun y _ => hjp y))

/-- Every parser keeps a property `Q` of the text that tails keep, gives only rules
with a property `R` that the rule constructors of the parser keep, and fails
only with errors other than that of the empty pattern. -/
theorem parser_sat {Q : List Int → Prop} {R : Rule → Prop} {E : CompileError → Prop}
    (hQ : ∀ c cs, Q (c :: cs) → Q cs) (hE : ∀ e, e ≠ .string_cannot_be_empty → E e)
    (hval : ∀ c, R (.val c)) (hrange : ∀ a b, R (.range a b)) (hany : R .any)
    (hwrap : ∀ r, R r → R (.repeat_optional r) ∧ R (.repeat_ r) ∧ R (.optional r))
    (hmerge : ∀ r r2, R r → R r2 → R (.sequence r (merged_children r2)))
    (halt : ∀ r, R r → R (sequence_remove (.alternative r [])) ∧
      R (sequence_remove (.alternative_not r [])))
    (n : Nat) :
    (∀ str, Q str → Sat (Parsed.good Q R) E (regex_parser_group n str)) ∧
    (∀ str, Q str → Sat (Parsed.good Q R) E (regex_parser_elementary_re n str)) ∧
    (∀ str, Q str → Sat (Parsed.good Q R) E (regex_parser_basic_re n str)) ∧
    (∀ str e, Q str → Sat (Parsed.good Q R) E (regex_parser_simple_re n str e)) ∧
    (∀ str e, Q str → Sat (Parsed.good Q R) E (regex_parser_inner_re n str e)) := by
  induction n with
  | zero =>
    refine ⟨?_, ?_, ?_, ?_, ?_⟩
    · intro str _; rw [regex_parser_group]; exact sat_error (hE _ (by simp))
    · intro str _; rw [regex_parser_elementary_re]; exact sat_error (hE _ (by simp))
    · intro str _; rw [regex_parser_basic_re]; exact sat_error (hE _ (by simp))
    · intro str e _; rw [regex_parser_simple_re]; exact sat_error (hE _ (by simp))
    · intro str e _; rw [regex_parser_inner_re]; exact sat_error (hE _ (by simp))
  | succ n ih =>
    obtain ⟨ihg, ihe, ihb, ihs, ihi⟩ := ih
    refine ⟨?_, ?_, ?_, ?_, ?_⟩
    · intro str h
      rw [regex_parser_group]
      dsimp only []
      refine sat_bind (next_if_sat hQ _ _ h) (fun open_ ho => ?_)
      refine sat_bind (ihi _ _ ho) (fun inner hi => ?_)
      refine sat_bind (next_if_sat hQ _ _ hi.1) (fun close hc => ?_)
      refine sat_ite (sat_bind (P := fun _ => True) (sat_error (hE _ (by simp)))
        (fun _ _ => ?_)) (sat_bind (P := fun _ => True) (sat_ok trivial) (fun _ _ => ?_))
      all_goals
        exact sat_ite (sat_bind (P := fun _ => True) (sat_error (hE _ (by simp)))
          (fun _ _ => sat_ok ⟨hc, hi.2⟩))
          (sat_bind (P := fun _ => True) (sat_ok trivial) (fun _ _ => sat_ok ⟨hc, hi.2⟩))
    · intro str h
      rw [regex_parser_elementary_re]
      dsimp only []
      refine sat_bind (next_if_sat hQ _ _ h) (fun is_any ha => ?_)
      refine sat_bind (next_if_sat hQ _ _ h) (fun is_group hg => ?_)
      refine sat_bind (next_if_sat hQ _ _ h) (fun is_set hs => ?_)
      have hjp : ∀ selected : Parsed, selected.good Q R →
          Sat (Parsed.good Q R) E
            (pure ⟨if is_any.1 = true then some Rule.any else selected.rule,
              if is_any.1 = true then is_any.2 else selected.rest⟩) := by
        intro selected hsel
        refine sat_ok ?_
        by_cases hb : is_any.1 = true
        · simp only [hb, if_true]
          exact ⟨ha, fun r hr => by
            simp only [Option.some.injEq] at hr
            rw [← hr]
            exact hany⟩
        · simp only [hb, if_false]
          exact hsel
      refine sat_ite (sat_bind (ihg _ h) hjp) (sat_ite
        (sat_bind (set_sat hQ hE hval hrange hmerge halt n str h) hjp) ?_)
      refine sat_bind (char_sat hQ hE str h) (fun c hc => ?_)
      refine sat_bind (P := Parsed.good Q R) (sat_ok ⟨hc, fun r hr => ?_⟩) hjp
      simp only [Option.some.injEq] at hr
      rw [← hr]
      exact hval _
    · intro str h
      rw [regex_parser_basic_re]
      refine sat_bind (ihe _ h) (fun elementary he => ?_)
      refine sat_bind (next_if_sat hQ _ _ he.1) (fun star hs => ?_)
      refine sat_bind (next_if_sat hQ _ _ he.1) (fun plus hp => ?_)
      refine sat_bind (next_if_sat hQ _ _ he.1) (fun question hq => ?_)
      refine sat_bind (need_sat hE elementary he) (fun rule hr => sat_ok ⟨?_, fun r hr2 => ?_⟩)
      · by_cases h1 : star.1 = true
        · simp only [h1, if_true]; exact hs
        · by_cases h2 : plus.1 = true
          · simp only [h1, h2, if_true, if_false]; exact hp
          · by_cases h3 : question.1 = true
            · simp only [h1, h2, h3, if_true, if_false]; exact hq
            · simp only [h1, h2, h3, if_false]; exact he.1
      · simp only [Option.some.injEq] at hr2
        rw [← hr2]
        by_cases h1 : star.1 = true
        · simp only [h1, if_true]; exact (hwrap rule hr).1
        · by_cases h2 : plus.1 = true
          · simp only [h1, h2, if_true, if_false]; exact (hwrap rule hr).2.1
          · by_cases h3 : question.1 = true
            · simp only [h1, h2, h3, if_true, if_false]; exact (hwrap rule hr).2.2
            · simp only [h1, h2, h3, if_false]; exact hr
    · intro str e h
      rw [regex_parser_simple_re]
      refine sat_ite (sat_ok ⟨h, fun r hr => by simp at hr⟩) ?_
      refine sat_bind (ihb _ h) (fun item hi => ?_)
      refine sat_bind (ihs _ _ hi.1) (fun next hn => ?_)
      refine sat_bind (need_sat hE item hi) (fun rule hr => ?_)
      refine sat_bind (merge_sat hmerge rule next.rule hr hn.2) (fun merged hm => ?_)
      exact sat_ok ⟨hn.1, fun r hr2 => by
        simp only [Option.some.injEq] at hr2
        rw [← hr2]
        exact hm⟩
    · intro str e h
      rw [regex_parser_inner_re]
      refine sat_ite (sat_ok ⟨h, fun r hr => by simp at hr⟩) ?_
      refine sat_bind (ihs _ _ h) (fun item hi => ?_)
      refine sat_bind (ihi _ _ hi.1) (fun next hn => ?_)
      refine sat_bind (need_sat hE item hi) (fun rule hr => ?_)
      refine sat_bind (merge_sat hmerge rule next.rule hr hn.2) (fun merged hm => ?_)
      exact sat_ok ⟨hn.1, fun r hr2 => by
        simp only [Option.some.injEq] at hr2
        rw [← hr2]
        exact hm⟩

theorem re_sat {Q : List Int → Prop} {R : Rule → Prop} {E : CompileError → Prop}
    (hQ : ∀ c cs, Q (c :: cs) → Q cs) (hE : ∀ e, e ≠ .string_cannot_be_empty → E e)
    (hval : ∀ c, R (.val c)) (hrange : ∀ a b, R (.range a b)) (hany : R .any)
    (hwrap : ∀ r, R r → R (.repeat_optional r) ∧ R (.repeat_ r) ∧ R (.optional r))
    (hmerge : ∀ r r2, R r → R r2 → R (.sequence r (merged_children r2)))
    (halt : ∀ r, R r → R (sequence_remove (.alternative r [])) ∧
      R (sequence_remove (.alternative_not r [])))
    (n : Nat) (str : List Int) (h0 : character_at_str 0 str ≠ 0) (h : Q str) :
    Sat (fun r => ∃ r0, R r0 ∧ (r = r0 ∨ r = .begin r0 ∨ r = .end_ r0 ∨ r = .begin_end r0)) E
      (regex_parser_re n str) := by
  unfold regex_parser_re
  dsimp only []
  have e0 : (character_at_str 0 str == 0) = false := by simpa using h0
  simp only [e0, Bool.false_eq_true, if_false]
  refine sat_bind (P := fun _ => True) (sat_ok trivial) (fun _ _ => ?_)
  refine sat_bind (next_if_sat hQ _ _ h) (fun begin_ hb => ?_)
  refine sat_bind ((parser_sat hQ hE hval hrange hany hwrap hmerge halt n).2.2.2.2 _ _ hb)
    (fun inner hi => ?_)
  refine sat_bind (next_if_sat (E := E) hQ _ (ch '$') hi.1) (fun end_ _ => ?_)
  refine sat_bind (need_sat hE inner hi) (fun rule hr => sat_ok ⟨rule, hr, ?_⟩)
  by_cases h1 : begin_.1 = true <;> by_cases h2 : end_.1 = true <;> simp [h1, h2]

/-- C33, as the code has it: the empty pattern fails with "String cannot be empty";
a pattern fails with that error exactly when the character at its first place
is the terminator 0, so no pattern that begins with another character fails
with it. -/
theorem empty_pattern_error_iff_first_is_terminator :
    basic_regex [] = .error .string_cannot_be_empty ∧
    (∀ str : List Int,
      basic_regex str = .error .string_cannot_be_empty ↔ character_at_str 0 str = 0) ∧
    (∀ (c : Int) (cs : List Int), c ≠ 0 →
      basic_regex (c :: cs) ≠ .error .string_cannot_be_empty) := by
  have hiff : ∀ str : List Int,
      basic_regex str = .error .string_cannot_be_empty ↔ character_at_str 0 str = 0 := by
    intro str
    constructor
    · intro h
      by_contra h0
      have hs := re_sat (Q := fun _ => True) (R := fun _ => True)
        (E := fun e => e ≠ .string_cannot_be_empty) (fun _ _ _ => trivial) (fun e he => he)
        (fun _ => trivial) (fun _ _ => trivial) trivial (fun _ _ => ⟨trivial, trivial, trivial⟩)
        (fun _ _ _ _ => trivial) (fun _ _ => ⟨trivial, trivial⟩) (5 * str.length + 8) str h0
        trivial
      exact sat_of_error hs h rfl
    · intro h0
      rw [basic_regex, regex_parser_re]
      simp [h0, throw, throwThe, MonadExceptOf.throw, bind, Except.bind]
  refine ⟨(hiff []).2 (character_at_str_nil 0), hiff, fun c cs hc h => ?_⟩
  have := (hiff (c :: cs)).1 h
  rw [character_at_str_zero_cons] at this
  exact hc this

/-- C33, counterexample: the pattern of the two characters 0 and 'a' is not empty
and fails with "String cannot be empty". -/
theorem pattern_beginning_with_terminator_is_rejected_as_empty :
    ([0, ch 'a'] : List Int) ≠ [] ∧
      basic_regex [0, ch 'a'] = .error .string_cannot_be_empty := by
  refine ⟨by simp, ?_⟩
  rw [basic_regex, regex_parser_re]
  simp [character_at_str, throw, throwThe, MonadExceptOf.throw, bind, Except.bind]

/-- C33, witness: the pattern "a". -/
theorem empty_pattern_error_iff_first_is_terminator_witness :
    ch 'a' ≠ 0 ∧ basic_regex (chars "a") ≠ .error .string_cannot_be_empty :=
  ⟨by decide, empty_pattern_error_iff_first_is_terminator.2.2 (ch 'a') [] (by decide)⟩

theorem plain_count (n : Nat) :
    (∀ r : Rule, sizeOf r ≤ n → r.is_plain = true → r.output_count = 0) ∧
    (∀ rs : List Rule, sizeOf rs ≤ n → all_plain rs = true → output_counter rs = 0) := by
  induction n with
  | zero =>
    constructor
    · intro r h
      cases r <;> simp at h
    · intro rs h
      cases rs <;> simp at h
  | succ n ih =>
    obtain ⟨ih1, ih2⟩ := ih
    constructor
    · intro r h hp
      cases r with
      | val _ => rfl
      | range _ _ => rfl
      | any => rfl
      | sequence a as =>
        simp only [Rule.sequence.sizeOf_spec] at h
        simp only [Rule.is_plain, Bool.and_eq_true] at hp
        rw [Rule.output_count, ih1 a (by omega) hp.1, ih2 as (by omega) hp.2]
      | alternative a as =>
        simp only [Rule.alternative.sizeOf_spec] at h
        simp only [Rule.is_plain, Bool.and_eq_true] at hp
        rw [Rule.output_count, ih1 a (by omega) hp.1]
      | alternative_not a as =>
        simp only [Rule.alternative_not.sizeOf_spec] at h
        simp only [Rule.is_plain, Bool.and_eq_true] at hp
        rw [Rule.output_count, ih1 a (by omega) hp.1]
      | repeat_ a =>
        simp only [Rule.repeat_.sizeOf_spec] at h
        simp only [Rule.is_plain] at hp
        rw [Rule.output_count, ih1 a (by omega) hp]
      | repeat_optional a =>
        simp only [Rule.repeat_optional.sizeOf_spec] at h
        simp only [Rule.is_plain] at hp
        rw [Rule.output_count, ih1 a (by omega) hp]
      | optional a =>
        simp only [Rule.optional.sizeOf_spec] at h
        simp only [Rule.is_plain] at hp
        rw [Rule.output_count, ih1 a (by omega) hp]
      | val_not _ => simp [Rule.is_plain] at hp
      | null_rule => simp [Rule.is_plain] at hp
      | capture _ => simp [Rule.is_plain] at hp
      | store _ _ => simp [Rule.is_plain] at hp
      | begin _ => simp [Rule.is_plain] at hp
      | end_ _ => simp [Rule.is_plain] at hp
      | begin_end _ => simp [Rule.is_plain] at hp
    · intro rs h hp
      cases rs with
      | nil => rfl
      | cons a as =>
        simp only [List.cons.sizeOf_spec] at h
        simp only [all_plain, Bool.and_eq_true] at hp
        rw [output_counter, ih1 a (by omega) hp.1, ih2 as (by omega) hp.2]

theorem plain_merge (r r2 : Rule) (h : r.is_plain = true) (h2 : r2.is_plain = true) :
    (Rule.sequence r (merged_children r2)).is_plain = true := by
  cases r2 <;> simp_all [Rule.is_plain, merged_children, all_plain]

theorem plain_alternative (r : Rule) (h : r.is_plain = true) :
    (sequence_remove (.alternative r [])).is_plain = true ∧
      (sequence_remove (.alternative_not r [])).is_plain = true := by
  cases r <;> simp_all [Rule.is_plain, sequence_remove, all_plain]

/-- C38: the rule of every pattern that compiles is a plain rule (built from `val`,
`range`, `any`, `sequence`, `alternative`, `alternative_not`, `repeat`,
`repeat_optional`, `optional` only), bare or inside one `begin`, `end` or
`begin_end`; its `output_count` is 0. -/
theorem compiled_rule_is_plain_under_one_anchor (str : List Int) (r : Rule)
    (h : basic_regex str = .ok r) :
    (∃ r0 : Rule, r0.is_plain = true ∧
      (r = r0 ∨ r = .begin r0 ∨ r = .end_ r0 ∨ r = .begin_end r0)) ∧
    r.output_count = 0 := by
  have h0 : character_at_str 0 str ≠ 0 := by
    intro hc
    have he : basic_regex str = .error .string_cannot_be_empty := by
      rw [basic_regex, regex_parser_re]
      simp [hc, throw, throwThe, MonadExceptOf.throw, bind, Except.bind]
    rw [h] at he
    cases he
  have hs := re_sat (Q := fun _ => True) (R := fun x => x.is_plain = true)
    (E := fun _ => True) (fun _ _ _ => trivial) (fun _ _ => trivial)
    (fun _ => rfl) (fun _ _ => rfl) rfl (fun _ hr => ⟨hr, hr, hr⟩)
    plain_merge plain_alternative (5 * str.length + 8) str h0 trivial
  obtain ⟨r0, hp, hr⟩ := sat_of_ok hs h
  refine ⟨⟨r0, hp, hr⟩, ?_⟩
  have hc := (plain_count (sizeOf r0)).1 r0 (Nat.le_refl _) hp
  rcases hr with rfl | rfl | rfl | rfl
  · exact hc
  · rw [Rule.output_count, hc]
  · rw [Rule.output_count, hc]
  · rw [Rule.output_count, hc]

/-- C38, witness: the pattern "^[a-z]+$". -/
theorem compiled_rule_is_plain_under_one_anchor_witness :
    basic_regex (chars "^[a-z]+$") =
        .ok (.begin_end (.repeat_ (.alternative (.range (ch 'a') (ch 'z')) []))) ∧
      (∃ r0 : Rule, r0.is_plain = true ∧
        (Rule.begin_end (.repeat_ (.alternative (.range (ch 'a') (ch 'z')) [])) = r0 ∨
         Rule.begin_end (.repeat_ (.alternative (.range (ch 'a') (ch 'z')) [])) = .begin r0 ∨
         Rule.begin_end (.repeat_ (.alternative (.range (ch 'a') (ch 'z')) [])) = .end_ r0 ∨
         Rule.begin_end (.repeat_ (.alternative (.range (ch 'a') (ch 'z')) [])) =
           .begin_end r0)) ∧
      (Rule.begin_end (.repeat_ (.alternative (.range (ch 'a') (ch 'z')) []))).output_count =
        0 := by
  have h : basic_regex (chars "^[a-z]+$") =
      .ok (.begin_end (.repeat_ (.alternative (.range (ch 'a') (ch 'z')) []))) := by
    apply @compiles_of_fuel _ _ 20
    simp [chars, regex_parser_re, inner_re_false, inner_re_end, simple_re_false, simple_re_end,
      regex_parser_basic_re, elementary_set, regex_parser_set, set_items_false, set_items_end,
      regex_parser_set_item, char_cons_ne, next_if_eq, character_at_str_zero_cons,
      character_at_str_nil, sequence_merge, sequence_remove, Parsed.need, ch, bind,
      Except.bind, pure, Except.pure]
  exact ⟨h, compiled_rule_is_plain_under_one_anchor _ _ h⟩

/-! ## Errors on the way to a parser call -/

/-- A result of the parser other than the exhausted budget is the result of
`basic_regex`. -/
theorem result_of_fuel {str : List Int} {x : Except CompileError Rule} {n : Nat}
    (h : regex_parser_re n str = x) (hx : x ≠ .error .depth_exceeded) : basic_regex str = x := by
  have hn : regex_parser_re n str ≠ .error .depth_exceeded := by rw [h]; exact hx
  rcases Nat.le_total n (5 * str.length + 8) with hle | hle
  · rw [basic_regex, stable_le (re_mono str) hn _ hle, h]
  · have e := stable_le (re_mono str) (basic_regex_budget_suffices str) n hle
    rw [basic_regex, ← e, h]

theorem call_mono (a : ParserCall) (k : Nat) (h : a.run k ≠ .error .depth_exceeded) :
    a.run (k + 1) = a.run k := by
  cases a with
  | set s => exact set_mono k s h
  | group s => exact (parser_mono k).1 s h
  | elementary s => exact (parser_mono k).2.1 s h
  | basic s => exact (parser_mono k).2.2.1 s h
  | simple s => exact (parser_mono k).2.2.2.1 s false h
  | inner s => exact (parser_mono k).2.2.2.2 s false h

theorem call_le {a : ParserCall} {n m : Nat} {x : Except CompileError Parsed}
    (h : a.run n = x) (hx : x ≠ .error .depth_exceeded) (hm : n ≤ m) : a.run m = x := by
  rw [stable_le (call_mono a) (by rw [h]; exact hx) m hm, h]

theorem error_ne_depth {e : CompileError} (he : e ≠ .depth_exceeded) :
    (Except.error e : Except CompileError Parsed) ≠ .error .depth_exceeded := by
  intro h
  cases h
  exact he rfl

theorem cons_of_first {s : List Int} {c : Int} (h : character_at_str 0 s = c) (hc : c ≠ 0) :
    ∃ cs, s = c :: cs := by
  cases s with
  | nil => rw [character_at_str_nil] at h; exact absurd h.symm hc
  | cons x xs =>
    rw [character_at_str_zero_cons] at h
    exact ⟨xs, by rw [h]⟩

/-- An error of a parser call is the error of the call that instantiates it. -/
theorem error_of_calls {a b : ParserCall} (h : calls a b) {e : CompileError}
    (he : e ≠ .depth_exceeded) (hb : ∃ n, b.run n = .error e) : ∃ n, a.run n = .error e := by
  obtain ⟨n, hn⟩ := hb
  cases h with
  | group s =>
    refine ⟨n + 1, ?_⟩
    have hn' : regex_parser_inner_re n s false = .error e := hn
    show regex_parser_group (n + 1) (ch '(' :: s) = .error e
    rw [regex_parser_group]
    simp only [next_if_eq, character_at_str_zero_cons, beq_self_eq_true, if_true,
      List.tail_cons, hn', bind, Except.bind]
  | elementary_group s hs =>
    obtain ⟨cs, rfl⟩ := cons_of_first hs (by decide)
    exact ⟨n + 1, (elementary_group cs n rfl).trans hn⟩
  | elementary_set s hs =>
    obtain ⟨cs, rfl⟩ := cons_of_first hs (by decide)
    exact ⟨n + 1, (elementary_set cs n rfl).trans hn⟩
  | basic s =>
    refine ⟨n + 1, ?_⟩
    have hn' : regex_parser_elementary_re n s = .error e := hn
    show regex_parser_basic_re (n + 1) s = .error e
    rw [regex_parser_basic_re, hn']
    rfl
  | simple_first s =>
    refine ⟨n + 1, ?_⟩
    have hn' : regex_parser_basic_re n s = .error e := hn
    show regex_parser_simple_re (n + 1) s false = .error e
    rw [simple_re_false, hn']
    rfl
  | simple_next s r mid hr hs =>
    obtain ⟨k, hk⟩ := hr
    refine ⟨max k n + 1, ?_⟩
    have hn' : regex_parser_simple_re (max k n) mid false = .error e :=
      call_le (a := .simple mid) hn (error_ne_depth he) (Nat.le_max_right k n)
    show regex_parser_simple_re (max k n + 1) s false = .error e
    rw [simple_re_stops] at hs
    rw [simple_re_false, basic_le hk (Nat.le_max_left k n)]
    simp only [bind, Except.bind, hs, hn']
  | inner_first s =>
    refine ⟨n + 1, ?_⟩
    have hn' : regex_parser_simple_re n s false = .error e := hn
    show regex_parser_inner_re (n + 1) s false = .error e
    rw [inner_re_false, hn']
    rfl
  | inner_next s r mid hr hs =>
    obtain ⟨k, hk⟩ := hr
    refine ⟨max k n + 1, ?_⟩
    have hn' : regex_parser_inner_re (max k n) mid false = .error e :=
      call_le (a := .inner mid) hn (error_ne_depth he) (Nat.le_max_right k n)
    have hbar : (character_at_str 0 mid != ch '|') = false := by simp [hs]
    show regex_parser_inner_re (max k n + 1) s false = .error e
    rw [inner_re_false, simple_le hk (Nat.le_max_left k n)]
    simp only [bind, Except.bind, hbar, hn']

/-- When the parsing of a pattern comes to a parser call that fails, the pattern
fails to compile, with the error of that call. -/
theorem compile_fails_of_reaches {str : List Int} {call : ParserCall} {e : CompileError}
    (h0 : character_at_str 0 str ≠ 0) (h : reaches str call) (he : e ≠ .depth_exceeded)
    (hc : ∃ n, call.run n = .error e) : basic_regex str = .error e := by
  have hin : ∃ n, regex_parser_inner_re n (after_begin str) false = .error e := by
    unfold reaches at h
    induction h with
    | refl => exact hc
    | tail _ hbc ih => exact ih (error_of_calls hbc he hc)
  obtain ⟨n, hn⟩ := hin
  refine result_of_fuel (n := n) ?_ (by intro hx; cases hx; exact he rfl)
  rw [regex_parser_re]
  have e0 : (character_at_str 0 str == 0) = false := by simpa using h0
  rw [after_begin] at hn
  simp only [e0, next_if_eq, hn, bind, Except.bind, pure, Except.pure, Bool.false_eq_true,
    if_false]

/-! ## Sets and groups that are not closed -/

theorem first_not_mem {s : List Int} {x : Int} (hx : x ≠ 0) (h : x ∉ s) :
    character_at_str 0 s ≠ x := by
  intro hc
  obtain ⟨cs, rfl⟩ := cons_of_first hc hx
  exact h (List.mem_cons_self _ _)

theorem not_mem_tail {x : Int} (c : Int) (cs : List Int) (h : x ∉ c :: cs) : x ∉ cs :=
  fun hm => h (List.mem_cons_of_mem _ hm)

theorem set_unterminated (body : List Int) (n : Nat) (h : ch ']' ∉ body) :
    regex_parser_set n (ch '[' :: body) =
      match regex_parser_set_items n (after_begin body) false with
      | .ok _ => .error .missing_close_square
      | .error e => .error e := by
  have e1 : (ch '[' != ch '[') = false := by decide
  have hq : ch ']' ∉ after_begin body := by
    rw [after_begin]
    split
    · cases body with
      | nil => exact h
      | cons c cs => exact not_mem_tail c cs h
    · exact h
  have hs := set_items_sat (Q := fun s => ch ']' ∉ s) (R := fun _ => True) (E := fun _ => True)
    (fun c cs hc => not_mem_tail c cs hc) (fun _ _ => trivial) (fun _ => trivial)
    (fun _ _ => trivial) (fun _ _ _ _ => trivial) n (after_begin body) false hq
  unfold regex_parser_set
  simp only [next_if_eq, character_at_str_zero_cons, e1, beq_self_eq_true, bind, Except.bind,
    pure, Except.pure, List.tail_cons, Bool.false_eq_true, if_false, if_true]
  rw [after_begin] at hs ⊢
  cases hi : regex_parser_set_items n
      (if (character_at_str 0 body == ch '^') = true then body.tail else body) false with
  | error e => rfl
  | ok items =>
    have hrest : ch ']' ∉ items.rest := (sat_of_ok hs hi).1
    have hc : (character_at_str 0 items.rest == ch ']') = false := by
      simpa using first_not_mem (by decide) hrest
    simp only [hc, Bool.not_false, if_true]

theorem char_without_backslash {str : List Int} (h : ch '\\' ∉ str) :
    regex_parser_char str = .ok (character_at_str 0 str, str.tail) := by
  cases str with
  | nil => exact char_nil
  | cons c cs =>
    rw [char_cons_ne cs (fun hc => h (by rw [hc]; exact List.mem_cons_self _ _))]
    rfl

theorem not_mem_tail_list {x : Int} {s : List Int} (h : x ∉ s) : x ∉ s.tail := by
  cases s with
  | nil => exact h
  | cons c cs => exact not_mem_tail c cs h

theorem set_item_without_backslash {str : List Int} (h : ch '\\' ∉ str) :
    ∃ r, regex_parser_set_item str = .ok r := by
  have h1 : ch '\\' ∉ str.tail := not_mem_tail_list h
  rw [regex_parser_set_item, char_without_backslash h]
  simp only [bind, Except.bind, next_if_eq]
  by_cases hd : (character_at_str 0 str.tail == ch '-') = true
  · simp only [hd, if_true, char_without_backslash (not_mem_tail_list h1)]
    exact ⟨_, rfl⟩
  · have hd' : (character_at_str 0 str.tail == ch '-') = false := by simpa using hd
    simp only [hd', Bool.false_eq_true, if_false, char_without_backslash h1]
    exact ⟨_, rfl⟩

theorem merge_item_ok (r : Rule) (next : Option Rule) :
    ∃ m, sequence_merge (some (.sequence r [])) next = .ok m := by
  cases next with
  | none => exact ⟨_, merge_void r⟩
  | some r2 => exact ⟨_, (merge_behind_one r r2).1⟩

/-- Without a backslash in the text the parser of the items of a set gives a
result. -/
theorem set_items_without_backslash (n : Nat) :
    ∀ (str : List Int) (e : Bool), ch '\\' ∉ str → str.length + 2 ≤ n →
      ∃ p, regex_parser_set_items n str e = .ok p := by
  induction n with
  | zero => intro str e _ hn; omega
  | succ n ih =>
    intro str e h hn
    cases e with
    | true => exact ⟨_, set_items_end n str⟩
    | false =>
      obtain ⟨r, hr⟩ := set_item_without_backslash h
      have hq := sat_of_ok (set_item_sat (Q := fun s => ch '\\' ∉ s) (R := fun _ => True)
        (E := fun _ => True) (fun c cs hc => not_mem_tail c cs hc) (fun _ _ => trivial)
        (fun _ => trivial) (fun _ _ => trivial) str h) hr
      have hnext : ∃ p, regex_parser_set_items n r.2
          (character_at_str 0 r.2 == ch ']' || character_at_str 0 r.2 == 0) = .ok p := by
        rcases set_item_progress str with herr | ⟨r', hr', hl⟩
        · rw [hr] at herr
          cases herr
        · rw [hr] at hr'
          cases hr'
          rcases hl with hl | ⟨hs, hr2⟩
          · exact ih _ _ hq.2 (by omega)
          · rw [hr2]
            obtain ⟨k, rfl⟩ : ∃ k, n = k + 1 := ⟨n - 1, by rw [hs] at hn; simp at hn; omega⟩
            exact ⟨_, by rw [character_at_str_nil]; exact set_items_end k []⟩
      obtain ⟨p, hp⟩ := hnext
      obtain ⟨m, hm⟩ := merge_item_ok r.1 p.rule
      refine ⟨⟨some (sequence_remove m), p.rest⟩, ?_⟩
      rw [set_items_false, hr]
      simp only [bind, Except.bind, hp, hm]
      rfl

theorem not_mem_after_begin {x : Int} {s : List Int} (h : x ∉ s) : x ∉ after_begin s := by
  rw [after_begin]
  split
  · exact not_mem_tail_list h
  · exact h

theorem after_begin_length (s : List Int) : (after_begin s).length ≤ s.length := by
  rw [after_begin]
  split
  · rw [List.length_tail]; omega
  · exact Nat.le_refl _

/-- C34: a set whose text `body` behind '[' holds no ']' never parses; the set
parser fails with "Missing ']' character" whenever the items of the set parse
(an escape in `body` allowed), and a pattern whose parsing comes to such a set
fails to compile with that error.  Whatever `body` holds, a pattern whose
parsing comes to a set without ']' never compiles.  The items parse when `body`
holds no backslash; "[abc", "[^abc", "a[bc", "(a[bc" and, with an escape,
"[a\.b" are patterns that fail with "Missing ']' character". -/
theorem unterminated_set_fails :
    (∀ (body : List Int) (n : Nat) (p : Parsed), ch ']' ∉ body →
      regex_parser_set n (ch '[' :: body) ≠ .ok p) ∧
    (∀ (body : List Int) (n : Nat) (p : Parsed), ch ']' ∉ body →
      regex_parser_set_items n (after_begin body) false = .ok p →
      regex_parser_set n (ch '[' :: body) = .error .missing_close_square) ∧
    (∀ (str body : List Int) (n : Nat) (p : Parsed), character_at_str 0 str ≠ 0 →
      reaches str (.elementary (ch '[' :: body)) → ch ']' ∉ body →
      regex_parser_set_items n (after_begin body) false = .ok p →
      basic_regex str = .error .missing_close_square) ∧
    (∀ (str body : List Int) (r : Rule), character_at_str 0 str ≠ 0 →
      reaches str (.elementary (ch '[' :: body)) → ch ']' ∉ body →
      basic_regex str ≠ .ok r) ∧
    (∀ body : List Int, ch ']' ∉ body → ch '\\' ∉ body →
      regex_parser_set (body.length + 2) (ch '[' :: body) = .error .missing_close_square) ∧
    (∀ (str body : List Int), character_at_str 0 str ≠ 0 →
      reaches str (.elementary (ch '[' :: body)) → ch ']' ∉ body → ch '\\' ∉ body →
      basic_regex str = .error .missing_close_square) ∧
    basic_regex (chars "[abc") = .error .missing_close_square ∧
    basic_regex (chars "[^abc") = .error .missing_close_square ∧
    basic_regex (chars "a[bc") = .error .missing_close_square ∧
    basic_regex (chars "(a[bc") = .error .missing_close_square ∧
    basic_regex (chars "[a\\.b") = .error .missing_close_square := by
  have h1 : ∀ (body : List Int) (n : Nat) (p : Parsed), ch ']' ∉ body →
      regex_parser_set n (ch '[' :: body) ≠ .ok p := by
    intro body n p h hok
    rw [set_unterminated body n h] at hok
    split at hok <;> cases hok
  have h2 : ∀ (body : List Int) (n : Nat) (p : Parsed), ch ']' ∉ body →
      regex_parser_set_items n (after_begin body) false = .ok p →
      regex_parser_set n (ch '[' :: body) = .error .missing_close_square := by
    intro body n p h hp
    rw [set_unterminated body n h, hp]
  have h3 : ∀ (str body : List Int) (n : Nat) (p : Parsed), character_at_str 0 str ≠ 0 →
      reaches str (.elementary (ch '[' :: body)) → ch ']' ∉ body →
      regex_parser_set_items n (after_begin body) false = .ok p →
      basic_regex str = .error .missing_close_square := by
    intro str body n p h0 hr h hp
    exact compile_fails_of_reaches h0
      (Relation.ReflTransGen.tail hr (calls.elementary_set _ (character_at_str_zero_cons _ _)))
      (by simp) ⟨n, h2 body n p h hp⟩
  have h5 : ∀ body : List Int, ch ']' ∉ body → ch '\\' ∉ body →
      regex_parser_set (body.length + 2) (ch '[' :: body) = .error .missing_close_square := by
    intro body h hb
    obtain ⟨p, hp⟩ := set_items_without_backslash (body.length + 2) (after_begin body) false
      (not_mem_after_begin hb) (by have := after_begin_length body; omega)
    exact h2 body _ p h hp
  refine ⟨h1, h2, h3, ?_, h5, ?_, ?_, ?_, ?_, ?_, ?_⟩
  · intro str body r h0 hr h hok
    have hg := @set_budget ((ch '[' :: body).length + 1) (ch '[' :: body)
      (Nat.le_refl _) (character_at_str_zero_cons _ _)
    cases hrun : regex_parser_set ((ch '[' :: body).length + 1) (ch '[' :: body) with
    | ok p => exact h1 body _ p h hrun
    | error e =>
      have he : e ≠ .depth_exceeded := by
        intro hc
        rw [hc] at hrun
        exact hg.1 hrun
      have := compile_fails_of_reaches h0
        (Relation.ReflTransGen.tail hr
          (calls.elementary_set _ (character_at_str_zero_cons _ _)))
        he ⟨(ch '[' :: body).length + 1, hrun⟩
      rw [this] at hok
      cases hok
  · intro str body h0 hr h hb
    exact compile_fails_of_reaches h0
      (Relation.ReflTransGen.tail hr (calls.elementary_set _ (character_at_str_zero_cons _ _)))
      (by simp) ⟨_, h5 body h hb⟩
  all_goals
    refine result_of_fuel (n := 30) ?_ (by simp)
    simp [chars, regex_parser_re, inner_re_false, inner_re_end, simple_re_false, simple_re_end,
      regex_parser_basic_re, elementary_set, elementary_char, elementary_group,
      regex_parser_group, regex_parser_set, set_items_false, set_items_end,
      regex_parser_set_item, char_nil, char_cons_ne, char_escape, next_if_eq,
      character_at_str_zero_cons, character_at_str_nil, sequence_merge, sequence_remove,
      Parsed.need, ch, bind, Except.bind, pure, Except.pure, throw, throwThe,
      MonadExceptOf.throw]

/-- C34, witness: the set "[bc" of the pattern "a[bc", to which the parsing comes
behind the basic-RE "a", and whose items "bc" parse. -/
theorem unterminated_set_fails_witness :
    ch ']' ∉ chars "bc" ∧ ch '\\' ∉ chars "bc" ∧ character_at_str 0 (chars "a[bc") ≠ 0 ∧
      reaches (chars "a[bc") (.elementary (ch '[' :: chars "bc")) ∧
      regex_parser_set_items 4 (after_begin (chars "bc")) false =
        .ok ⟨some (.sequence (.val (ch 'b')) [.val (ch 'c')]), []⟩ ∧
      regex_parser_set 4 (ch '[' :: chars "bc") = .error .missing_close_square ∧
      basic_regex (chars "a[bc") = .error .missing_close_square ∧
      basic_regex (chars "a[bc") ≠ .ok (.val (ch 'a')) ∧
      regex_parser_set ((chars "bc").length + 2) (ch '[' :: chars "bc") =
        .error .missing_close_square ∧
      basic_regex (chars "a[bc") = .error .missing_close_square := by
  have hb : regex_parser_basic_re 3 (chars "a[bc") =
      .ok ⟨some (.val (ch 'a')), ch '[' :: chars "bc"⟩ := by
    simp [chars, regex_parser_basic_re, elementary_char, char_cons_ne, next_if_eq,
      character_at_str_zero_cons, Parsed.need, ch, bind, Except.bind, pure, Except.pure]
  have hr : reaches (chars "a[bc") (.elementary (ch '[' :: chars "bc")) :=
    (((Relation.ReflTransGen.single (calls.inner_first (chars "a[bc"))).tail
      (calls.simple_next _ _ _ ⟨3, hb⟩ (by decide))).tail
      (calls.simple_first _)).tail (calls.basic _)
  have hi : regex_parser_set_items 4 (after_begin (chars "bc")) false =
      .ok ⟨some (.sequence (.val (ch 'b')) [.val (ch 'c')]), []⟩ := by
    simp [chars, after_begin, set_items_false, set_items_end, regex_parser_set_item, char_nil,
      char_cons_ne, next_if_eq, character_at_str_zero_cons, character_at_str_nil,
      sequence_merge, sequence_remove, ch, bind, Except.bind, pure, Except.pure]
  exact ⟨by decide, by decide, by decide, hr, hi,
    unterminated_set_fails.2.1 (chars "bc") 4 _ (by decide) hi,
    unterminated_set_fails.2.2.1 (chars "a[bc") (chars "bc") 4 _ (by decide) hr (by decide) hi,
    unterminated_set_fails.2.2.2.1 (chars "a[bc") (chars "bc") (.val (ch 'a')) (by decide) hr
      (by decide),
    unterminated_set_fails.2.2.2.2.1 (chars "bc") (by decide) (by decide),
    unterminated_set_fails.2.2.2.2.2.1 (chars "a[bc") (chars "bc") (by decide) hr (by decide)
      (by decide)⟩

theorem group_unterminated (body : List Int) (n : Nat) (h : ch ')' ∉ body) :
    regex_parser_group (n + 1) (ch '(' :: body) =
      match regex_parser_inner_re n body false with
      | .ok _ => .error .group_must_end
      | .error e => .error e := by
  have hs := (parser_sat (Q := fun s => ch ')' ∉ s) (R := fun _ => True) (E := fun _ => True)
    (fun c cs hc => not_mem_tail c cs hc) (fun _ _ => trivial) (fun _ => trivial)
    (fun _ _ => trivial) trivial (fun _ _ => ⟨trivial, trivial, trivial⟩)
    (fun _ _ _ _ => trivial) (fun _ _ => ⟨trivial, trivial⟩) n).2.2.2.2 body false h
  rw [regex_parser_group]
  simp only [next_if_eq, character_at_str_zero_cons, beq_self_eq_true, bind, Except.bind,
    pure, Except.pure, List.tail_cons, if_true]
  cases hi : regex_parser_inner_re n body false with
  | error e => rfl
  | ok inner =>
    have hrest : ch ')' ∉ inner.rest := (sat_of_ok hs hi).1
    have hc : (character_at_str 0 inner.rest == ch ')') = false := by
      simpa using first_not_mem (by decide) hrest
    simp only [hc, Bool.not_true, Bool.not_false, Bool.false_eq_true, if_false, if_true]

/-- C35: a group whose text `body` behind '(' holds no ')' never parses; the group
parser fails with "Group must ends with ')'" whenever the inner-RE parses, as
it does for a text of plain characters, and with the error of the inner-RE
otherwise.  Every pattern whose parsing comes to such a group fails to compile
with the same error; "(ab" and "x(ab" fail with "Group must ends with ')'",
which is another error than those of the set and of the empty pattern. -/
theorem unterminated_group_fails :
    (∀ (body : List Int) (n : Nat) (p : Parsed), ch ')' ∉ body →
      regex_parser_group n (ch '(' :: body) ≠ .ok p) ∧
    (∀ (body : List Int) (n : Nat) (p : Parsed), ch ')' ∉ body →
      regex_parser_inner_re n body false = .ok p →
      regex_parser_group (n + 1) (ch '(' :: body) = .error .group_must_end) ∧
    (∀ (c : Int) (cs : List Int), (∀ x ∈ c :: cs, metacharacter x = false) →
      ∃ n, regex_parser_group n (ch '(' :: c :: cs) = .error .group_must_end) ∧
    (∀ (str body : List Int) (n : Nat) (p : Parsed), character_at_str 0 str ≠ 0 →
      reaches str (.group (ch '(' :: body)) → ch ')' ∉ body →
      regex_parser_inner_re n body false = .ok p →
      basic_regex str = .error .group_must_end) ∧
    (∀ (str body : List Int) (r : Rule), character_at_str 0 str ≠ 0 →
      reaches str (.group (ch '(' :: body)) → ch ')' ∉ body → basic_regex str ≠ .ok r) ∧
    basic_regex (chars "(ab") = .error .group_must_end ∧
    basic_regex (chars "x(ab") = .error .group_must_end ∧
    basic_regex (chars "((ab)") = .error .group_must_end ∧
    CompileError.group_must_end ≠ CompileError.missing_close_square ∧
    CompileError.group_must_end ≠ CompileError.string_cannot_be_empty := by
  have h1 : ∀ (body : List Int) (n : Nat) (p : Parsed), ch ')' ∉ body →
      regex_parser_group n (ch '(' :: body) ≠ .ok p := by
    intro body n p h hok
    cases n with
    | zero => rw [regex_parser_group] at hok; cases hok
    | succ n =>
      rw [group_unterminated body n h] at hok
      split at hok <;> cases hok
  have h2 : ∀ (body : List Int) (n : Nat) (p : Parsed), ch ')' ∉ body →
      regex_parser_inner_re n body false = .ok p →
      regex_parser_group (n + 1) (ch '(' :: body) = .error .group_must_end := by
    intro body n p h hp
    rw [group_unterminated body n h, hp]
  refine ⟨h1, h2, ?_, ?_, ?_, ?_, ?_, ?_, by simp, by simp⟩
  · intro c cs hplain
    have hc := hplain c (List.mem_cons_self _ _)
    have hcs : ∀ x ∈ cs, metacharacter x = false :=
      fun x hx => hplain x (List.mem_cons_of_mem _ hx)
    have hno : ch ')' ∉ c :: cs := by
      intro hm
      exact (metacharacter_false (hplain _ hm)).2.2.2.1 rfl
    have hs := simple_plain cs c 0 hc hcs
    have hi := inner_of_simple hs (by rw [character_at_str_nil]; decide)
    exact ⟨_, h2 _ _ _ hno hi⟩
  · intro str body n p h0 hr h hp
    exact compile_fails_of_reaches h0 hr (by simp) ⟨n + 1, h2 body n p h hp⟩
  · intro str body r h0 hr h hok
    have hg := (parser_budget (5 * (ch '(' :: body).length)).1 (ch '(' :: body)
      (character_at_str_zero_cons _ _) (Nat.le_refl _)
    cases hrun : regex_parser_group (5 * (ch '(' :: body).length) (ch '(' :: body) with
    | ok p => exact h1 body _ p h hrun
    | error e =>
      have he : e ≠ .depth_exceeded := by
        intro hc
        rw [hc] at hrun
        exact hg.1 hrun
      have := compile_fails_of_reaches h0 hr he ⟨5 * (ch '(' :: body).length, hrun⟩
      rw [this] at hok
      cases hok
  all_goals
    refine result_of_fuel (n := 30) ?_ (by simp)
    simp [chars, regex_parser_re, inner_re_false, inner_re_end, simple_re_false, simple_re_end,
      regex_parser_basic_re, elementary_char, elementary_group, regex_parser_group, char_nil,
      char_cons_ne, next_if_eq, character_at_str_zero_cons, character_at_str_nil,
      sequence_merge, sequence_remove, Parsed.need, ch, bind, Except.bind, pure, Except.pure,
      throw, throwThe, MonadExceptOf.throw]

/-- C35, witness: the group "(ab" of the pattern "x(ab", to which the parsing comes
behind the basic-RE "x". -/
theorem unterminated_group_fails_witness :
    ch ')' ∉ chars "ab" ∧ character_at_str 0 (chars "x(ab") ≠ 0 ∧
      reaches (chars "x(ab") (.group (ch '(' :: chars "ab")) ∧
      regex_parser_inner_re 8 (chars "ab") false =
        .ok ⟨some (.sequence (.val (ch 'a')) [.val (ch 'b')]), []⟩ ∧
      regex_parser_group 9 (ch '(' :: chars "ab") = .error .group_must_end ∧
      basic_regex (chars "x(ab") = .error .group_must_end := by
  have hb : regex_parser_basic_re 3 (chars "x(ab") =
      .ok ⟨some (.val (ch 'x')), ch '(' :: chars "ab"⟩ := by
    simp [chars, regex_parser_basic_re, elementary_char, char_cons_ne, next_if_eq,
      character_at_str_zero_cons, Parsed.need, ch, bind, Except.bind, pure, Except.pure]
  have hi : regex_parser_inner_re 8 (chars "ab") false =
      .ok ⟨some (.sequence (.val (ch 'a')) [.val (ch 'b')]), []⟩ := by
    simp [chars, inner_re_false, inner_re_end, simple_re_false, simple_re_end,
      regex_parser_basic_re, elementary_char, char_cons_ne, next_if_eq,
      character_at_str_zero_cons, character_at_str_nil, sequence_merge, sequence_remove,
      Parsed.need, ch, bind, Except.bind, pure, Except.pure]
  have hr : reaches (chars "x(ab") (.group (ch '(' :: chars "ab")) :=
    ((((Relation.ReflTransGen.single (calls.inner_first (chars "x(ab"))).tail
      (calls.simple_next _ _ _ ⟨3, hb⟩ (by decide))).tail
      (calls.simple_first _)).tail (calls.basic _)).tail
      (calls.elementary_group _ (by decide))
  exact ⟨by decide, by decide, hr, hi,
    unterminated_group_fails.2.1 (chars "ab") 8 _ (by decide) hi,
    unterminated_group_fails.2.2.2.1 (chars "x(ab") (chars "ab") 8 _ (by decide) hr
      (by decide) hi⟩

/-! ## Repetition of a test on single values, at least once -/

theorem repeat_loop_le {n m : Nat} (h : n ≤ m) {r : Rule} {s : List Int} {c it : Nat}
    {x : Bool × Nat}
    (hx : (repeat_loop n r s [] [] c it []).map proj = some x) :
    (repeat_loop m r s [] [] c it []).map proj = some x := by
  induction h with
  | refl => exact hx
  | @step k _ ih =>
    cases hl : repeat_loop k r s [] [] c it [] with
    | none => rw [hl] at ih; simp at ih
    | some y =>
      rw [hl] at ih
      rw [(fuel_step _).2.2 r s [] [] c it [] y hl]
      exact ih

theorem repeat_loop_step (n : Nat) (r : Rule) (s : List Int) (c it : Nat) :
    (repeat_loop (n + 1) r s [] [] c it []).map proj =
      if it ≠ s.length then
        match run n r s it with
        | none => none
        | some (true, q) => (repeat_loop n r s [] [] ((c + 1) % 2 ^ 32) q []).map proj
        | some (false, q) => some (decide (c ≠ 0), q)
      else some (decide (c ≠ 0), it) := by
  rw [repeat_loop]
  by_cases he : it = s.length
  · simp [he, proj]
  · simp only [ne_eq, he, not_false_eq_true, if_true]
    cases h : match_impl n r s [] [] it [] with
    | none => simp [(run_eq_none _ _ _).2 h]
    | some x =>
      obtain ⟨f, q, m⟩ := x
      rw [(run_eq_some _ _ _).2 ⟨m, h⟩]
      cases f
      · simp [proj]
      · simp only []
        exact (sinks_irrelevant n).2.2 r s _ q [] [] m [] [] []

/-- The loop of `repeat` over a rule that tests one value: it takes the values of
`cs`, which pass the test, stops at the end or at a value that does not pass,
and counts modulo `2 ^ 32`. -/
theorem repeat_scan {r : Rule} {is : Int → Bool} (hc : IsClass r is) (cs : List Int) :
    ∀ (pre suf : List Int) (c : Nat), (∀ x ∈ cs, is x = true) →
      (suf = [] ∨ ∃ x t, suf = x :: t ∧ is x = false) → c < 2 ^ 32 →
      ∃ n, (repeat_loop n r (pre ++ (cs ++ suf)) [] [] c pre.length []).map proj =
        some (decide ((c + cs.length) % 2 ^ 32 ≠ 0), pre.length + cs.length) := by
  induction cs with
  | nil =>
    intro pre suf c _ hsuf hlt
    have e0 : (c + ([] : List Int).length) % 2 ^ 32 = c := by
      rw [List.length_nil, Nat.add_zero, Nat.mod_eq_of_lt hlt]
    rw [e0]
    rcases hsuf with rfl | ⟨x, t, rfl, hx⟩
    · refine ⟨1, ?_⟩
      rw [repeat_loop_step]
      simp
    · have hd : deref (pre ++ ([] ++ x :: t)) pre.length = x := by
        rw [List.nil_append, deref_append_length]
        rfl
      obtain ⟨k, hk⟩ := returns_iff_run.1 ((@isClass_false _ _ hc
        (pre ++ ([] ++ x :: t)) pre.length pre.length).2
        ⟨by rw [hd]; exact hx, rfl⟩)
      refine ⟨k + 1, ?_⟩
      rw [repeat_loop_step, hk]
      simp
  | cons y ys ih =>
    intro pre suf c hall hsuf hlt
    have hy : is y = true := hall y (List.mem_cons_self _ _)
    have hd : deref (pre ++ (y :: ys ++ suf)) pre.length = y := by
      rw [deref_append_length]
      rfl
    obtain ⟨k, hk⟩ := returns_iff_run.1 ((@isClass_true _ _ hc
      (pre ++ (y :: ys ++ suf)) pre.length (pre.length + 1)).2
      ⟨by rw [hd]; exact hy, rfl⟩)
    obtain ⟨m, hm⟩ := ih (pre ++ [y]) suf ((c + 1) % 2 ^ 32)
      (fun x hx => hall x (List.mem_cons_of_mem _ hx)) hsuf (Nat.mod_lt _ (by decide))
    have es : pre ++ [y] ++ (ys ++ suf) = pre ++ (y :: ys ++ suf) := by simp
    have el : (pre ++ [y]).length = pre.length + 1 := by simp
    rw [es, el] at hm
    refine ⟨max k m + 1, ?_⟩
    rw [repeat_loop_step, run_mono (Nat.le_max_left k m) hk]
    have hne : pre.length ≠ (pre ++ (y :: ys ++ suf)).length := by
      simp
    simp only [ne_eq, hne, not_false_eq_true, if_true]
    rw [repeat_loop_le (Nat.le_max_right k m) hm]
    have e : ((c + 1) % 2 ^ 32 + ys.length) % 2 ^ 32 = (c + (y :: ys).length) % 2 ^ 32 := by
      rw [Nat.mod_add_mod, List.length_cons]
      congr 1
      omega
    rw [e, List.length_cons]
    congr 2
    omega

theorem returns_repeat_scan {r : Rule} {is : Int → Bool} (hc : IsClass r is)
    (pre cs suf : List Int) (hall : ∀ x ∈ cs, is x = true)
    (hsuf : suf = [] ∨ ∃ x t, suf = x :: t ∧ is x = false) (hlen : cs.length < 2 ^ 32) :
    Returns (.repeat_ r) (pre ++ (cs ++ suf)) pre.length (decide (cs ≠ []))
      (pre.length + cs.length) := by
  obtain ⟨n, hn⟩ := repeat_scan hc cs pre suf 0 hall hsuf (by decide)
  refine returns_of_run (n + 1) ?_
  rw [run, match_impl]
  rw [hn, Nat.zero_add, Nat.mod_eq_of_lt hlen]
  congr 2
  cases cs <;> simp

theorem returns_optional_last (v : Int) (hv : v ≠ 0) (pre tail : List Int)
    (ht : tail = [] ∨ tail = [v]) :
    Returns (.optional (.val v)) (pre ++ tail) pre.length true (pre ++ tail).length := by
  have hd := deref_append_length pre tail
  rcases ht with rfl | rfl
  · have h : Returns (.val v) (pre ++ []) pre.length false pre.length :=
      (isClass_false (isClass_val v)).2 ⟨by rw [hd]; simpa [val_is] using hv.symm, rfl⟩
    have hl : (pre ++ ([] : List Int)).length = pre.length := by simp
    rw [hl]
    exact returns_optional.2 ⟨rfl, _, h⟩
  · have h : Returns (.val v) (pre ++ [v]) pre.length true (pre.length + 1) :=
      (isClass_true (isClass_val v)).2 ⟨by rw [hd]; simp [val_is], rfl⟩
    have hl : (pre ++ [v]).length = pre.length + 1 := by simp
    rw [hl]
    exact returns_optional.2 ⟨rfl, _, h⟩

/-- C36, as the code has it: the pattern "^a?[a-z]+T?$" compiles to `regex6_rule`.
On an input made of lowercase letters `letters` (at least one, fewer than
`2 ^ 32`) and then nothing or one 'T', `regex_match` returns, with true exactly
when `letters` is not the single letter 'a': the optional 'a' takes a first
letter 'a' and gives nothing back.  The inputs "aaaaa" and "azzxxxzzzT" of the
test give true. -/
theorem regex6_matches_unless_the_only_letter_is_a :
    basic_regex (chars "^a?[a-z]+T?$") = .ok regex6_rule ∧
    (∀ letters tail : List Int, letters ≠ [] →
      (∀ x ∈ letters, ch 'a' ≤ x ∧ x ≤ ch 'z') → (tail = [] ∨ tail = [ch 'T']) →
      letters.length < 2 ^ 32 →
      ∃ fuel, regex_match fuel regex6_rule (letters ++ tail) =
        some (decide (letters ≠ [ch 'a']))) ∧
    regex_match 20 regex6_rule (chars "aaaaa") = some true ∧
    regex_match 20 regex6_rule (chars "azzxxxzzzT") = some true := by
  refine ⟨?_, ?_, by decide, by decide⟩
  · apply @compiles_of_fuel _ _ 30
    simp [chars, regex6_rule, regex_parser_re, inner_re_false, inner_re_end, simple_re_false,
      simple_re_end, regex_parser_basic_re, elementary_set, elementary_char, regex_parser_set,
      set_items_false, set_items_end, regex_parser_set_item, char_cons_ne, next_if_eq,
      character_at_str_zero_cons, character_at_str_nil, sequence_merge, sequence_remove,
      Parsed.need, ch, bind, Except.bind, pure, Except.pure]
  · intro letters tail hne hlow htail hlen
    have hc : IsClass (.alternative (.range (ch 'a') (ch 'z')) [])
        (range_is (ch 'a') (ch 'z')) := isClass_alternative_one (isClass_range _ _)
    have hP : ∀ x ∈ letters, range_is (ch 'a') (ch 'z') x = true := by
      intro x hx
      simpa [range_is] using hlow x hx
    have hsuf : tail = [] ∨ ∃ x t, tail = x :: t ∧ range_is (ch 'a') (ch 'z') x = false := by
      rcases htail with rfl | rfl
      · exact Or.inl rfl
      · exact Or.inr ⟨_, _, rfl, by decide⟩
    have hlast := returns_optional_last (ch 'T') (by decide) letters tail htail
    cases letters with
    | nil => exact absurd rfl hne
    | cons l ls =>
      have hd0 : deref (l :: ls ++ tail) 0 = l := rfl
      by_cases hl : l = ch 'a'
      · subst hl
        have h1 : Returns (.optional (.val (ch 'a'))) (ch 'a' :: ls ++ tail) 0 true 1 :=
          returns_optional.2 ⟨rfl, _, (isClass_true (isClass_val (ch 'a'))).2
            ⟨by rw [hd0]; simp [val_is], rfl⟩⟩
        have h2 := returns_repeat_scan hc [ch 'a'] ls tail
          (fun x hx => hP x (List.mem_cons_of_mem _ hx)) hsuf
          (by simp only [List.length_cons] at hlen; omega)
        have e2 : [ch 'a'] ++ (ls ++ tail) = ch 'a' :: ls ++ tail := by simp
        have el : ([ch 'a'] : List Int).length + ls.length = (ch 'a' :: ls).length := by
          simp
          omega
        rw [e2, el] at h2
        cases ls with
        | nil =>
          refine regex_match_of_returns (q := 1) (returns_begin_end.2 ⟨false,
            returns_sequence_cons.2 (Or.inr ⟨1, h1, returns_sequence_cons.2
              (Or.inl ⟨rfl, ?_⟩)⟩), by simp⟩)
          simpa using h2
        | cons l2 ls2 =>
          refine regex_match_of_returns (returns_begin_end.2 ⟨true,
            returns_sequence_cons.2 (Or.inr ⟨1, h1, returns_sequence_cons.2
              (Or.inr ⟨_, ?_, returns_sequence_one.2 hlast⟩)⟩), by simp⟩)
          simpa using h2
      · have h1 : Returns (.optional (.val (ch 'a'))) (l :: ls ++ tail) 0 true 0 :=
          returns_optional.2 ⟨rfl, _, (isClass_false (isClass_val (ch 'a'))).2
            ⟨by rw [hd0]; simp [val_is, hl], rfl⟩⟩
        have h2 := returns_repeat_scan hc [] (l :: ls) tail hP hsuf hlen
        have e2 : ([] : List Int) ++ (l :: ls ++ tail) = l :: ls ++ tail := by simp
        have el : ([] : List Int).length + (l :: ls).length = (l :: ls).length := by simp
        rw [e2, el] at h2
        refine regex_match_of_returns (returns_begin_end.2 ⟨true,
          returns_sequence_cons.2 (Or.inr ⟨0, h1, returns_sequence_cons.2
            (Or.inr ⟨_, ?_, returns_sequence_one.2 hlast⟩)⟩), by simp [hl]⟩)
        simpa using h2

/-- C36, witness: the input "azzxxxzzzT" of the test. -/
theorem regex6_matches_unless_the_only_letter_is_a_witness :
    chars "azzxxxzzz" ≠ [] ∧ (∀ x ∈ chars "azzxxxzzz", ch 'a' ≤ x ∧ x ≤ ch 'z') ∧
      (chars "T" = [] ∨ chars "T" = [ch 'T']) ∧ (chars "azzxxxzzz").length < 2 ^ 32 ∧
      ∃ fuel, regex_match fuel regex6_rule (chars "azzxxxzzz" ++ chars "T") =
        some (decide (chars "azzxxxzzz" ≠ [ch 'a'])) :=
  ⟨by decide, by decide, Or.inr rfl, by decide,
    regex6_matches_unless_the_only_letter_is_a.2.1 (chars "azzxxxzzz") (chars "T") (by decide)
      (by decide) (Or.inr rfl) (by decide)⟩

/-- C36, counterexample: the inputs "a" and "aT" are one lowercase letter, followed
by nothing and by one 'T', and `regex_match` returns false on them. -/
theorem regex6_fails_on_the_single_letter_a :
    regex_match 20 regex6_rule (chars "a") = some false ∧
      regex_match 20 regex6_rule (chars "aT") = some false := by
  constructor <;> decide

/-! ## A sequence at the end of a sequence -/

theorem gives_sequence_one {r : Rule} {s : List Int} {caps outs : List Nat} {it : Nat}
    {mem : List Sink} {res : Bool × Nat × List Sink} :
    (∃ fuel, match_impl fuel (.sequence r []) s caps outs it mem = some res) ↔
      ∃ fuel, match_impl fuel r s caps outs it mem = some res := by
  constructor
  · rintro ⟨fuel, h⟩
    cases fuel with
    | zero => simp [match_impl] at h
    | succ n =>
      rw [match_impl] at h
      exact ⟨n, h⟩
  · rintro ⟨fuel, h⟩
    exact ⟨fuel + 1, by rw [match_impl]; exact h⟩

theorem gives_sequence_cons {r r2 : Rule} {rs : List Rule} {s : List Int}
    {caps outs : List Nat} {it : Nat} {mem : List Sink} {res : Bool × Nat × List Sink} :
    (∃ fuel, match_impl fuel (.sequence r (r2 :: rs)) s caps outs it mem = some res) ↔
      (∃ it1 mem1, res = (false, it1, mem1) ∧
        ∃ fuel, match_impl fuel r s caps (outs.take r.output_count) it mem =
          some (false, it1, mem1)) ∨
      (∃ it1 mem1,
        (∃ fuel, match_impl fuel r s caps (outs.take r.output_count) it mem =
          some (true, it1, mem1)) ∧
        ∃ fuel, match_impl fuel (.sequence r2 rs) s caps (outs.drop r.output_count) it1 mem1 =
          some res) := by
  constructor
  · rintro ⟨fuel, h⟩
    cases fuel with
    | zero => simp [match_impl] at h
    | succ n =>
      rw [match_impl] at h
      cases h1 : match_impl n r s caps (outs.take r.output_count) it mem with
      | none => rw [h1] at h; simp at h
      | some x =>
        obtain ⟨f, it1, mem1⟩ := x
        rw [h1] at h
        cases f
        · simp only [Option.some.injEq] at h
          exact Or.inl ⟨it1, mem1, h.symm, n, h1⟩
        · exact Or.inr ⟨it1, mem1, ⟨n, h1⟩, n, h⟩
  · rintro (⟨it1, mem1, rfl, fuel, h⟩ | ⟨it1, mem1, ⟨k, hk⟩, m, hm⟩)
    · exact ⟨fuel + 1, by rw [match_impl, h]⟩
    · refine ⟨max k m + 1, ?_⟩
      rw [match_impl, match_impl_mono (Nat.le_max_left k m) hk]
      exact match_impl_mono (Nat.le_max_right k m) hm

/-- C39: for rules `x`, `xs`, `y`, `ys`, every input, every list of captures and
of outputs and every state of the sinks, `sequence<x, xs..., sequence<y, ys...>>`
returns a result (flag, iterator and sinks afterwards) exactly when
`sequence<x, xs..., y, ys...>` returns it; so the one returns nothing exactly
when the other returns nothing. -/
theorem sequence_at_the_end_can_be_flattened (xs : List Rule) :
    ∀ (x y : Rule) (ys : List Rule) (s : List Int) (caps outs : List Nat) (it : Nat)
      (mem : List Sink),
      (∀ res : Bool × Nat × List Sink,
        (∃ fuel, match_impl fuel (.sequence x (xs ++ [.sequence y ys])) s caps outs it mem =
          some res) ↔
        (∃ fuel, match_impl fuel (.sequence x (xs ++ y :: ys)) s caps outs it mem =
          some res)) ∧
      ((∀ fuel, match_impl fuel (.sequence x (xs ++ [.sequence y ys])) s caps outs it mem =
          none) ↔
        (∀ fuel, match_impl fuel (.sequence x (xs ++ y :: ys)) s caps outs it mem = none)) := by
  have hmain : ∀ (xs : List Rule) (x y : Rule) (ys : List Rule) (s : List Int)
      (caps outs : List Nat) (it : Nat) (mem : List Sink) (res : Bool × Nat × List Sink),
      (∃ fuel, match_impl fuel (.sequence x (xs ++ [.sequence y ys])) s caps outs it mem =
        some res) ↔
      (∃ fuel, match_impl fuel (.sequence x (xs ++ y :: ys)) s caps outs it mem =
        some res) := by
    intro xs
    induction xs with
    | nil =>
      intro x y ys s caps outs it mem res
      simp only [List.nil_append]
      rw [gives_sequence_cons, gives_sequence_cons]
      simp only [gives_sequence_one]
    | cons x2 xs ih =>
      intro x y ys s caps outs it mem res
      simp only [List.cons_append]
      rw [gives_sequence_cons, gives_sequence_cons]
      simp only [ih]
  intro x y ys s caps outs it mem
  refine ⟨hmain xs x y ys s caps outs it mem, ?_⟩
  constructor
  · intro h fuel
    cases hf : match_impl fuel (.sequence x (xs ++ y :: ys)) s caps outs it mem with
    | none => rfl
    | some res =>
      obtain ⟨k, hk⟩ := (hmain xs x y ys s caps outs it mem res).2 ⟨fuel, hf⟩
      rw [h k] at hk
      cases hk
  · intro h fuel
    cases hf : match_impl fuel (.sequence x (xs ++ [.sequence y ys])) s caps outs it mem with
    | none => rfl
    | some res =>
      obtain ⟨k, hk⟩ := (hmain xs x y ys s caps outs it mem res).1 ⟨fuel, hf⟩
      rw [h k] at hk
      cases hk

end template_regex
